import Mathlib

/-!
Verification of the minefield consistency engine of a Minesweeper clone.

The definitions below are a shallow embedding of the game's core (the grid
model, region reveal, the shallow/deep partition, the constraint encoder,
the uniform combination sampler, and the commit step of alter_minefield),
translated from the C++ source. The external 0/1 feasibility solver and the
pseudorandom source are modelled as parameters (a solver oracle and a draw
function). Machine integers: the cell adjacency field is a Uint8 in the
source, so increments and decrements are taken modulo 256; loop bounds and
totals are C ints, modelled as Nat/Int with explicit conversions where the
source can go negative.
-/

namespace Minesweeper

/-- One grid cell: mine flag, exploded flag, player flag, question mark,
visibility, mistake marker, and the adjacent-mine count (a Uint8 in the
source). -/
structure cell where
  mine : Bool
  exploded : Bool
  flag : Bool
  qmark : Bool
  visible : Bool
  mistake : Bool
  adj : Nat
deriving DecidableEq, Repr

/-- The zero-initialized cell (the source's value-initialized virgin cell). -/
def cell.virgin : cell := ⟨false, false, false, false, false, false, 0⟩

/-- The minefield: a fixed-size rectangular array of cells stored row-major,
cell (x, y) at index width * y + x. -/
structure Grid where
  width : Nat
  height : Nat
  cells : List cell
deriving DecidableEq, Repr

/-- Read the cell at (x, y): minefield[grid_width * y + x]. -/
def Grid.get (g : Grid) (x y : Nat) : cell :=
  g.cells.getD (g.width * y + x) cell.virgin

/-- Write the cell at (x, y). -/
def Grid.put (g : Grid) (x y : Nat) (c : cell) : Grid :=
  { g with cells := g.cells.set (g.width * y + x) c }

/-- Well-formedness: the cell array has exactly width * height entries and
both dimensions are positive (the source's smallest grid is 5 x 3). -/
def Grid.wf (g : Grid) : Prop :=
  g.cells.length = g.width * g.height ∧ 1 ≤ g.width ∧ 1 ≤ g.height

instance (g : Grid) : Decidable g.wf := by unfold Grid.wf; infer_instance

/-- The neighbor traversal used throughout the source: j from max(y-1,0)
to min(y+1, h-1), i from max(x-1,0) to min(x+1, w-1), skipping (x, y)
itself, in row-major order. Nat subtraction matches the C max with 0. -/
def nbrs (w h x y : Nat) : List (Nat × Nat) :=
  (List.range' (y - 1) (min (y + 1) (h - 1) + 1 - (y - 1))).flatMap fun j =>
    (List.range' (x - 1) (min (x + 1) (w - 1) + 1 - (x - 1))).filterMap fun i =>
      if i = x ∧ j = y then none else some (i, j)

/-- Row-major list of all grid coordinates: y outer, x inner, matching
every full-grid loop in the source. -/
def coords (w h : Nat) : List (Nat × Nat) :=
  (List.range h).flatMap fun y => (List.range w).map fun x => (x, y)

/-- mines_total(): the number of mines in the whole minefield. -/
def mines_total (g : Grid) : Nat :=
  g.cells.countP (fun c => c.mine)

/-- count_adjacent_mines(x, y). -/
def count_adjacent_mines (g : Grid) (x y : Nat) : Nat :=
  (nbrs g.width g.height x y).countP (fun p => (g.get p.1 p.2).mine)

/-- count_adjacent_revealed_cells(x, y). -/
def count_adjacent_revealed_cells (g : Grid) (x y : Nat) : Nat :=
  (nbrs g.width g.height x y).countP (fun p => (g.get p.1 p.2).visible)

/-- spawn_mine(x, y): fails if a mine is already present; otherwise places
the mine and increments each in-bounds neighbor's Uint8 adjacency count. -/
def spawn_mine (g : Grid) (x y : Nat) : Bool × Grid :=
  if (g.get x y).mine then (false, g)
  else
    let g1 := g.put x y { g.get x y with mine := true }
    (true, (nbrs g.width g.height x y).foldl
      (fun gg p => gg.put p.1 p.2
        { gg.get p.1 p.2 with adj := ((gg.get p.1 p.2).adj + 1) % 256 }) g1)

/-- Mark a cell revealed: visible set, flag and question mark cleared
(the unconditional writes at the top of bucket_reveal). -/
def markCell (c : cell) : cell :=
  { c with visible := true, flag := false, qmark := false }

/-- bucket_reveal(x, y) with explicit fuel: marks the cell, and if its
adjacency count is zero recursively reveals every still-hidden neighbor,
in the source's traversal order. -/
def bucketRevealF : Nat → Grid → Nat → Nat → Grid
  | 0, g, _, _ => g
  | f + 1, g, x, y =>
    let g1 := g.put x y (markCell (g.get x y))
    if (g1.get x y).adj = 0 then
      (nbrs g1.width g1.height x y).foldl
        (fun gg p => if (gg.get p.1 p.2).visible then gg else bucketRevealF f gg p.1 p.2) g1
    else g1

/-- Number of hidden cells; the recursion depth of bucket_reveal is bounded
by this plus one, so invCount + 2 fuel always suffices. -/
def invCount (g : Grid) : Nat :=
  g.cells.countP (fun c => !c.visible)

/-- bucket_reveal(x, y): the source's recursion, run with enough fuel. -/
def bucket_reveal (g : Grid) (x y : Nat) : Grid :=
  bucketRevealF (invCount g + 2) g x y

/-- remove_mine(x, y): fails if no mine is present; otherwise removes it,
decrements each neighbor's adjacency count, then cascade-reveals every
already-visible neighbor. -/
def remove_mine (g : Grid) (x y : Nat) : Bool × Grid :=
  if !(g.get x y).mine then (false, g)
  else
    let g1 := g.put x y { g.get x y with mine := false }
    let g2 := (nbrs g.width g.height x y).foldl
      (fun gg p => gg.put p.1 p.2
        { gg.get p.1 p.2 with adj := ((gg.get p.1 p.2).adj + 255) % 256 }) g1
    (true, (nbrs g.width g.height x y).foldl
      (fun gg p => if (gg.get p.1 p.2).visible then bucket_reveal gg p.1 p.2 else gg) g2)

/-- recompute_minefield_adj(): set every cell's adjacency count to the
number of mines among its neighbors. The loop writes only adj fields, so
reading the mine layout from the starting grid is exact. -/
def recompute_minefield_adj (g : Grid) : Grid :=
  { g with cells := (List.range g.cells.length).map fun i =>
      { g.cells.getD i cell.virgin with
        adj := count_adjacent_mines g (i % g.width) (i / g.width) } }

/-- new_game for a w x h grid: start from an all-virgin field and spawn a
mine at every cell whose Bernoulli draw (indexed by cell number) is true. -/
def new_game (w h : Nat) (coins : Nat → Bool) : Grid :=
  (coords w h).foldl
    (fun gg p => if coins (gg.width * p.2 + p.1) then (spawn_mine gg p.1 p.2).2 else gg)
    ⟨w, h, List.replicate (w * h) cell.virgin⟩

/-! ## The shallow/deep partition pass of alter_minefield -/

/-- A hidden cell adjacent to at least one revealed cell (a solver
variable). -/
def shallowCell (g : Grid) (p : Nat × Nat) : Prop :=
  ¬(g.get p.1 p.2).visible = true ∧ count_adjacent_revealed_cells g p.1 p.2 ≠ 0

instance (g : Grid) (p : Nat × Nat) : Decidable (shallowCell g p) := by
  unfold shallowCell; infer_instance

/-- A hidden cell with no revealed neighbor. -/
def deepCell (g : Grid) (p : Nat × Nat) : Prop :=
  ¬(g.get p.1 p.2).visible = true ∧ count_adjacent_revealed_cells g p.1 p.2 = 0

instance (g : Grid) (p : Nat × Nat) : Decidable (deepCell g p) := by
  unfold deepCell; infer_instance

/-- A revealed number (a constraint source): visible with nonzero count. -/
def revealedNumber (g : Grid) (p : Nat × Nat) : Prop :=
  (g.get p.1 p.2).visible = true ∧ (g.get p.1 p.2).adj ≠ 0

instance (g : Grid) (p : Nat × Nat) : Decidable (revealedNumber g p) := by
  unfold revealedNumber; infer_instance

/-- m: the number of revealed numbers found by the partition pass. -/
def mcount (g : Grid) : Nat :=
  (coords g.width g.height).countP (fun p => decide (revealedNumber g p))

/-- n: the number of shallowly-hidden cells. -/
def ncount (g : Grid) : Nat :=
  (coords g.width g.height).countP (fun p => decide (shallowCell g p))

/-- dh_cells before the clicked-cell adjustment. -/
def dhcount (g : Grid) : Nat :=
  (coords g.width g.height).countP (fun p => decide (deepCell g p))

/-- sh_mine_count: mines among shallowly-hidden cells. -/
def shMines (g : Grid) : Nat :=
  (coords g.width g.height).countP
    (fun p => decide (shallowCell g p) && (g.get p.1 p.2).mine)

/-- dh_mine_count: mines among deeply-hidden cells. -/
def dhMines (g : Grid) : Nat :=
  (coords g.width g.height).countP
    (fun p => decide (deepCell g p) && (g.get p.1 p.2).mine)

/-- column_lookup: the 1-based solver column of a shallowly-hidden cell,
its rank in the row-major traversal (n is incremented as each shallow cell
is met, then stored); 0 for every other cell. -/
def columnLookup (g : Grid) (x y : Nat) : Nat :=
  if shallowCell g (x, y) then
    1 + ((coords g.width g.height).take (g.width * y + x)).countP
      (fun p => decide (shallowCell g p))
  else 0

/-- requested_cell_is_deeply_hidden. -/
def reqDeep (g : Grid) (gx gy : Nat) : Bool :=
  count_adjacent_revealed_cells g gx gy == 0

/-- T after the clicked-cell adjustment: one fewer mine is available for
everywhere else when a mine is requested at a deeply-hidden cell. -/
def adjT (g : Grid) (gx gy : Nat) (mp : Bool) : Int :=
  (mines_total g : Int) - (if reqDeep g gx gy ∧ mp then 1 else 0)

/-- dh_cells after the clicked-cell adjustment: the clicked cell is set
aside when it is deeply hidden. -/
def adjDh (g : Grid) (gx gy : Nat) : Int :=
  (dhcount g : Int) - (if reqDeep g gx gy then 1 else 0)

/-! ## The constraint encoder -/

/-- Constraint relations of the LP interface. -/
inductive Rel where
  | le
  | ge
  | eq
deriving DecidableEq, Repr

/-- One solver row: 1-based column indices (all coefficients are 1 in this
program), a relation and a right-hand side. -/
structure Constraint where
  cols : List Nat
  rel : Rel
  rhs : Int
deriving DecidableEq, Repr

/-- The row list built by alter_minefield before solving: one equality per
revealed number over the columns of its hidden neighbors, the two bound
rows over all n columns, and, unless the clicked cell is deeply hidden,
the equality pinning the clicked cell's column. -/
def lpSystem (g : Grid) (gx gy : Nat) (mp : Bool) : List Constraint :=
  let eqRows := (coords g.width g.height).filterMap fun p =>
    if revealedNumber g p then
      some ⟨((nbrs g.width g.height p.1 p.2).filter
               (fun q => !(g.get q.1 q.2).visible)).map
               (fun q => columnLookup g q.1 q.2),
            Rel.eq, ((g.get p.1 p.2).adj : Int)⟩
    else none
  let allCols := List.range' 1 (ncount g)
  let bounds := [⟨allCols, Rel.ge, adjT g gx gy mp - adjDh g gx gy⟩,
                 ⟨allCols, Rel.le, adjT g gx gy mp⟩]
  let pin := if reqDeep g gx gy then []
             else [⟨[columnLookup g gx gy], Rel.eq, if mp then 1 else 0⟩]
  eqRows ++ bounds ++ pin

/-- Outcomes of the external 0/1 feasibility solver: a feasible assignment
(OPTIMAL or SUBOPTIMAL with variable values), infeasibility, a timeout
abort, or any other backend failure. -/
inductive SolverOutcome where
  | feasible (sol : List Bool)
  | infeasible
  | userAbort
  | failure
deriving DecidableEq, Repr

/-- The value of a row's left-hand side under a 0/1 assignment: all
coefficients are 1, columns are 1-based. -/
def colSum (sol : List Bool) (cols : List Nat) : Int :=
  (cols.map (fun c => if sol.getD (c - 1) false then (1 : Int) else 0)).sum

/-- A 0/1 assignment meets one solver row. -/
def rowHolds (sol : List Bool) (r : Constraint) : Prop :=
  match r.rel with
  | Rel.le => colSum sol r.cols ≤ r.rhs
  | Rel.ge => r.rhs ≤ colSum sol r.cols
  | Rel.eq => colSum sol r.cols = r.rhs

/-- A truthful solver backend: any feasible answer has one value per
variable and meets every row it was given. -/
def HonestSolver (solver : Nat → List Constraint → SolverOutcome) : Prop :=
  ∀ nv rows sol, solver nv rows = SolverOutcome.feasible sol →
    sol.length = nv ∧ ∀ r ∈ rows, rowHolds sol r

/-! ## The uniform combination sampler (Robert Floyd's algorithm) -/

/-- random_combination(n, k): Floyd's algorithm. The pseudorandom source is
a function giving, for each upper bound j, the draw uniform on [1, j]; the
loop runs j from n - k + 1 to n. -/
def random_combination (n k : Nat) (rng : Nat → Nat) : List Bool :=
  (List.range' (n - k + 1) k).foldl
    (fun m j =>
      if m.getD (rng j - 1) false then m.set (j - 1) true else m.set (rng j - 1) true)
    (List.replicate n false)

/-- random_combination with the draws supplied as an explicit list (one per
loop iteration), for counting arguments over the random source. -/
def random_combination_rs (n k : Nat) (rs : List Nat) : List Bool :=
  ((List.range' (n - k + 1) k).zip rs).foldl
    (fun m p =>
      if m.getD (p.2 - 1) false then m.set (p.1 - 1) true else m.set (p.2 - 1) true)
    (List.replicate n false)

/-- The contract of the pseudorandom source: queried with an upper bound
j of at least 1, it returns a value in [1, j]. -/
def RngOk (rng : Nat → Nat) : Prop :=
  ∀ j, 1 ≤ j → 1 ≤ rng j ∧ rng j ≤ j

/-- One iteration of Floyd's loop on the set of selected positions: with
bound j and draw r, select position j - 1 if r - 1 is already selected,
else select r - 1. -/
def floydStep (S : Finset Nat) (j r : Nat) : Finset Nat :=
  if r - 1 ∈ S then insert (j - 1) S else insert (r - 1) S

/-- The whole Floyd loop on the set of selected positions, one draw per
iteration, bounds j, j + 1, ... -/
def floydRun (S : Finset Nat) (j : Nat) : List Nat → Finset Nat
  | [] => S
  | r :: rs => floydRun (floydStep S j r) (j + 1) rs

/-- All draw sequences of length t for bounds j, j + 1, ..., j + t - 1:
the sample space of the loop's uniform draws. -/
def seqs : Nat → Nat → Finset (List Nat)
  | _, 0 => {[]}
  | j, t + 1 => (Finset.Icc 1 j).biUnion fun r => (seqs (j + 1) t).image (List.cons r)

/-! ## The commit step of alter_minefield -/

/-- The row-major rank (0-based) of a shallow cell among shallow cells:
the value of sh_j when the commit loop reaches (x, y). -/
def shRank (g : Grid) (x y : Nat) : Nat :=
  ((coords g.width g.height).take (g.width * y + x)).countP
    (fun p => decide (shallowCell g p))

/-- The row-major rank (0-based) of a deep non-clicked cell among deep
non-clicked cells: the value of dh_j when the commit loop reaches (x, y). -/
def dhRank (g : Grid) (gx gy x y : Nat) : Nat :=
  ((coords g.width g.height).take (g.width * y + x)).countP
    (fun p => decide (deepCell g p) && !(p.1 == gx && p.2 == gy))

/-- The grid mutation performed once a solution is at hand (solved or
short-circuited): write the solver's variables into the shallow cells in
column order when the LP ran, distribute T - S sampled mines over the deep
non-clicked cells, set the clicked cell explicitly when it is deep, and
recompute all adjacency counts. -/
def commit (g : Grid) (gx gy : Nat) (mp : Bool) (ranLP : Bool) (sol : List Bool)
    (rng : Nat → Nat) : Grid :=
  let S : Nat := if ranLP then sol.countP id else shMines g
  let k : Int := adjT g gx gy mp - S
  let dhm := random_combination (adjDh g gx gy).toNat k.toNat rng
  let g1 : Grid := { g with cells := (List.range g.cells.length).map fun i =>
      let x := i % g.width
      let y := i / g.width
      let c := g.cells.getD i cell.virgin
      if ¬c.visible = true then
        if count_adjacent_revealed_cells g x y ≠ 0 then
          if ranLP then { c with mine := sol.getD (shRank g x y) false } else c
        else if ¬(x = gx ∧ y = gy) then
          { c with mine := dhm.getD (dhRank g gx gy x y) false }
        else c
      else c }
  let g2 := if reqDeep g gx gy then g1.put gx gy { g1.get gx gy with mine := mp } else g1
  recompute_minefield_adj g2

/-- alter_minefield(gridx, gridy, mine_present): attempt to add or remove
a mine at the clicked cell compatibly with all revealed numbers and the
total mine count. The external solver is an oracle from the variable count
and the row list to an outcome; the random source is the draw function.
Returns the success flag and the resulting grid. -/
def alter_minefield (g : Grid) (gx gy : Nat) (mp : Bool)
    (solver : Nat → List Constraint → SolverOutcome) (rng : Nat → Nat) : Bool × Grid :=
  if (g.get gx gy).mine = mp then (true, g)
  else if (g.get gx gy).visible then (!mp, g)
  else if mines_total g = 0 then (false, g)
  else if mines_total g = g.width * g.height ∧ mp = false then (false, g)
  else if mcount g = 0 then (true, commit g gx gy mp false [] rng)
  else if reqDeep g gx gy ∧ mp = true ∧ 0 < dhMines g then
    (true, commit g gx gy mp false [] rng)
  else if reqDeep g gx gy ∧ mp = false ∧ (dhMines g : Int) < adjDh g gx gy then
    (true, commit g gx gy mp false [] rng)
  else match solver (ncount g) (lpSystem g gx gy mp) with
    | .feasible sol => (true, commit g gx gy mp true sol rng)
    | _ => (false, g)

/-! ## Game status, end_game and chord_reveal -/

/-- The game_status enumeration. -/
inductive GStat where
  | active
  | won
  | lost
deriving DecidableEq, Repr

/-- check_for_flag_mistakes(): mark every flagged non-mine cell a mistake. -/
def check_for_flag_mistakes (g : Grid) : Grid :=
  { g with cells := g.cells.map fun c =>
      if c.flag = true ∧ ¬c.mine = true then { c with mistake := true } else c }

/-- end_game(won): set the final status and mark flag mistakes (the clock
timer is presentation state, outside this model). -/
def end_game (g : Grid) (won : Bool) : Grid × GStat :=
  (check_for_flag_mistakes g, if won then GStat.won else GStat.lost)

/-- One iteration of chord_reveal's reveal loop: a hidden, unflagged,
unmarked neighbor is revealed — a mine among them is marked exploded and
ends the game as lost, anything else is bucket-revealed. -/
def chordStep (gs : Grid × GStat) (p : Nat × Nat) : Grid × GStat :=
  if ¬(gs.1.get p.1 p.2).visible = true ∧ ¬(gs.1.get p.1 p.2).flag = true ∧
      ¬(gs.1.get p.1 p.2).qmark = true then
    if (gs.1.get p.1 p.2).mine then
      ((end_game (gs.1.put p.1 p.2 { gs.1.get p.1 p.2 with exploded := true }) false).1,
       GStat.lost)
    else (bucket_reveal gs.1 p.1 p.2, gs.2)
  else gs

/-- chord_reveal(x, y): abort if any neighbor carries a question mark;
otherwise count flagged hidden neighbors, and when that count equals the
cell's displayed number, walk the neighbors revealing each hidden
unflagged unmarked one — a mine among them explodes and ends the game. -/
def chord_reveal (g : Grid) (st : GStat) (x y : Nat) : Grid × GStat :=
  if (nbrs g.width g.height x y).any (fun p => (g.get p.1 p.2).qmark) then (g, st)
  else
    let flagCount := (nbrs g.width g.height x y).countP
      (fun p => !(g.get p.1 p.2).visible && (g.get p.1 p.2).flag)
    if (g.get x y).adj = flagCount then
      (nbrs g.width g.height x y).foldl chordStep (g, st)
    else (g, st)

/-! ## Concrete grid builders for counterexamples and witnesses -/

/-- Build a grid from a coordinate-indexed cell description. -/
def mkGrid (w h : Nat) (f : Nat → Nat → cell) : Grid :=
  ⟨w, h, (coords w h).map fun p => f p.1 p.2⟩

/-- Build a grid with the given mine and visible coordinate sets and
adjacency counts computed from the mines. -/
def testGrid (w h : Nat) (mines vis : List (Nat × Nat)) : Grid :=
  recompute_minefield_adj
    (mkGrid w h fun x y =>
      { cell.virgin with mine := mines.contains (x, y), visible := vis.contains (x, y) })

/-! ## Game-state invariants

The reachable game states maintain three properties used as hypotheses by
several claims: every cell's adjacency count is truthful, no revealed cell
is a mine, and a revealed blank (adjacency 0) never has a hidden neighbor
(it would have been flood-revealed). -/

/-- Adjacency invariant: every cell's adj field equals the number of mines
among its in-bounds neighbors. -/
def adjInvariant (g : Grid) : Prop :=
  ∀ p ∈ coords g.width g.height, (g.get p.1 p.2).adj = count_adjacent_mines g p.1 p.2

instance (g : Grid) : Decidable (adjInvariant g) := by
  unfold adjInvariant; exact List.decidableBAll _ _

/-- No mine is ever visible. -/
def noVisibleMines (g : Grid) : Prop :=
  ∀ p ∈ coords g.width g.height,
    (g.get p.1 p.2).visible = true → (g.get p.1 p.2).mine = false

instance (g : Grid) : Decidable (noVisibleMines g) := by
  unfold noVisibleMines; exact List.decidableBAll _ _

/-- Every visible cell displaying 0 has all of its neighbors visible. -/
def zeroClosure (g : Grid) : Prop :=
  ∀ p ∈ coords g.width g.height,
    (g.get p.1 p.2).visible = true → (g.get p.1 p.2).adj = 0 →
      ∀ q ∈ nbrs g.width g.height p.1 p.2, (g.get q.1 q.2).visible = true

instance (g : Grid) : Decidable (zeroClosure g) := by
  unfold zeroClosure
  exact List.decidableBAll _ _

/-- Concrete grid refuting the universal form of the partition-pass
assertions: a revealed blank at (0, 0) has hidden neighbors (shallow
cells) while no revealed number exists, so m = 0 but n = 3. -/
def c8grid : Grid := testGrid 5 3 [(4, 2)] [(0, 0)]

/-- Concrete witness grid for C1: no mines at all, so any mine request
fails. -/
def c1grid : Grid := testGrid 5 3 [] []

/-- Concrete witness grid for C5 with a mine at (1, 1). -/
def c5grid : Grid := testGrid 5 3 [(1, 1)] []

/-- Concrete witness grid for C10: a visible mine at (0, 0). -/
def c10grid : Grid := testGrid 5 3 [(0, 0)] [(0, 0)]

/-- Concrete well-formed grid for the C8 witness: one hidden mine at
(0, 0) and a revealed 1 beside it at (1, 1). -/
def c8wgrid : Grid := testGrid 5 3 [(0, 0)] [(1, 1)]

/-- Concrete grid for the C3 counterexample: a revealed 1 at (0, 0), its
mine hidden at (1, 0); clicking the deeply-hidden (3, 2) with a mine
request drives alter_minefield into the solver with an adjusted upper
bound. -/
def c3grid : Grid := testGrid 5 3 [(1, 0)] [(0, 0)]

/-- Concrete grid for the C9 counterexample: the revealed 1 at (1, 1) has
its mine correctly flagged at (0, 0), but a question mark sits on (1, 0),
so chord_reveal aborts without revealing anything. -/
def c9grid : Grid :=
  recompute_minefield_adj (mkGrid 5 3 fun x y =>
    { cell.virgin with
      mine := x == 0 && y == 0
      flag := x == 0 && y == 0
      qmark := x == 1 && y == 0
      visible := x == 1 && y == 1 })

/-- Concrete grid for the C9 witness: as c9grid but with no question
mark, so chording at (1, 1) reveals the hidden unflagged neighbors. -/
def c9wgrid : Grid :=
  recompute_minefield_adj (mkGrid 5 3 fun x y =>
    { cell.virgin with
      mine := x == 0 && y == 0
      flag := x == 0 && y == 0
      visible := x == 1 && y == 1 })

/-- Concrete grid for the C2 counterexample: two VISIBLE mines at (0, 0)
and (4, 0) — an invariant-violating state. Requesting a mine at the
deeply-hidden (2, 2) succeeds without running the solver and raises the
total mine count by two. -/
def c2grid : Grid := testGrid 5 3 [(0, 0), (4, 0)] [(0, 0), (4, 0)]

/-- The set of cells disclosed by a flood fill started at (x, y), defined
by the grid's displayed numbers alone: the clicked cell, and, spreading
from any reached cell displaying 0, all of its neighbors. For a click on
a 0 this is the maximal 8-connected zero-adjacency region containing
(x, y) together with its bordering nonzero cells; for a click on a number
it is just the clicked cell. -/
inductive reachZero (g : Grid) (x y : Nat) : Nat × Nat → Prop where
  | start : reachZero g x y (x, y)
  | step (p q : Nat × Nat) : reachZero g x y p → (g.get p.1 p.2).adj = 0 →
      q ∈ nbrs g.width g.height p.1 p.2 → reachZero g x y q

/-- gg is the grid g with exactly the cells of W marked revealed. -/
def IsMarked (g : Grid) (W : Nat × Nat → Prop) (gg : Grid) : Prop :=
  gg.width = g.width ∧ gg.height = g.height ∧ gg.cells.length = g.cells.length ∧
  ∀ p : Nat × Nat, p.1 < g.width → p.2 < g.height →
    (W p → gg.get p.1 p.2 = markCell (g.get p.1 p.2)) ∧
    (¬W p → gg.get p.1 p.2 = g.get p.1 p.2)

/-- Every marked zero cell outside the pending set E has all its
neighbors marked or already visible. -/
def regionClosed (g : Grid) (W E : Nat × Nat → Prop) : Prop :=
  ∀ q : Nat × Nat, W q → ¬E q → (g.get q.1 q.2).adj = 0 →
    ∀ s ∈ nbrs g.width g.height q.1 q.2, W s ∨ (g.get s.1 s.2).visible = true

/-- Concrete grid for the C6 counterexample: no mines, but the column
x = 2 is already visible and blocks the flood fill from (0, 0), so the
right part of the all-zero region never gets revealed. -/
def c6grid : Grid := testGrid 5 3 [] [(2, 0), (2, 1), (2, 2)]

/-! ## Reachable game states and frame relations -/

/-- Grid states reachable from new_game through mine placement, mine
removal, and successful alter_minefield commits (any solver oracle and any
random source), with all clicks in bounds. -/
inductive Reachable : Grid → Prop where
  | start (w h : Nat) (coins : Nat → Bool) (hw : 1 ≤ w) (hh : 1 ≤ h) :
      Reachable (new_game w h coins)
  | spawn (g : Grid) (x y : Nat) (hx : x < g.width) (hy : y < g.height) :
      Reachable g → Reachable (spawn_mine g x y).2
  | vanish (g : Grid) (x y : Nat) (hx : x < g.width) (hy : y < g.height) :
      Reachable g → Reachable (remove_mine g x y).2
  | alter (g : Grid) (gx gy : Nat) (mp : Bool)
      (solver : Nat → List Constraint → SolverOutcome) (rng : Nat → Nat)
      (hx : gx < g.width) (hy : gy < g.height)
      (hsuc : (alter_minefield g gx gy mp solver rng).1 = true) :
      Reachable g → Reachable (alter_minefield g gx gy mp solver rng).2

/-- Frame relation: same dimensions and cell count, and every cell's mine,
adjacency, exploded and mistake fields unchanged (only visibility, flags
and question marks may differ). bucket_reveal respects this frame. -/
def gridFrame (g g' : Grid) : Prop :=
  g'.width = g.width ∧ g'.height = g.height ∧ g'.cells.length = g.cells.length ∧
  ∀ i : Nat, (g'.cells.getD i cell.virgin).mine = (g.cells.getD i cell.virgin).mine ∧
    (g'.cells.getD i cell.virgin).adj = (g.cells.getD i cell.virgin).adj ∧
    (g'.cells.getD i cell.virgin).exploded = (g.cells.getD i cell.virgin).exploded ∧
    (g'.cells.getD i cell.virgin).mistake = (g.cells.getD i cell.virgin).mistake

/-- Visibility only ever grows during reveals. -/
def visMonotone (g g' : Grid) : Prop :=
  ∀ i : Nat, (g.cells.getD i cell.virgin).visible = true →
    (g'.cells.getD i cell.virgin).visible = true

/-- What chord_reveal's reveal loop preserves: dimensions fixed; mine and
adjacency data unchanged; visibility and explosions only grow; flags and
question marks only clear; and a mine's visibility never changes. -/
def chordRel (g g' : Grid) : Prop :=
  g'.width = g.width ∧ g'.height = g.height ∧ g'.cells.length = g.cells.length ∧
  ∀ i : Nat,
    (g'.cells.getD i cell.virgin).mine = (g.cells.getD i cell.virgin).mine ∧
    (g'.cells.getD i cell.virgin).adj = (g.cells.getD i cell.virgin).adj ∧
    ((g.cells.getD i cell.virgin).visible = true →
      (g'.cells.getD i cell.virgin).visible = true) ∧
    ((g.cells.getD i cell.virgin).exploded = true →
      (g'.cells.getD i cell.virgin).exploded = true) ∧
    ((g'.cells.getD i cell.virgin).flag = true →
      (g.cells.getD i cell.virgin).flag = true) ∧
    ((g'.cells.getD i cell.virgin).qmark = true →
      (g.cells.getD i cell.virgin).qmark = true) ∧
    ((g.cells.getD i cell.virgin).mine = true →
      (g'.cells.getD i cell.virgin).visible = (g.cells.getD i cell.virgin).visible)

/-! ## Basic facts about neighbors, coordinates and counting -/

theorem mem_nbrs {w h x y : Nat} {p : Nat × Nat} :
    p ∈ nbrs w h x y ↔
      (y - 1 ≤ p.2 ∧ p.2 ≤ min (y + 1) (h - 1)) ∧
        (x - 1 ≤ p.1 ∧ p.1 ≤ min (x + 1) (w - 1)) ∧ ¬(p.1 = x ∧ p.2 = y) := by
  obtain ⟨i, j⟩ := p
  simp only [nbrs, List.mem_flatMap, List.mem_filterMap, List.mem_range'_1]
  constructor
  · rintro ⟨j', hj', i', hi', hij⟩
    split at hij
    · exact absurd hij (by simp)
    · next hcond =>
      obtain ⟨h1, h2⟩ := Prod.mk.injEq .. ▸ Option.some.injEq .. ▸ hij
      subst h1; subst h2
      exact ⟨⟨hj'.1, by omega⟩, ⟨hi'.1, by omega⟩, hcond⟩
  · rintro ⟨⟨hj1, hj2⟩, ⟨hi1, hi2⟩, hne⟩
    exact ⟨j, ⟨hj1, by omega⟩, i, ⟨hi1, by omega⟩, by simp [hne]⟩

theorem nbrs_bounds {w h x y : Nat} {p : Nat × Nat} (hw : 1 ≤ w) (hh : 1 ≤ h)
    (hp : p ∈ nbrs w h x y) : p.1 < w ∧ p.2 < h := by
  rw [mem_nbrs] at hp
  omega

theorem nbrs_symm {w h x y : Nat} {p : Nat × Nat} (hx : x < w) (hy : y < h)
    (hp : p ∈ nbrs w h x y) : (x, y) ∈ nbrs w h p.1 p.2 := by
  rw [mem_nbrs] at hp ⊢
  omega

theorem mem_coords {w h : Nat} {p : Nat × Nat} :
    p ∈ coords w h ↔ p.1 < w ∧ p.2 < h := by
  obtain ⟨i, j⟩ := p
  simp only [coords, List.mem_flatMap, List.mem_map, List.mem_range]
  constructor
  · rintro ⟨y, hy, x, hx, hxy⟩
    obtain ⟨h1, h2⟩ := Prod.mk.injEq .. ▸ hxy
    subst h1; subst h2; exact ⟨hx, hy⟩
  · rintro ⟨hi, hj⟩
    exact ⟨j, hj, i, hi, rfl⟩

theorem coords_eq_range_map (w h : Nat) :
    coords w h = (List.range (w * h)).map (fun i => (i % w, i / w)) := by
  induction h with
  | zero => simp [coords]
  | succ n ih =>
    rw [coords, List.range_succ, List.flatMap_append, ← coords]
    rw [Nat.mul_succ, List.range_add, List.map_append, ← ih]
    congr 1
    rcases Nat.eq_zero_or_pos w with hw | hw
    · subst hw; simp
    · simp only [List.flatMap_cons, List.flatMap_nil, List.append_nil, List.map_map]
      refine (List.map_congr_left fun x hx => ?_).symm
      rw [List.mem_range] at hx
      have h1 : (w * n + x) % w = x := by
        rw [Nat.mul_comm, Nat.add_comm, Nat.add_mul_mod_self_right, Nat.mod_eq_of_lt hx]
      have h2 : (w * n + x) / w = n := by
        rw [Nat.add_comm, Nat.add_mul_div_left _ _ hw, Nat.div_eq_of_lt hx, Nat.zero_add]
      simp [Function.comp, h1, h2]

theorem countP_range_getD {α : Type} (l : List α) (d : α) (φ : α → Bool) :
    l.countP φ = (List.range l.length).countP (fun i => φ (l.getD i d)) := by
  induction l with
  | nil => simp
  | cons c t ih =>
    rw [List.countP_cons, List.length_cons, List.range_succ_eq_map, List.countP_cons,
      List.countP_map]
    simp only [List.getD_cons_zero, List.getD_cons_succ, Function.comp_def, Nat.succ_eq_add_one]
    omega

/-- Any whole-array count in the source equals the same count taken over
the row-major coordinate list. -/
theorem grid_countP_coords (g : Grid) (φ : cell → Bool)
    (hlen : g.cells.length = g.width * g.height) :
    g.cells.countP φ = (coords g.width g.height).countP (fun p => φ (g.get p.1 p.2)) := by
  rw [coords_eq_range_map, List.countP_map,
    countP_range_getD g.cells cell.virgin φ, hlen]
  refine List.countP_congr fun i hi => ?_
  rw [List.mem_range] at hi
  simp only [Function.comp_def, Grid.get]
  rw [Nat.div_add_mod i g.width]

theorem mines_total_coords (g : Grid) (hlen : g.cells.length = g.width * g.height) :
    mines_total g = (coords g.width g.height).countP (fun p => (g.get p.1 p.2).mine) :=
  grid_countP_coords g _ hlen

theorem countP_split {α : Type} (l : List α) (p q : α → Bool) :
    l.countP p = l.countP (fun a => p a && q a) + l.countP (fun a => p a && !q a) := by
  induction l with
  | nil => simp
  | cons c t ih =>
    simp only [List.countP_cons, ih]
    cases hp : p c <;> cases hq : q c <;> simp <;> omega

theorem count_adjacent_revealed_pos {g : Grid} {x y : Nat}
    (h : count_adjacent_revealed_cells g x y ≠ 0) :
    ∃ q ∈ nbrs g.width g.height x y, (g.get q.1 q.2).visible = true := by
  have := List.countP_pos_iff.mp (Nat.pos_of_ne_zero h)
  simpa using this

theorem count_adjacent_mines_pos {g : Grid} {x y : Nat}
    (h : count_adjacent_mines g x y ≠ 0) :
    ∃ q ∈ nbrs g.width g.height x y, (g.get q.1 q.2).mine = true := by
  have := List.countP_pos_iff.mp (Nat.pos_of_ne_zero h)
  simpa using this

theorem count_adjacent_revealed_ne_zero {g : Grid} {x y : Nat} {q : Nat × Nat}
    (hq : q ∈ nbrs g.width g.height x y) (hv : (g.get q.1 q.2).visible = true) :
    count_adjacent_revealed_cells g x y ≠ 0 :=
  Nat.pos_iff_ne_zero.mp (List.countP_pos_iff.mpr ⟨q, hq, by simpa using hv⟩)

/-- With no visible mines, the total mine count splits into the shallow
and deep hidden mine counts. -/
theorem mines_total_split (g : Grid) (hlen : g.cells.length = g.width * g.height)
    (hnv : noVisibleMines g) : mines_total g = shMines g + dhMines g := by
  rw [mines_total_coords g hlen]
  rw [countP_split (coords g.width g.height) (fun p => (g.get p.1 p.2).mine)
    (fun p => (g.get p.1 p.2).visible)]
  have h1 : (coords g.width g.height).countP
      (fun p => (g.get p.1 p.2).mine && (g.get p.1 p.2).visible) = 0 := by
    rw [List.countP_eq_zero]
    intro p hp
    simp only [Bool.and_eq_true, not_and]
    intro hm hv
    rw [hnv p hp hv] at hm
    exact absurd hm (by simp)
  rw [h1, Nat.zero_add]
  rw [countP_split (coords g.width g.height)
    (fun p => (g.get p.1 p.2).mine && !(g.get p.1 p.2).visible)
    (fun p => decide (count_adjacent_revealed_cells g p.1 p.2 ≠ 0))]
  unfold shMines dhMines
  congr 1
  · refine List.countP_congr fun p _ => ?_
    simp only [Bool.and_eq_true, Bool.not_eq_true', decide_eq_true_eq,
      decide_eq_false_iff_not, Decidable.not_not, shallowCell, Bool.not_eq_true, ne_eq]
    tauto
  · refine List.countP_congr fun p _ => ?_
    simp only [Bool.and_eq_true, Bool.not_eq_true', decide_eq_true_eq,
      decide_eq_false_iff_not, Decidable.not_not, deepCell, Bool.not_eq_true, ne_eq]
    tauto

/-! ## Claim C8: the partition-pass assertions -/

/-- C8 counterexample: the grid c8grid together with the click
(2, 2, mine requested) reaches the partition pass — the clicked cell is
hidden with a differing status, the total mine count is 1 and the grid is
not full — yet m = 0 while n = 3, so the asserted equivalence
m = 0 iff n = 0 is false there. -/
theorem C8_counterexample :
    (c8grid.get 2 2).mine ≠ true ∧ (c8grid.get 2 2).visible ≠ true ∧
      mines_total c8grid ≠ 0 ∧
      ¬(mines_total c8grid = c8grid.width * c8grid.height ∧ (true : Bool) = false) ∧
      ¬((mcount c8grid = 0) ↔ (ncount c8grid = 0)) := by
  decide

/-- C8 (amended): on a well-formed grid that additionally satisfies the
reachable-state invariants (truthful adjacency counts, no visible mines,
and flood-closure of revealed blanks), every invocation of alter_minefield
that reaches the partition pass computes counts with m = 0 iff n = 0 and
with the total mine count equal to the shallow plus deep mine counts, so
the two source assertions hold. -/
theorem C8_partition_assertions (g : Grid) (gx gy : Nat) (mp : Bool)
    (hwf : g.wf) (hinv : adjInvariant g) (hnv : noVisibleMines g) (hzc : zeroClosure g)
    (hdiff : (g.get gx gy).mine ≠ mp) (hhid : (g.get gx gy).visible ≠ true)
    (hT : mines_total g ≠ 0)
    (hfull : ¬(mines_total g = g.width * g.height ∧ mp = false)) :
    ((mcount g = 0) ↔ (ncount g = 0)) ∧ mines_total g = shMines g + dhMines g := by
  obtain ⟨hlen, hw, hh⟩ := hwf
  refine ⟨⟨fun hm => ?_, fun hn => ?_⟩, mines_total_split g hlen hnv⟩
  · unfold mcount at hm
    unfold ncount
    rw [List.countP_eq_zero] at hm ⊢
    intro p hp hsh
    rw [decide_eq_true_eq] at hsh
    obtain ⟨hpv, hpc⟩ := hsh
    obtain ⟨q, hq, hqv⟩ := count_adjacent_revealed_pos hpc
    have hqb := nbrs_bounds hw hh hq
    have hqco : q ∈ coords g.width g.height := mem_coords.mpr hqb
    have hqadj : (g.get q.1 q.2).adj = 0 := by
      have := hm q hqco
      rw [decide_eq_true_eq] at this
      unfold revealedNumber at this
      tauto
    have hpin : p.1 < g.width ∧ p.2 < g.height := mem_coords.mp hp
    have hsymm : (p.1, p.2) ∈ nbrs g.width g.height q.1 q.2 :=
      nbrs_symm hpin.1 hpin.2 hq
    exact absurd (hzc q hqco hqv hqadj (p.1, p.2) hsymm) hpv
  · unfold ncount at hn
    unfold mcount
    rw [List.countP_eq_zero] at hn ⊢
    intro p hp hrv
    rw [decide_eq_true_eq] at hrv
    obtain ⟨hpv, hpadj⟩ := hrv
    rw [hinv p hp] at hpadj
    obtain ⟨q, hq, hqm⟩ := count_adjacent_mines_pos hpadj
    have hqb := nbrs_bounds hw hh hq
    have hqco : q ∈ coords g.width g.height := mem_coords.mpr hqb
    have hqhid : ¬(g.get q.1 q.2).visible = true := by
      intro hqv
      rw [hnv q hqco hqv] at hqm
      exact absurd hqm (by simp)
    have hpin : p.1 < g.width ∧ p.2 < g.height := mem_coords.mp hp
    have hsymm : (p.1, p.2) ∈ nbrs g.width g.height q.1 q.2 :=
      nbrs_symm hpin.1 hpin.2 hq
    have hsh : shallowCell g q :=
      ⟨hqhid, count_adjacent_revealed_ne_zero hsymm hpv⟩
    exact absurd (decide_eq_true_eq.mpr hsh) (by simpa using hn q hqco)

/-- Witness for C8 at a concrete state reaching the partition pass. -/
theorem C8_witness :
    ((mcount c8wgrid = 0) ↔ (ncount c8wgrid = 0)) ∧
      mines_total c8wgrid = shMines c8wgrid + dhMines c8wgrid :=
  C8_partition_assertions c8wgrid 3 2 true (by decide) (by decide) (by decide) (by decide)
    (by decide) (by decide) (by decide) (by decide)

/-! ## Claim C3: the constraint system handed to the solver -/

theorem filterMap_ite_eq_map_filter {α β : Type} (l : List α) (P : α → Prop)
    [DecidablePred P] (f : α → β) :
    (l.filterMap fun a => if P a then some (f a) else none) =
      (l.filter fun a => decide (P a)).map f := by
  induction l with
  | nil => rfl
  | cons c t ih => by_cases h : P c <;> simp [h, ih]

/-- C3 counterexample: on c3grid, clicking (3, 2) with a mine request
satisfies every condition that sends alter_minefield to the solver (the
cell is hidden with differing status, mines exist, the grid is not full,
m is nonzero and no deep short-circuit applies), yet the upper bound row
of the built system has right-hand side 0 while mines_total is 1 — the
claimed upper bound totalMines is wrong when the clicked cell is deep. -/
theorem C3_counterexample :
    (c3grid.get 3 2).mine ≠ true ∧ (c3grid.get 3 2).visible ≠ true ∧
      mines_total c3grid ≠ 0 ∧
      ¬(mines_total c3grid = c3grid.width * c3grid.height ∧ (true : Bool) = false) ∧
      mcount c3grid ≠ 0 ∧
      ¬(reqDeep c3grid 3 2 = true ∧ (true : Bool) = true ∧ 0 < dhMines c3grid) ∧
      ¬(reqDeep c3grid 3 2 = true ∧ (true : Bool) = false ∧
          (dhMines c3grid : Int) < adjDh c3grid 3 2) ∧
      ((lpSystem c3grid 3 2 true).getD (mcount c3grid + 1) ⟨[], Rel.eq, 0⟩).rel = Rel.le ∧
      ((lpSystem c3grid 3 2 true).getD (mcount c3grid + 1) ⟨[], Rel.eq, 0⟩).rhs
        ≠ (mines_total c3grid : Int) := by
  decide

/-- C3 (amended): whenever alter_minefield invokes the feasibility solver,
the system it hands over consists of exactly one equality row per revealed
number over the columns of that cell's hidden neighbors with the displayed
count as right-hand side, followed by exactly two bound rows over all n
columns whose bounds are the adjusted totals T' - dh' and T' (where
T' = totalMines - 1 exactly when the clicked cell is deep and a mine is
requested, else totalMines, and dh' = deepCells - 1 exactly when the
clicked cell is deep, else deepCells), followed by the pin equality for
the clicked cell's column exactly when the clicked cell is shallow; in
particular the row count is m + 2 for a deep click and m + 3 for a
shallow click, and under the listed conditions alter_minefield consults
the solver on exactly this system with n variables. -/
theorem C3_constraint_system (g : Grid) (gx gy : Nat) (mp : Bool)
    (hdiff : (g.get gx gy).mine ≠ mp) (hhid : (g.get gx gy).visible ≠ true)
    (hT : mines_total g ≠ 0)
    (hfull : ¬(mines_total g = g.width * g.height ∧ mp = false))
    (hm : mcount g ≠ 0)
    (hsc1 : ¬(reqDeep g gx gy = true ∧ mp = true ∧ 0 < dhMines g))
    (hsc2 : ¬(reqDeep g gx gy = true ∧ mp = false ∧ (dhMines g : Int) < adjDh g gx gy)) :
    lpSystem g gx gy mp =
      ((coords g.width g.height).filter (fun p => decide (revealedNumber g p))).map
        (fun p => ⟨((nbrs g.width g.height p.1 p.2).filter
            (fun q => !(g.get q.1 q.2).visible)).map (fun q => columnLookup g q.1 q.2),
          Rel.eq, ((g.get p.1 p.2).adj : Int)⟩) ++
      [⟨List.range' 1 (ncount g), Rel.ge,
          ((mines_total g : Int) - (if reqDeep g gx gy = true ∧ mp = true then 1 else 0)) -
            ((dhcount g : Int) - (if reqDeep g gx gy = true then 1 else 0))⟩,
       ⟨List.range' 1 (ncount g), Rel.le,
          (mines_total g : Int) - (if reqDeep g gx gy = true ∧ mp = true then 1 else 0)⟩] ++
      (if reqDeep g gx gy = true then []
       else [⟨[columnLookup g gx gy], Rel.eq, if mp = true then 1 else 0⟩]) ∧
    (lpSystem g gx gy mp).length =
      mcount g + 2 + (if reqDeep g gx gy = true then 0 else 1) ∧
    (∀ solver rng, alter_minefield g gx gy mp solver rng =
      match solver (ncount g) (lpSystem g gx gy mp) with
      | .feasible sol => (true, commit g gx gy mp true sol rng)
      | .infeasible => (false, g)
      | .userAbort => (false, g)
      | .failure => (false, g)) := by
  have hdecomp : lpSystem g gx gy mp =
      ((coords g.width g.height).filter (fun p => decide (revealedNumber g p))).map
        (fun p => ⟨((nbrs g.width g.height p.1 p.2).filter
            (fun q => !(g.get q.1 q.2).visible)).map (fun q => columnLookup g q.1 q.2),
          Rel.eq, ((g.get p.1 p.2).adj : Int)⟩) ++
      [⟨List.range' 1 (ncount g), Rel.ge,
          ((mines_total g : Int) - (if reqDeep g gx gy = true ∧ mp = true then 1 else 0)) -
            ((dhcount g : Int) - (if reqDeep g gx gy = true then 1 else 0))⟩,
       ⟨List.range' 1 (ncount g), Rel.le,
          (mines_total g : Int) - (if reqDeep g gx gy = true ∧ mp = true then 1 else 0)⟩] ++
      (if reqDeep g gx gy = true then []
       else [⟨[columnLookup g gx gy], Rel.eq, if mp = true then 1 else 0⟩]) := by
    unfold lpSystem adjT adjDh
    rw [filterMap_ite_eq_map_filter]
  refine ⟨hdecomp, ?_, ?_⟩
  · rw [hdecomp]
    simp only [List.length_append, List.length_map, ← List.countP_eq_length_filter]
    unfold mcount
    rcases hrd : reqDeep g gx gy with _ | _ <;> simp
  · intro solver rng
    unfold alter_minefield
    rw [if_neg hdiff, if_neg hhid, if_neg hT, if_neg hfull, if_neg hm, if_neg hsc1,
      if_neg hsc2]
    cases solver (ncount g) (lpSystem g gx gy mp) <;> rfl

/-- Witness for C3: a shallow click that reaches the solver. The grid has
a revealed 1 at (1, 1) with its mine hidden at (0, 0); clicking the
shallow cell (0, 1) with a mine request leaves no short-circuit. -/
theorem C3_witness :
    lpSystem c8wgrid 0 1 true =
      ((coords c8wgrid.width c8wgrid.height).filter
          (fun p => decide (revealedNumber c8wgrid p))).map
        (fun p => ⟨((nbrs c8wgrid.width c8wgrid.height p.1 p.2).filter
            (fun q => !(c8wgrid.get q.1 q.2).visible)).map
            (fun q => columnLookup c8wgrid q.1 q.2),
          Rel.eq, ((c8wgrid.get p.1 p.2).adj : Int)⟩) ++
      [⟨List.range' 1 (ncount c8wgrid), Rel.ge,
          ((mines_total c8wgrid : Int) -
              (if reqDeep c8wgrid 0 1 = true ∧ (true : Bool) = true then 1 else 0)) -
            ((dhcount c8wgrid : Int) - (if reqDeep c8wgrid 0 1 = true then 1 else 0))⟩,
       ⟨List.range' 1 (ncount c8wgrid), Rel.le,
          (mines_total c8wgrid : Int) -
            (if reqDeep c8wgrid 0 1 = true ∧ (true : Bool) = true then 1 else 0)⟩] ++
      (if reqDeep c8wgrid 0 1 = true then []
       else [⟨[columnLookup c8wgrid 0 1], Rel.eq, if (true : Bool) = true then 1 else 0⟩]) ∧
    (lpSystem c8wgrid 0 1 true).length =
      mcount c8wgrid + 2 + (if reqDeep c8wgrid 0 1 = true then 0 else 1) ∧
    (∀ solver rng, alter_minefield c8wgrid 0 1 true solver rng =
      match solver (ncount c8wgrid) (lpSystem c8wgrid 0 1 true) with
      | .feasible sol => (true, commit c8wgrid 0 1 true true sol rng)
      | .infeasible => (false, c8wgrid)
      | .userAbort => (false, c8wgrid)
      | .failure => (false, c8wgrid)) :=
  C3_constraint_system c8wgrid 0 1 true (by decide) (by decide) (by decide) (by decide)
    (by decide) (by decide) (by decide)

/-! ## Claim C7: the uniform combination sampler -/

theorem floydStep_eq_iff {S T : Finset Nat} {j r : Nat} :
    floydStep S j r = T ↔
      (r - 1 ∈ S ∧ insert (j - 1) S = T) ∨ (r - 1 ∉ S ∧ insert (r - 1) S = T) := by
  unfold floydStep
  split <;> simp [*]

theorem floydStep_subset {S : Finset Nat} {j r : Nat} (hr1 : 1 ≤ r) (hrj : r ≤ j)
    (hS : S ⊆ Finset.range (j - 1)) : floydStep S j r ⊆ Finset.range j := by
  unfold floydStep
  split <;> intro x hx <;> rw [Finset.mem_insert] at hx <;> rw [Finset.mem_range] <;>
    rcases hx with rfl | hx
  · omega
  · have := Finset.mem_range.mp (hS hx); omega
  · omega
  · have := Finset.mem_range.mp (hS hx); omega

theorem floydStep_card {S : Finset Nat} {j r : Nat}
    (hS : S ⊆ Finset.range (j - 1)) : (floydStep S j r).card = S.card + 1 := by
  unfold floydStep
  split
  · rw [Finset.card_insert_of_not_mem]
    intro hj
    exact absurd (Finset.mem_range.mp (hS hj)) (by omega)
  · next hmem => rw [Finset.card_insert_of_not_mem hmem]

theorem mem_seqs_cons {j t : Nat} {rs : List Nat} :
    rs ∈ seqs j (t + 1) ↔
      ∃ r, (1 ≤ r ∧ r ≤ j) ∧ ∃ u ∈ seqs (j + 1) t, rs = r :: u := by
  rw [seqs]
  simp only [Finset.mem_biUnion, Finset.mem_image, Finset.mem_Icc]
  constructor
  · rintro ⟨r, hr, u, hu, rfl⟩
    exact ⟨r, hr, u, hu, rfl⟩
  · rintro ⟨r, hr, u, hu, rfl⟩
    exact ⟨r, hr, u, hu, rfl⟩

theorem seqs_length : ∀ (t j : Nat) (rs : List Nat), rs ∈ seqs j t → rs.length = t := by
  intro t
  induction t with
  | zero => intro j rs hrs; simp [seqs] at hrs; simp [hrs]
  | succ t ih =>
    intro j rs hrs
    rw [mem_seqs_cons] at hrs
    obtain ⟨r, _, u, hu, rfl⟩ := hrs
    simp [ih (j + 1) u hu]

theorem floydRun_subset_card : ∀ (t j : Nat) (S : Finset Nat) (rs : List Nat),
    rs ∈ seqs j t → S ⊆ Finset.range (j - 1) →
    floydRun S j rs ⊆ Finset.range (j - 1 + t) ∧ (floydRun S j rs).card = S.card + t := by
  intro t
  induction t with
  | zero =>
    intro j S rs hrs hS
    simp only [seqs, Finset.mem_singleton] at hrs
    subst hrs
    exact ⟨by simpa using hS, rfl⟩
  | succ t ih =>
    intro j S rs hrs hS
    rw [mem_seqs_cons] at hrs
    obtain ⟨r, ⟨hr1, hr2⟩, u, hu, rfl⟩ := hrs
    have hstep : floydStep S j r ⊆ Finset.range ((j + 1) - 1) := by
      simpa using floydStep_subset hr1 hr2 hS
    have hmain := ih (j + 1) (floydStep S j r) u hu hstep
    rw [floydRun]
    constructor
    · refine hmain.1.trans (Finset.range_subset.mpr ?_)
      omega
    · rw [hmain.2, floydStep_card hS]
      omega

theorem floydRun_append (S : Finset Nat) (j : Nat) (u : List Nat) (r : Nat) :
    floydRun S j (u ++ [r]) = floydStep (floydRun S j u) (j + u.length) r := by
  induction u generalizing S j with
  | nil => simp [floydRun]
  | cons a u ih =>
    rw [List.cons_append, floydRun, floydRun, ih, List.length_cons,
      show j + 1 + u.length = j + (u.length + 1) from by omega]

theorem mem_seqs_append : ∀ (t j : Nat) (rs : List Nat),
    rs ∈ seqs j (t + 1) ↔
      ∃ u ∈ seqs j t, ∃ s, (1 ≤ s ∧ s ≤ j + t) ∧ rs = u ++ [s] := by
  intro t
  induction t with
  | zero =>
    intro j rs
    rw [mem_seqs_cons]
    constructor
    · rintro ⟨r, hr, u, hu, rfl⟩
      simp only [seqs, Finset.mem_singleton] at hu
      subst hu
      exact ⟨[], by simp [seqs], r, by omega, rfl⟩
    · rintro ⟨u, hu, s, hs, rfl⟩
      simp only [seqs, Finset.mem_singleton] at hu
      subst hu
      exact ⟨s, by omega, [], by simp [seqs], rfl⟩
  | succ t ih =>
    intro j rs
    rw [mem_seqs_cons]
    constructor
    · rintro ⟨r, hr, u, hu, rfl⟩
      rw [ih (j + 1) u] at hu
      obtain ⟨v, hv, s, hs, rfl⟩ := hu
      refine ⟨r :: v, ?_, s, by omega, rfl⟩
      rw [mem_seqs_cons]
      exact ⟨r, hr, v, hv, rfl⟩
    · rintro ⟨u, hu, s, hs, rfl⟩
      rw [mem_seqs_cons] at hu
      obtain ⟨r, hr, v, hv, rfl⟩ := hu
      refine ⟨r, hr, v ++ [s], ?_, rfl⟩
      rw [ih (j + 1)]
      exact ⟨v, hv, s, by omega, rfl⟩

theorem floyd_cnt_erase_last (t a : Nat) (T : Finset Nat)
    (hT : T ⊆ Finset.range (a + t + 1)) (hcard : T.card = t + 1) (hmem : a + t ∈ T) :
    ((Finset.Icc 1 (a + t + 1)).filter
      (fun r => floydStep (T.erase (a + t)) (a + t + 1) r = T)).card = t + 1 := by
  have hkey : (Finset.Icc 1 (a + t + 1)).filter
      (fun r => floydStep (T.erase (a + t)) (a + t + 1) r = T) =
      insert (a + t + 1) ((T.erase (a + t)).image (fun s => s + 1)) := by
    ext r
    simp only [Finset.mem_filter, Finset.mem_Icc, Finset.mem_insert, Finset.mem_image,
      floydStep_eq_iff, Nat.add_sub_cancel]
    constructor
    · rintro ⟨hr, (⟨hrm, _⟩ | ⟨hrm, hins⟩)⟩
      · exact Or.inr ⟨r - 1, hrm, by omega⟩
      · left
        by_contra hne
        have hr1T : r - 1 ∈ T := hins ▸ Finset.mem_insert_self _ _
        have : r - 1 ∈ T.erase (a + t) := by
          rw [Finset.mem_erase]
          exact ⟨by omega, hr1T⟩
        exact hrm this
    · rintro (rfl | ⟨s, hs, rfl⟩)
      · have hnm : a + t + 1 - 1 ∉ T.erase (a + t) := by
          simp
        refine ⟨by omega, Or.inr ⟨hnm, ?_⟩⟩
        rw [Nat.add_sub_cancel, Finset.insert_erase hmem]
      · have hsr : s + 1 - 1 ∈ T.erase (a + t) := by simpa using hs
        have hsl : s < a + t := by
          have h1 := Finset.mem_erase.mp hs
          have h2 := Finset.mem_range.mp (hT h1.2)
          omega
        exact ⟨by omega, Or.inl ⟨hsr, by rw [Finset.insert_erase hmem]⟩⟩
  rw [hkey]
  rw [Finset.card_insert_of_not_mem]
  · rw [Finset.card_image_of_injective _ (fun x y hxy => by omega),
      Finset.card_erase_of_mem hmem, hcard]
    omega
  · intro hin
    obtain ⟨s, hs, heq⟩ := Finset.mem_image.mp hin
    have h1 : s ≠ a + t := (Finset.mem_erase.mp hs).1
    omega

theorem floyd_cnt_zero (t a : Nat) (T S' : Finset Nat)
    (hT : T ⊆ Finset.range (a + t + 1)) (hcard : T.card = t + 1) (hmem : a + t ∈ T)
    (hS' : S' ⊆ Finset.range (a + t)) (hcardS : S'.card = t)
    (hne : S' ≠ T.erase (a + t)) :
    ((Finset.Icc 1 (a + t + 1)).filter
      (fun r => floydStep S' (a + t + 1) r = T)).card = 0 := by
  rw [Finset.card_eq_zero, Finset.filter_eq_empty_iff]
  intro r _
  rw [floydStep_eq_iff, Nat.add_sub_cancel]
  rintro (⟨hrm, hins⟩ | ⟨hrm, hins⟩)
  · have hat : a + t ∉ S' := fun h => by
      have := Finset.mem_range.mp (hS' h); omega
    exact hne (by rw [← hins, Finset.erase_insert hat])
  · have hr1 : r - 1 ∈ T := hins ▸ Finset.mem_insert_self _ _
    by_cases hcase : r - 1 = a + t
    · rw [hcase] at hins hrm
      exact hne (by rw [← hins, Finset.erase_insert hrm])
    · have : a + t ∈ insert (r - 1) S' := hins ▸ hmem
      rw [Finset.mem_insert] at this
      rcases this with h | h
      · exact hcase h.symm
      · have := Finset.mem_range.mp (hS' h); omega

theorem floyd_cnt_sub (t a : Nat) (T S' : Finset Nat)
    (hT : T ⊆ Finset.range (a + t + 1)) (hcard : T.card = t + 1) (hmem : a + t ∉ T)
    (hS' : S' ⊆ Finset.range (a + t)) (hcardS : S'.card = t) (hsub : S' ⊆ T) :
    ((Finset.Icc 1 (a + t + 1)).filter
      (fun r => floydStep S' (a + t + 1) r = T)).card = 1 := by
  have hdiff : (T \ S').card = 1 := by
    rw [Finset.card_sdiff hsub, hcard, hcardS]
    omega
  obtain ⟨y, hy⟩ := Finset.card_eq_one.mp hdiff
  have hyT : y ∈ T := (Finset.mem_sdiff.mp (hy ▸ Finset.mem_singleton_self y)).1
  have hyS : y ∉ S' := (Finset.mem_sdiff.mp (hy ▸ Finset.mem_singleton_self y)).2
  have hTeq : T = insert y S' := by
    apply Finset.Subset.antisymm
    · intro x hx
      rw [Finset.mem_insert]
      by_cases hxS : x ∈ S'
      · exact Or.inr hxS
      · left
        have : x ∈ T \ S' := Finset.mem_sdiff.mpr ⟨hx, hxS⟩
        rw [hy] at this
        exact Finset.mem_singleton.mp this
    · intro x hx
      rw [Finset.mem_insert] at hx
      rcases hx with rfl | hx
      · exact hyT
      · exact hsub hx
  have hkey : (Finset.Icc 1 (a + t + 1)).filter
      (fun r => floydStep S' (a + t + 1) r = T) = {y + 1} := by
    ext r
    simp only [Finset.mem_filter, Finset.mem_Icc, Finset.mem_singleton,
      floydStep_eq_iff, Nat.add_sub_cancel]
    constructor
    · rintro ⟨hr, (⟨hrm, hins⟩ | ⟨hrm, hins⟩)⟩
      · exact absurd (hins ▸ Finset.mem_insert_self _ _) hmem
      · have hr1 : r - 1 ∈ T := hins ▸ Finset.mem_insert_self _ _
        have : r - 1 ∈ T \ S' := Finset.mem_sdiff.mpr ⟨hr1, hrm⟩
        rw [hy, Finset.mem_singleton] at this
        omega
    · rintro rfl
      have hyr : y < a + t := by
        have := Finset.mem_range.mp (hT hyT)
        rcases Nat.lt_or_ge y (a + t) with h | h
        · exact h
        · exact absurd (show y = a + t by omega) (fun he => hmem (he ▸ hyT))
      refine ⟨by omega, Or.inr ⟨by simpa using hyS, ?_⟩⟩
      rw [Nat.add_sub_cancel, ← hTeq]
  rw [hkey, Finset.card_singleton]

theorem floyd_cnt_nosub (t a : Nat) (T S' : Finset Nat)
    (hsub : ¬S' ⊆ T) :
    ((Finset.Icc 1 (a + t + 1)).filter
      (fun r => floydStep S' (a + t + 1) r = T)).card = 0 := by
  rw [Finset.card_eq_zero, Finset.filter_eq_empty_iff]
  intro r _
  rw [floydStep_eq_iff]
  rintro (⟨_, hins⟩ | ⟨_, hins⟩) <;>
    exact hsub (fun x hx => hins ▸ Finset.mem_insert_of_mem hx)

/-- The inner sum of the uniformity induction: over all candidate
predecessor sets, the number of final draws mapping a predecessor to the
target t+1-subset is exactly t + 1. -/
theorem floyd_core_sum (t a : Nat) (T : Finset Nat)
    (hT : T ⊆ Finset.range (a + t + 1)) (hcard : T.card = t + 1) :
    (∑ S' ∈ (Finset.range (a + t)).powersetCard t,
      ((Finset.Icc 1 (a + t + 1)).filter
        (fun r => floydStep S' (a + t + 1) r = T)).card) = t + 1 := by
  by_cases hmem : a + t ∈ T
  · have hTe : T.erase (a + t) ∈ (Finset.range (a + t)).powersetCard t := by
      rw [Finset.mem_powersetCard]
      constructor
      · intro x hx
        rw [Finset.mem_erase] at hx
        have := Finset.mem_range.mp (hT hx.2)
        rw [Finset.mem_range]
        omega
      · rw [Finset.card_erase_of_mem hmem, hcard]
        omega
    rw [Finset.sum_eq_single_of_mem (T.erase (a + t)) hTe]
    · exact floyd_cnt_erase_last t a T hT hcard hmem
    · intro S' hS' hne
      rw [Finset.mem_powersetCard] at hS'
      exact floyd_cnt_zero t a T S' hT hcard hmem hS'.1 hS'.2 hne
  · have hstep : ∀ S' ∈ (Finset.range (a + t)).powersetCard t,
        ((Finset.Icc 1 (a + t + 1)).filter
          (fun r => floydStep S' (a + t + 1) r = T)).card
          = if S' ⊆ T then 1 else 0 := by
      intro S' hS'
      rw [Finset.mem_powersetCard] at hS'
      by_cases hsub : S' ⊆ T
      · rw [if_pos hsub]
        exact floyd_cnt_sub t a T S' hT hcard hmem hS'.1 hS'.2 hsub
      · rw [if_neg hsub]
        exact floyd_cnt_nosub t a T S' hsub
    rw [Finset.sum_congr rfl hstep, ← Finset.card_filter]
    have hfe : ((Finset.range (a + t)).powersetCard t).filter (fun S' => S' ⊆ T)
        = T.powersetCard t := by
      ext S'
      simp only [Finset.mem_filter, Finset.mem_powersetCard]
      constructor
      · rintro ⟨⟨_, hc⟩, hsub⟩
        exact ⟨hsub, hc⟩
      · rintro ⟨hsub, hc⟩
        refine ⟨⟨fun x hx => ?_, hc⟩, hsub⟩
        have hxT := hsub hx
        have h1 := Finset.mem_range.mp (hT hxT)
        have h2 : x ≠ a + t := fun he => hmem (he ▸ hxT)
        rw [Finset.mem_range]
        omega
    rw [hfe, Finset.card_powersetCard, hcard, Nat.choose_succ_self_right]

/-- Uniformity of Floyd's algorithm: every t-subset of the first a + t
positions is produced by exactly t! of the draw sequences. -/
theorem floyd_fiber_card : ∀ (t a : Nat) (T : Finset Nat),
    T ⊆ Finset.range (a + t) → T.card = t →
    ((seqs (a + 1) t).filter (fun rs => floydRun ∅ (a + 1) rs = T)).card
      = Nat.factorial t := by
  intro t
  induction t with
  | zero =>
    intro a T hT hcard
    rw [Finset.card_eq_zero] at hcard
    subst hcard
    simp [seqs, floydRun, Finset.filter_singleton]
  | succ t ih =>
    intro a T hT hcard
    have hT' : T ⊆ Finset.range (a + t + 1) := by
      refine hT.trans (Finset.range_subset.mpr ?_)
      omega
    have himg : (seqs (a + 1) (t + 1)).filter (fun rs => floydRun ∅ (a + 1) rs = T) =
        (((seqs (a + 1) t) ×ˢ Finset.Icc 1 (a + t + 1)).filter
          (fun p => floydStep (floydRun ∅ (a + 1) p.1) (a + t + 1) p.2 = T)).image
          (fun p => p.1 ++ [p.2]) := by
      ext rs
      simp only [Finset.mem_filter, Finset.mem_image, Finset.mem_product, Finset.mem_Icc]
      constructor
      · rintro ⟨hmem, hrun⟩
        rw [mem_seqs_append] at hmem
        obtain ⟨u, hu, s, hs, rfl⟩ := hmem
        have hlen := seqs_length t (a + 1) u hu
        refine ⟨(u, s), ⟨⟨hu, by omega⟩, ?_⟩, rfl⟩
        rw [floydRun_append, hlen, show a + 1 + t = a + t + 1 from by omega] at hrun
        exact hrun
      · rintro ⟨⟨u, s⟩, ⟨⟨hu, hs⟩, hstep⟩, rfl⟩
        have hlen := seqs_length t (a + 1) u hu
        constructor
        · rw [mem_seqs_append]
          exact ⟨u, hu, s, by omega, rfl⟩
        · rw [floydRun_append, hlen, show a + 1 + t = a + t + 1 from by omega]
          exact hstep
    rw [himg, Finset.card_image_of_injOn]
    · have hprod : ((((seqs (a + 1) t) ×ˢ Finset.Icc 1 (a + t + 1)).filter
          (fun p => floydStep (floydRun ∅ (a + 1) p.1) (a + t + 1) p.2 = T))).card =
          ∑ u ∈ seqs (a + 1) t,
            ((Finset.Icc 1 (a + t + 1)).filter
              (fun r => floydStep (floydRun ∅ (a + 1) u) (a + t + 1) r = T)).card := by
        rw [Finset.card_filter, Finset.sum_product]
        refine Finset.sum_congr rfl fun u _ => ?_
        rw [Finset.card_filter]
      rw [hprod]
      have hmaps : ∀ u ∈ seqs (a + 1) t,
          floydRun ∅ (a + 1) u ∈ (Finset.range (a + t)).powersetCard t := by
        intro u hu
        have h := floydRun_subset_card t (a + 1) ∅ u hu (by simp)
        rw [Finset.mem_powersetCard]
        refine ⟨?_, by simpa using h.2⟩
        have := h.1
        rw [show a + 1 - 1 + t = a + t from by omega] at this
        exact this
      rw [← Finset.sum_fiberwise_of_maps_to' hmaps
        (fun S' => ((Finset.Icc 1 (a + t + 1)).filter
          (fun r => floydStep S' (a + t + 1) r = T)).card)]
      have hinner : ∀ S' ∈ (Finset.range (a + t)).powersetCard t,
          (∑ _u ∈ (seqs (a + 1) t).filter (fun u => floydRun ∅ (a + 1) u = S'),
            ((Finset.Icc 1 (a + t + 1)).filter
              (fun r => floydStep S' (a + t + 1) r = T)).card) =
          Nat.factorial t *
            ((Finset.Icc 1 (a + t + 1)).filter
              (fun r => floydStep S' (a + t + 1) r = T)).card := by
        intro S' hS'
        rw [Finset.sum_const, smul_eq_mul]
        rw [Finset.mem_powersetCard] at hS'
        rw [ih a S' hS'.1 hS'.2]
      rw [Finset.sum_congr rfl hinner, ← Finset.mul_sum,
        floyd_core_sum t a T hT' hcard, Nat.factorial_succ, Nat.mul_comm]
    · intro p hp q hq heq
      rw [Finset.mem_coe, Finset.mem_filter, Finset.mem_product] at hp hq
      have hlp := seqs_length t (a + 1) p.1 hp.1.1
      have hlq := seqs_length t (a + 1) q.1 hq.1.1
      have heq' : p.1 ++ [p.2] = q.1 ++ [q.2] := heq
      have := List.append_inj heq' (by rw [hlp, hlq])
      obtain ⟨h1, h2⟩ := this
      have h3 : p.2 = q.2 := by simpa using h2
      exact Prod.ext h1 h3

theorem getD_set_self {α : Type} {l : List α} {i : Nat} {a d : α} (h : i < l.length) :
    (l.set i a).getD i d = a := by
  rw [List.getD_eq_getElem?_getD, List.getElem?_set_self h]
  rfl

theorem getD_set_ne {α : Type} {l : List α} {i j : Nat} {a d : α} (h : j ≠ i) :
    (l.set j a).getD i d = l.getD i d := by
  rw [List.getD_eq_getElem?_getD, List.getElem?_set_ne h, ← List.getD_eq_getElem?_getD]

theorem countP_list_range (n : Nat) (p : Nat → Bool) :
    (List.range n).countP p = ((Finset.range n).filter (fun i => p i)).card := by
  induction n with
  | zero => simp
  | succ m ih =>
    rw [List.range_succ, List.countP_append, Finset.range_succ, Finset.filter_insert]
    have hx : m ∉ (Finset.range m).filter (fun i => p i = true) :=
      fun hmem => absurd (Finset.mem_range.mp (Finset.mem_of_mem_filter m hmem))
        (lt_irrefl m)
    cases hp : p m with
    | false => simpa [hp] using ih
    | true =>
      rw [if_pos rfl, Finset.card_insert_of_not_mem hx]
      simpa [hp] using ih

theorem list_eq_of_getD {α : Type} (l1 l2 : List α) (d : α) (h1 : l1.length = l2.length)
    (h : ∀ i, i < l1.length → l1.getD i d = l2.getD i d) : l1 = l2 := by
  apply List.ext_getElem h1
  intro i hi1 hi2
  have := h i hi1
  rwa [List.getD_eq_getElem?_getD, List.getD_eq_getElem?_getD,
    List.getElem?_eq_getElem hi1, List.getElem?_eq_getElem hi2] at this

/-- The fold of the sampler's loop tracks Floyd's selection set: the mask
stays length n and at every index agrees with membership in floydRun. -/
theorem rs_fold_mask : ∀ (t j0 : Nat) (rs : List Nat) (m : List Bool) (S : Finset Nat)
    (n : Nat), rs ∈ seqs j0 t → m.length = n → 1 ≤ j0 → j0 + t ≤ n + 1 →
    S ⊆ Finset.range (j0 - 1) →
    (∀ i, i < n → m.getD i false = decide (i ∈ S)) →
    (((List.range' j0 t).zip rs).foldl
        (fun m p => if m.getD (p.2 - 1) false then m.set (p.1 - 1) true
                    else m.set (p.2 - 1) true) m).length = n ∧
    ∀ i, i < n →
      (((List.range' j0 t).zip rs).foldl
        (fun m p => if m.getD (p.2 - 1) false then m.set (p.1 - 1) true
                    else m.set (p.2 - 1) true) m).getD i false
        = decide (i ∈ floydRun S j0 rs) := by
  intro t
  induction t with
  | zero =>
    intro j0 rs m S n hrs hlen hj0 hring hS hmask
    simp only [seqs, Finset.mem_singleton] at hrs
    subst hrs
    exact ⟨by simpa using hlen, by simpa [floydRun] using hmask⟩
  | succ t ih =>
    intro j0 rs m S n hrs hlen hj0 hring hS hmask
    rw [mem_seqs_cons] at hrs
    obtain ⟨r, ⟨hr1, hr2⟩, u, hu, rfl⟩ := hrs
    rw [List.range'_succ, List.zip_cons_cons, List.foldl_cons]
    have hr1n : r - 1 < n := by omega
    have hj1n : j0 - 1 < n := by omega
    have hrS : m.getD (r - 1) false = decide (r - 1 ∈ S) := hmask (r - 1) hr1n
    set m' := if m.getD (r - 1) false then m.set (j0 - 1) true else m.set (r - 1) true with hm'
    have hlen' : m'.length = n := by
      rw [hm']
      split <;> simpa using hlen
    have hmask' : ∀ i, i < n → m'.getD i false = decide (i ∈ floydStep S j0 r) := by
      intro i hi
      rw [hm']
      unfold floydStep
      by_cases hcase : r - 1 ∈ S
      · rw [if_pos (by rw [hrS]; simpa using hcase), if_pos hcase]
        by_cases hij : i = j0 - 1
        · subst hij
          rw [getD_set_self (by omega)]
          simp
        · rw [getD_set_ne (fun he => hij he.symm), hmask i hi]
          simp only [Finset.mem_insert]
          congr 1
          simp only [eq_iff_iff]
          constructor
          · exact Or.inr
          · rintro (rfl | h)
            · exact absurd rfl hij
            · exact h
      · rw [if_neg (by rw [hrS]; simpa using hcase), if_neg hcase]
        by_cases hij : i = r - 1
        · subst hij
          rw [getD_set_self (by omega)]
          simp
        · rw [getD_set_ne (fun he => hij he.symm), hmask i hi]
          simp only [Finset.mem_insert]
          congr 1
          simp only [eq_iff_iff]
          constructor
          · exact Or.inr
          · rintro (rfl | h)
            · exact absurd rfl hij
            · exact h
    have hstep : floydStep S j0 r ⊆ Finset.range ((j0 + 1) - 1) := by
      simpa using floydStep_subset hr1 hr2 hS
    exact ih (j0 + 1) u m' (floydStep S j0 r) n hu hlen' (by omega) (by omega) hstep hmask'

/-- On valid draw sequences the sampler's output is the indicator mask of
Floyd's selection set. -/
theorem random_combination_rs_mask (n k : Nat) (hk : k ≤ n) (rs : List Nat)
    (hrs : rs ∈ seqs (n - k + 1) k) :
    random_combination_rs n k rs
      = (List.range n).map (fun i => decide (i ∈ floydRun ∅ (n - k + 1) rs)) := by
  have hmain := rs_fold_mask k (n - k + 1) rs (List.replicate n false) ∅ n hrs
    (by simp) (by omega) (by omega) (by simp) (by intro i _; simp)
  unfold random_combination_rs
  refine list_eq_of_getD _ _ false ?_ ?_
  · rw [hmain.1, List.length_map, List.length_range]
  · intro i hi
    rw [hmain.1] at hi
    rw [hmain.2 i hi, List.getD_eq_getElem?_getD, List.getElem?_map]
    rw [List.getElem?_eq_getElem (by simpa using hi)]
    simp

theorem map_rng_mem_seqs : ∀ (t j0 : Nat) (rng : Nat → Nat), RngOk rng → 1 ≤ j0 →
    (List.range' j0 t).map rng ∈ seqs j0 t := by
  intro t
  induction t with
  | zero => intro j0 rng _ _; simp [seqs]
  | succ t ih =>
    intro j0 rng hrng hj0
    rw [List.range'_succ, List.map_cons, mem_seqs_cons]
    exact ⟨rng j0, hrng j0 hj0, _, ih (j0 + 1) rng hrng (by omega), rfl⟩

theorem random_combination_eq_rs (n k : Nat) (rng : Nat → Nat) :
    random_combination n k rng
      = random_combination_rs n k ((List.range' (n - k + 1) k).map rng) := by
  unfold random_combination random_combination_rs
  have hzip : ∀ l : List Nat, l.zip (l.map rng) = l.map (fun j => (j, rng j)) := by
    intro l
    induction l with
    | nil => rfl
    | cons a l ihl => simp [List.zip_cons_cons, ihl]
  rw [hzip, List.foldl_map]

theorem map_indicator_inj {n : Nat} {R1 R2 : Finset Nat}
    (h1 : R1 ⊆ Finset.range n) (h2 : R2 ⊆ Finset.range n)
    (h : (List.range n).map (fun i => decide (i ∈ R1))
        = (List.range n).map (fun i => decide (i ∈ R2))) : R1 = R2 := by
  ext x
  by_cases hx : x < n
  · have hx1 : x < ((List.range n).map (fun i => decide (i ∈ R1))).length := by
      simpa using hx
    have hx2 : x < ((List.range n).map (fun i => decide (i ∈ R2))).length := by
      simpa using hx
    have hcg : ((List.range n).map (fun i => decide (i ∈ R1))).getD x false
        = ((List.range n).map (fun i => decide (i ∈ R2))).getD x false :=
      congrArg (fun l => l.getD x false) h
    rw [List.getD_eq_getElem?_getD, List.getD_eq_getElem?_getD, List.getElem?_map,
      List.getElem?_map, List.getElem?_range hx] at hcg
    exact decide_eq_decide.mp hcg
  · constructor
    · intro hm
      exact absurd (Finset.mem_range.mp (h1 hm)) hx
    · intro hm
      exact absurd (Finset.mem_range.mp (h2 hm)) hx

/-! ## Claim C7: the sampler's claim theorem -/

/-- C7: for 0 <= count <= poolSize and a random source honoring its
contract, random_combination returns a mask of length poolSize with
exactly count true entries; for count = 0 it is the all-false mask and for
count = poolSize the all-true mask; and every count-subset of positions is
the sampler's output on exactly count! of the equally likely draw
sequences, so each of the C(poolSize, count) masks is equally likely. -/
theorem C7_sampler (n k : Nat) (rng : Nat → Nat) (hk : k ≤ n) (hrng : RngOk rng) :
    (random_combination n k rng).length = n ∧
    (random_combination n k rng).countP id = k ∧
    (k = 0 → random_combination n k rng = List.replicate n false) ∧
    (k = n → random_combination n k rng = List.replicate n true) ∧
    (∀ T, T ⊆ Finset.range n → T.card = k →
      ((seqs (n - k + 1) k).filter
        (fun rs => random_combination_rs n k rs
          = (List.range n).map (fun i => decide (i ∈ T)))).card = Nat.factorial k) := by
  have hrs : (List.range' (n - k + 1) k).map rng ∈ seqs (n - k + 1) k :=
    map_rng_mem_seqs k (n - k + 1) rng hrng (by omega)
  have hmask := random_combination_rs_mask n k hk _ hrs
  have heq := random_combination_eq_rs n k rng
  have hrun := floydRun_subset_card k (n - k + 1) ∅ _ hrs (by simp)
  have hsub : floydRun ∅ (n - k + 1) ((List.range' (n - k + 1) k).map rng)
      ⊆ Finset.range n := by
    have h1 := hrun.1
    rwa [show n - k + 1 - 1 + k = n from by omega] at h1
  have hcardrun :
      (floydRun ∅ (n - k + 1) ((List.range' (n - k + 1) k).map rng)).card = k := by
    simpa using hrun.2
  have hlen : (random_combination n k rng).length = n := by
    rw [heq, hmask, List.length_map, List.length_range]
  have hcount : (random_combination n k rng).countP id = k := by
    rw [heq, hmask, List.countP_map]
    have hcomp : (id ∘ fun i => decide (i ∈ floydRun ∅ (n - k + 1)
        ((List.range' (n - k + 1) k).map rng)))
        = fun i => decide (i ∈ floydRun ∅ (n - k + 1)
          ((List.range' (n - k + 1) k).map rng)) := rfl
    rw [hcomp, countP_list_range n _]
    have hfilter : (Finset.range n).filter
        (fun i => decide (i ∈ floydRun ∅ (n - k + 1)
          ((List.range' (n - k + 1) k).map rng)) = true)
        = floydRun ∅ (n - k + 1) ((List.range' (n - k + 1) k).map rng) := by
      ext x
      rw [Finset.mem_filter]
      simp only [decide_eq_true_eq]
      exact ⟨fun hx => hx.2, fun hx => ⟨hsub hx, hx⟩⟩
    rw [hfilter, hcardrun]
  refine ⟨hlen, hcount, ?_, ?_, ?_⟩
  · intro h0
    subst h0
    simp [random_combination]
  · intro hn
    subst hn
    rw [List.eq_replicate_iff]
    refine ⟨hlen, ?_⟩
    have := List.countP_eq_length.mp (hcount.trans hlen.symm)
    intro b hb
    simpa using this b hb
  · intro T hTsub hTcard
    have hcong : ∀ rs ∈ seqs (n - k + 1) k,
        (random_combination_rs n k rs
          = (List.range n).map (fun i => decide (i ∈ T)))
        ↔ floydRun ∅ (n - k + 1) rs = T := by
      intro rs hrs'
      rw [random_combination_rs_mask n k hk rs hrs']
      constructor
      · intro h
        have hrun' := floydRun_subset_card k (n - k + 1) ∅ rs hrs' (by simp)
        have hsub' : floydRun ∅ (n - k + 1) rs ⊆ Finset.range n := by
          have h1 := hrun'.1
          rwa [show n - k + 1 - 1 + k = n from by omega] at h1
        exact map_indicator_inj hsub' hTsub h
      · intro h
        rw [h]
    rw [Finset.filter_congr hcong]
    have hfc := floyd_fiber_card k (n - k) T
      (by rwa [show n - k + k = n from by omega]) hTcard
    exact hfc

/-- Witness for C7 at poolSize 4, count 2, with the identity draw
function (each draw at its upper bound). -/
theorem C7_witness :
    (random_combination 4 2 (fun j => j)).length = 4 ∧
    (random_combination 4 2 (fun j => j)).countP id = 2 ∧
    ((2 : Nat) = 0 → random_combination 4 2 (fun j => j) = List.replicate 4 false) ∧
    ((2 : Nat) = 4 → random_combination 4 2 (fun j => j) = List.replicate 4 true) ∧
    (∀ T, T ⊆ Finset.range 4 → T.card = 2 →
      ((seqs (4 - 2 + 1) 2).filter
        (fun rs => random_combination_rs 4 2 rs
          = (List.range 4).map (fun i => decide (i ∈ T)))).card = Nat.factorial 2) :=
  C7_sampler 4 2 (fun j => j) (by decide) (fun j hj => ⟨hj, Nat.le_refl j⟩)

/-! ## Grid index and update lemmas -/

theorem grid_idx_lt {w h x y : Nat} (hx : x < w) (hy : y < h) : w * y + x < w * h :=
  calc w * y + x < w * y + w := by omega
  _ = w * (y + 1) := by ring
  _ ≤ w * h := Nat.mul_le_mul_left w hy

theorem grid_idx_mod {w x y : Nat} (hx : x < w) : (w * y + x) % w = x := by
  rw [Nat.mul_comm, Nat.add_comm, Nat.add_mul_mod_self_right, Nat.mod_eq_of_lt hx]

theorem grid_idx_div {w x y : Nat} (hx : x < w) : (w * y + x) / w = y := by
  rw [Nat.add_comm, Nat.add_mul_div_left _ _ (by omega : 0 < w),
    Nat.div_eq_of_lt hx, Nat.zero_add]

theorem grid_idx_inj {w x y x' y' : Nat} (hx : x < w) (hx' : x' < w)
    (h : w * y + x = w * y' + x') : x = x' ∧ y = y' := by
  have h1 : x = x' := by
    have := grid_idx_mod (y := y) hx
    rw [h, grid_idx_mod hx'] at this
    omega
  subst h1
  refine ⟨rfl, ?_⟩
  have := grid_idx_div (y := y) hx
  rw [h, grid_idx_div hx] at this
  omega

theorem put_width (g : Grid) (x y : Nat) (c : cell) : (g.put x y c).width = g.width := rfl

theorem put_height (g : Grid) (x y : Nat) (c : cell) : (g.put x y c).height = g.height := rfl

theorem put_length (g : Grid) (x y : Nat) (c : cell) :
    (g.put x y c).cells.length = g.cells.length := by
  unfold Grid.put
  simp

theorem get_put_self {g : Grid} {x y : Nat} {c : cell}
    (h : g.width * y + x < g.cells.length) : (g.put x y c).get x y = c := by
  unfold Grid.put Grid.get
  simp only [List.getD_eq_getElem?_getD, List.getElem?_set_self h]
  rfl

theorem get_put_ne {g : Grid} {x y x' y' : Nat} {c : cell}
    (h : g.width * y + x ≠ g.width * y' + x') : (g.put x y c).get x' y' = g.get x' y' := by
  unfold Grid.put Grid.get
  rw [List.getD_eq_getElem?_getD, List.getElem?_set_ne h, ← List.getD_eq_getElem?_getD]

theorem nbrs_nodup (w h x y : Nat) : (nbrs w h x y).Nodup := by
  unfold nbrs
  rw [List.nodup_flatMap]
  constructor
  · intro j _
    apply List.Nodup.filterMap
    · intro a a' b hb hb'
      split at hb
      · simp at hb
      · split at hb'
        · simp at hb'
        · rw [Option.mem_def, Option.some.injEq] at hb hb'
          rw [← hb] at hb'
          exact ((Prod.mk.injEq .. ▸ hb').1).symm
    · exact List.nodup_range' _ _
  · refine List.Pairwise.imp ?_ (List.nodup_range' (y - 1) (min (y + 1) (h - 1) + 1 - (y - 1)))
    intro j j' hne
    rw [Function.onFun, List.disjoint_left]
    intro p hp hp'
    simp only [List.mem_filterMap] at hp hp'
    obtain ⟨i, _, hi⟩ := hp
    obtain ⟨i', _, hi'⟩ := hp'
    split at hi
    · simp at hi
    · split at hi'
      · simp at hi'
      · have h1 : (i, j) = p := by injection hi
        have h2 : (i', j') = p := by injection hi'
        rw [← h2] at h1
        exact hne ((Prod.mk.injEq .. ▸ h1).2)

theorem nbrs_length_le (w h x y : Nat) : (nbrs w h x y).length ≤ 9 := by
  unfold nbrs
  rw [List.flatMap, List.length_flatten, List.map_map]
  have hbound : ∀ n ∈ (List.range' (y - 1) (min (y + 1) (h - 1) + 1 - (y - 1))).map
      (List.length ∘ fun j =>
        (List.range' (x - 1) (min (x + 1) (w - 1) + 1 - (x - 1))).filterMap
          fun i => if i = x ∧ j = y then none else some (i, j)), n ≤ 3 := by
    intro n hn
    rw [List.mem_map] at hn
    obtain ⟨j, _, rfl⟩ := hn
    calc _ ≤ (List.range' (x - 1) (min (x + 1) (w - 1) + 1 - (x - 1))).length :=
          List.length_filterMap_le _ _
    _ ≤ 3 := by rw [List.length_range']; omega
  have hsum := List.sum_le_card_nsmul _ 3 hbound
  rw [List.length_map, List.length_range', smul_eq_mul] at hsum
  have hr : min (y + 1) (h - 1) + 1 - (y - 1) ≤ 3 := by omega
  omega

theorem count_adjacent_mines_le (g : Grid) (x y : Nat) :
    count_adjacent_mines g x y ≤ 9 :=
  le_trans (List.countP_le_length _) (nbrs_length_le _ _ _ _)

/-- A fold that applies a cell transformation once at each coordinate of a
duplicate-free in-bounds list: the final grid pointwise. -/
theorem foldl_put_once (φ : cell → cell) :
    ∀ (L : List (Nat × Nat)) (g : Grid), L.Nodup →
    (∀ p ∈ L, p.1 < g.width ∧ p.2 < g.height) →
    g.cells.length = g.width * g.height →
    (((L.foldl (fun gg q => gg.put q.1 q.2 (φ (gg.get q.1 q.2))) g).width = g.width ∧
      (L.foldl (fun gg q => gg.put q.1 q.2 (φ (gg.get q.1 q.2))) g).height = g.height ∧
      (L.foldl (fun gg q => gg.put q.1 q.2 (φ (gg.get q.1 q.2))) g).cells.length
        = g.cells.length) ∧
     ∀ x' y', x' < g.width →
      (L.foldl (fun gg q => gg.put q.1 q.2 (φ (gg.get q.1 q.2))) g).get x' y'
        = if (x', y') ∈ L then φ (g.get x' y') else g.get x' y') := by
  intro L
  induction L with
  | nil =>
    intro g _ _ _
    exact ⟨⟨rfl, rfl, rfl⟩, fun x' y' _ => by simp⟩
  | cons q L ih =>
    intro g hnd hb hlen
    rw [List.nodup_cons] at hnd
    have hqb := hb q (List.mem_cons_self q L)
    have hqidx : g.width * q.2 + q.1 < g.cells.length := by
      rw [hlen]
      exact grid_idx_lt hqb.1 hqb.2
    set g' := g.put q.1 q.2 (φ (g.get q.1 q.2)) with hg'
    have hw' : g'.width = g.width := rfl
    have hh' : g'.height = g.height := rfl
    have hl' : g'.cells.length = g.cells.length := put_length g q.1 q.2 _
    have hmain := ih g' hnd.2
      (fun p hp => by rw [hw', hh']; exact hb p (List.mem_cons_of_mem q hp))
      (by rw [hl', hw', hh']; exact hlen)
    rw [List.foldl_cons]
    refine ⟨⟨hmain.1.1.trans hw', hmain.1.2.1.trans hh', hmain.1.2.2.trans hl'⟩,
      fun x' y' hx' => ?_⟩
    rw [hmain.2 x' y' (by rw [hw']; exact hx')]
    by_cases hq : (x', y') = q
    · rw [if_neg (fun hmem => hnd.1 (hq ▸ hmem))]
      rw [if_pos (hq ▸ List.mem_cons_self q L)]
      obtain ⟨hq1, hq2⟩ := Prod.mk.injEq .. ▸ hq
      subst hq1
      subst hq2
      rw [hg']
      exact get_put_self hqidx
    · have hget : g'.get x' y' = g.get x' y' := by
        rw [hg']
        refine get_put_ne (fun he => hq ?_)
        obtain ⟨h1, h2⟩ := grid_idx_inj hqb.1 hx' he
        rw [Prod.mk.injEq]
        exact ⟨h1.symm, h2.symm⟩
      by_cases hmem : (x', y') ∈ L
      · rw [if_pos hmem, if_pos (List.mem_cons_of_mem q hmem), hget]
      · rw [if_neg hmem, hget,
          if_neg (by rw [List.mem_cons]; rintro (h | h) <;> [exact hq h; exact hmem h])]

/-! ## Counting a single predicate flip -/

theorem countP_flip_true {α : Type} [DecidableEq α] (e : α) (p q : α → Bool)
    (hq : q e = true) (hp : p e = false) :
    ∀ L : List α, L.Nodup → (∀ a ∈ L, a ≠ e → q a = p a) →
    L.countP q = L.countP p + (if e ∈ L then 1 else 0) := by
  intro L
  induction L with
  | nil => simp
  | cons a L ih =>
    intro hnd hsame
    rw [List.nodup_cons] at hnd
    rw [List.countP_cons, List.countP_cons]
    by_cases hae : a = e
    · subst hae
      rw [hq, hp, if_pos (List.mem_cons_self a L), if_pos rfl, if_neg (by simp)]
      have hcong : L.countP q = L.countP p :=
        List.countP_congr fun x hx => by
          rw [hsame x (List.mem_cons_of_mem a hx) (fun hxe => hnd.1 (hxe ▸ hx))]
      omega
    · rw [hsame a (List.mem_cons_self a L) hae]
      have hrec := ih hnd.2 (fun x hx hxe => hsame x (List.mem_cons_of_mem a hx) hxe)
      have hif : (if e ∈ a :: L then (1 : Nat) else 0) = (if e ∈ L then 1 else 0) := by
        by_cases hm : e ∈ L
        · rw [if_pos hm, if_pos (List.mem_cons_of_mem a hm)]
        · rw [if_neg hm, if_neg (by
            rw [List.mem_cons]
            rintro (rfl | hh)
            · exact hae rfl
            · exact hm hh)]
      rw [hif]
      omega

theorem countP_flip_false {α : Type} [DecidableEq α] (e : α) (p q : α → Bool)
    (hq : q e = false) (hp : p e = true) :
    ∀ L : List α, L.Nodup → (∀ a ∈ L, a ≠ e → q a = p a) →
    L.countP q + (if e ∈ L then 1 else 0) = L.countP p := by
  intro L hnd hsame
  have := countP_flip_true e q p hp hq L hnd (fun a ha hae => (hsame a ha hae).symm)
  omega

/-! ## Frame lemmas for bucket_reveal -/

theorem gridFrame_refl (g : Grid) : gridFrame g g :=
  ⟨rfl, rfl, rfl, fun _ => ⟨rfl, rfl, rfl, rfl⟩⟩

theorem gridFrame_trans {a b c : Grid} (h1 : gridFrame a b) (h2 : gridFrame b c) :
    gridFrame a c := by
  obtain ⟨w1, h1', l1, f1⟩ := h1
  obtain ⟨w2, h2', l2, f2⟩ := h2
  refine ⟨w2.trans w1, h2'.trans h1', l2.trans l1, fun i => ?_⟩
  obtain ⟨m1, a1, e1, k1⟩ := f1 i
  obtain ⟨m2, a2, e2, k2⟩ := f2 i
  exact ⟨m2.trans m1, a2.trans a1, e2.trans e1, k2.trans k1⟩

theorem visMonotone_refl (g : Grid) : visMonotone g g := fun _ h => h

theorem visMonotone_trans {a b c : Grid} (h1 : visMonotone a b) (h2 : visMonotone b c) :
    visMonotone a c := fun i h => h2 i (h1 i h)

theorem foldl_rel (R : Grid → Grid → Prop) (hrefl : ∀ g, R g g)
    (htrans : ∀ a b c, R a b → R b c → R a c) (step : Grid → (Nat × Nat) → Grid)
    (hstep : ∀ gg p, R gg (step gg p)) :
    ∀ (L : List (Nat × Nat)) (g : Grid), R g (L.foldl step g) := by
  intro L
  induction L with
  | nil => intro g; exact hrefl g
  | cons q L ih => intro g; exact htrans _ _ _ (hstep g q) (ih (step g q))

theorem gridFrame_put_markCell (g : Grid) (x y : Nat) :
    gridFrame g (g.put x y (markCell (g.get x y))) := by
  refine ⟨rfl, rfl, put_length g x y _, fun i => ?_⟩
  simp only [Grid.put]
  by_cases hi : g.width * y + x = i
  · subst hi
    by_cases hlt : g.width * y + x < g.cells.length
    · rw [getD_set_self hlt]
      exact ⟨rfl, rfl, rfl, rfl⟩
    · rw [List.set_eq_of_length_le (by omega)]
      exact ⟨rfl, rfl, rfl, rfl⟩
  · rw [getD_set_ne hi]
    exact ⟨rfl, rfl, rfl, rfl⟩

theorem visMonotone_put_markCell (g : Grid) (x y : Nat) :
    visMonotone g (g.put x y (markCell (g.get x y))) := by
  intro i hvis
  simp only [Grid.put]
  by_cases hi : g.width * y + x = i
  · subst hi
    by_cases hlt : g.width * y + x < g.cells.length
    · rw [getD_set_self hlt]
      rfl
    · rw [List.set_eq_of_length_le (by omega)]
      exact hvis
  · rw [getD_set_ne hi]
    exact hvis

/-- bucket_reveal never changes a cell's mine, adjacency, exploded or
mistake data, and never hides a visible cell. -/
theorem bucketRevealF_frame : ∀ (f : Nat) (g : Grid) (x y : Nat),
    gridFrame g (bucketRevealF f g x y) ∧ visMonotone g (bucketRevealF f g x y) := by
  intro f
  induction f with
  | zero => intro g x y; exact ⟨gridFrame_refl g, visMonotone_refl g⟩
  | succ f ih =>
    intro g x y
    rw [bucketRevealF]
    set g1 := g.put x y (markCell (g.get x y)) with hg1
    have hbase : gridFrame g g1 ∧ visMonotone g g1 :=
      ⟨gridFrame_put_markCell g x y, visMonotone_put_markCell g x y⟩
    split
    · have hfold := foldl_rel (fun a b => gridFrame a b ∧ visMonotone a b)
        (fun g => ⟨gridFrame_refl g, visMonotone_refl g⟩)
        (fun a b c h1 h2 => ⟨gridFrame_trans h1.1 h2.1, visMonotone_trans h1.2 h2.2⟩)
        (fun gg p => if (gg.get p.1 p.2).visible then gg else bucketRevealF f gg p.1 p.2)
        (fun gg p => by
          show gridFrame gg (if (gg.get p.1 p.2).visible = true then gg
              else bucketRevealF f gg p.1 p.2) ∧
            visMonotone gg (if (gg.get p.1 p.2).visible = true then gg
              else bucketRevealF f gg p.1 p.2)
          split
          · exact ⟨gridFrame_refl gg, visMonotone_refl gg⟩
          · exact ih gg p.1 p.2)
        (nbrs g1.width g1.height x y) g1
      exact ⟨gridFrame_trans hbase.1 hfold.1, visMonotone_trans hbase.2 hfold.2⟩
    · exact hbase

theorem bucket_reveal_frame (g : Grid) (x y : Nat) :
    gridFrame g (bucket_reveal g x y) ∧ visMonotone g (bucket_reveal g x y) :=
  bucketRevealF_frame _ g x y

/-! ## recompute_minefield_adj lemmas -/

theorem recompute_length (g : Grid) :
    (recompute_minefield_adj g).cells.length = g.cells.length := by
  unfold recompute_minefield_adj
  simp

theorem get_recompute (g : Grid) {x y : Nat} (hx : x < g.width) (hy : y < g.height)
    (hlen : g.cells.length = g.width * g.height) :
    (recompute_minefield_adj g).get x y
      = { g.get x y with adj := count_adjacent_mines g x y } := by
  have hidx : g.width * y + x < g.cells.length := by
    rw [hlen]
    exact grid_idx_lt hx hy
  show ((List.range g.cells.length).map _).getD (g.width * y + x) cell.virgin = _
  rw [List.getD_eq_getElem?_getD, List.getElem?_map,
    List.getElem?_eq_getElem (by simpa using hidx)]
  simp only [List.getElem_range, Option.map_some', Option.getD_some]
  rw [grid_idx_mod hx, grid_idx_div hx]
  rfl

theorem get_recompute_fields (g : Grid) (x y : Nat) :
    ((recompute_minefield_adj g).get x y).mine = (g.get x y).mine ∧
    ((recompute_minefield_adj g).get x y).visible = (g.get x y).visible ∧
    ((recompute_minefield_adj g).get x y).flag = (g.get x y).flag ∧
    ((recompute_minefield_adj g).get x y).qmark = (g.get x y).qmark ∧
    ((recompute_minefield_adj g).get x y).exploded = (g.get x y).exploded ∧
    ((recompute_minefield_adj g).get x y).mistake = (g.get x y).mistake := by
  unfold recompute_minefield_adj Grid.get
  simp only []
  by_cases hidx : g.width * y + x < g.cells.length
  · rw [List.getD_eq_getElem?_getD, List.getElem?_map,
      List.getElem?_eq_getElem (by simpa using hidx)]
    simp only [List.getElem_range, Option.map_some', Option.getD_some]
    refine ⟨?_, ?_, ?_, ?_, ?_, ?_⟩ <;> trivial
  · rw [List.getD_eq_getElem?_getD, List.getElem?_map,
      List.getElem?_eq_none (by simpa using hidx)]
    rw [show (g.cells.getD (g.width * y + x) cell.virgin) = cell.virgin from by
      rw [List.getD_eq_getElem?_getD, List.getElem?_eq_none (by omega)]
      rfl]
    refine ⟨?_, ?_, ?_, ?_, ?_, ?_⟩ <;> trivial

theorem count_adjacent_mines_recompute (g : Grid) (x y : Nat) :
    count_adjacent_mines (recompute_minefield_adj g) x y = count_adjacent_mines g x y := by
  unfold count_adjacent_mines
  exact List.countP_congr fun q _ => by
    rw [(get_recompute_fields g q.1 q.2).1]

theorem adjInvariant_recompute (g : Grid)
    (hlen : g.cells.length = g.width * g.height) :
    adjInvariant (recompute_minefield_adj g) := by
  intro p hp
  have hp' := mem_coords.mp hp
  rw [get_recompute g hp'.1 hp'.2 hlen, count_adjacent_mines_recompute]

/-! ## Preservation of the adjacency invariant -/

theorem wf_of_gridFrame {g g' : Grid} (hf : gridFrame g g') (hwf : g.wf) : g'.wf := by
  obtain ⟨hw, hh, hl, _⟩ := hf
  exact ⟨by rw [hl, hw, hh]; exact hwf.1, by rw [hw]; exact hwf.2.1,
    by rw [hh]; exact hwf.2.2⟩

theorem get_of_gridFrame {g g' : Grid} (hf : gridFrame g g') (x y : Nat) :
    ((g'.get x y).mine = (g.get x y).mine ∧ (g'.get x y).adj = (g.get x y).adj) := by
  obtain ⟨hw, _, _, hfields⟩ := hf
  have : g'.get x y = g'.cells.getD (g.width * y + x) cell.virgin := by
    unfold Grid.get
    rw [hw]
  rw [this]
  exact ⟨(hfields _).1, (hfields _).2.1⟩

theorem adjInvariant_of_gridFrame {g g' : Grid} (hf : gridFrame g g')
    (hinv : adjInvariant g) : adjInvariant g' := by
  intro p hp
  have hco : p ∈ coords g.width g.height := by
    rw [mem_coords] at hp ⊢
    rw [hf.1, hf.2.1] at hp
    exact hp
  rw [(get_of_gridFrame hf p.1 p.2).2, hinv p hco]
  unfold count_adjacent_mines
  rw [hf.1, hf.2.1]
  exact (List.countP_congr fun q _ => by rw [(get_of_gridFrame hf q.1 q.2).1]).symm

theorem foldl_pres {α : Type} (P : Grid → Prop) (step : Grid → α → Grid) :
    ∀ (L : List α) (g : Grid), (∀ gg a, a ∈ L → P gg → P (step gg a)) → P g →
      P (L.foldl step g) := by
  intro L
  induction L with
  | nil => intro g _ hg; exact hg
  | cons a L ih =>
    intro g hstep hg
    exact ih (step g a) (fun gg b hb => hstep gg b (List.mem_cons_of_mem a hb))
      (hstep g a (List.mem_cons_self a L) hg)

/-- Helper: a pair whose components are known is that pair. -/
theorem pair_eq {p : Nat × Nat} {x y : Nat} (h1 : p.1 = x) (h2 : p.2 = y) : p = (x, y) := by
  obtain ⟨a, b⟩ := p
  simp only [] at h1 h2
  rw [h1, h2]

/-- spawn_mine keeps the grid well-formed and truthful. -/
theorem spawn_preserves (g : Grid) (x y : Nat) (hx : x < g.width) (hy : y < g.height)
    (hwf : g.wf) (hinv : adjInvariant g) :
    (spawn_mine g x y).2.width = g.width ∧ (spawn_mine g x y).2.height = g.height ∧
    (spawn_mine g x y).2.wf ∧ adjInvariant (spawn_mine g x y).2 := by
  obtain ⟨hlen, hw, hh⟩ := hwf
  unfold spawn_mine
  by_cases hm : (g.get x y).mine = true
  · rw [if_pos hm]
    exact ⟨rfl, rfl, ⟨hlen, hw, hh⟩, hinv⟩
  · rw [if_neg hm]
    set g1 := g.put x y { g.get x y with mine := true } with hg1
    have hidx : g.width * y + x < g.cells.length := by
      rw [hlen]; exact grid_idx_lt hx hy
    have hg1self : g1.get x y = { g.get x y with mine := true } := get_put_self hidx
    have hg1ne : ∀ a b, a < g.width → ¬(a = x ∧ b = y) → g1.get a b = g.get a b := by
      intro a b ha hne
      refine get_put_ne (fun he => hne ?_)
      obtain ⟨h1, h2⟩ := grid_idx_inj hx ha he
      exact ⟨h1.symm, h2.symm⟩
    have hfold := foldl_put_once (fun c => { c with adj := (c.adj + 1) % 256 })
      (nbrs g.width g.height x y) g1 (nbrs_nodup _ _ _ _)
      (fun p hp => nbrs_bounds hw hh hp)
      (by rw [put_length]; exact hlen)
    set F := (nbrs g.width g.height x y).foldl
      (fun gg q => gg.put q.1 q.2
        { gg.get q.1 q.2 with adj := ((gg.get q.1 q.2).adj + 1) % 256 }) g1 with hF
    obtain ⟨⟨hFw0, hFh0, hFl0⟩, hFget⟩ := hfold
    have hFw : F.width = g.width := hFw0
    have hFh : F.height = g.height := hFh0
    have hFl : F.cells.length = g.cells.length := by rw [hFl0, put_length]
    have hFmine : ∀ a b, a < g.width → (F.get a b).mine = (g1.get a b).mine := by
      intro a b ha
      rw [hFget a b ha]
      split <;> rfl
    refine ⟨hFw, hFh, ⟨by rw [hFl, hFw, hFh]; exact hlen,
      by rw [hFw]; exact hw, by rw [hFh]; exact hh⟩, ?_⟩
    intro p hp
    have hpb : p.1 < g.width ∧ p.2 < g.height := by
      have := mem_coords.mp hp
      rwa [hFw, hFh] at this
    have hpco : p ∈ coords g.width g.height := mem_coords.mpr hpb
    have hcount := countP_flip_true (x, y) (fun q => (g.get q.1 q.2).mine)
      (fun q => (F.get q.1 q.2).mine)
      (by show (F.get x y).mine = true; rw [hFmine x y hx, hg1self])
      (by simpa using hm)
      (nbrs g.width g.height p.1 p.2) (nbrs_nodup _ _ _ _)
      (fun q hq hqne => by
        have hqb := nbrs_bounds hw hh hq
        show (F.get q.1 q.2).mine = (g.get q.1 q.2).mine
        rw [hFmine q.1 q.2 hqb.1, hg1ne q.1 q.2 hqb.1
          (fun hc => hqne (pair_eq hc.1 hc.2))])
    have hcg : count_adjacent_mines F p.1 p.2
        = (nbrs g.width g.height p.1 p.2).countP (fun q => (F.get q.1 q.2).mine) := by
      unfold count_adjacent_mines
      rw [hFw, hFh]
    have hold : count_adjacent_mines g p.1 p.2
        = (nbrs g.width g.height p.1 p.2).countP (fun q => (g.get q.1 q.2).mine) := rfl
    by_cases hmem : p ∈ nbrs g.width g.height x y
    · have hpne : ¬(p.1 = x ∧ p.2 = y) := (mem_nbrs.mp hmem).2.2
      have hsymm : (x, y) ∈ nbrs g.width g.height p.1 p.2 := nbrs_symm hx hy hmem
      rw [if_pos hsymm] at hcount
      rw [hFget p.1 p.2 hpb.1, if_pos hmem, hcg, hcount, ← hold]
      show ((g1.get p.1 p.2).adj + 1) % 256 = _
      rw [hg1ne p.1 p.2 hpb.1 hpne, hinv p hpco]
      have hle := count_adjacent_mines_le g p.1 p.2
      rw [Nat.mod_eq_of_lt (by omega)]
    · have hnsymm : (x, y) ∉ nbrs g.width g.height p.1 p.2 :=
        fun hc => hmem (nbrs_symm hpb.1 hpb.2 hc)
      rw [if_neg hnsymm, Nat.add_zero] at hcount
      rw [hFget p.1 p.2 hpb.1, if_neg hmem, hcg, hcount, ← hold]
      by_cases hpxy : p.1 = x ∧ p.2 = y
      · have hpeq : p = (x, y) := pair_eq hpxy.1 hpxy.2
        rw [hpeq] at hpco ⊢
        show (g1.get x y).adj = _
        rw [hg1self]
        exact hinv (x, y) hpco
      · rw [hg1ne p.1 p.2 hpb.1 hpxy]
        exact hinv p hpco

/-- remove_mine keeps the grid well-formed and truthful. -/
theorem remove_preserves (g : Grid) (x y : Nat) (hx : x < g.width) (hy : y < g.height)
    (hwf : g.wf) (hinv : adjInvariant g) :
    (remove_mine g x y).2.width = g.width ∧ (remove_mine g x y).2.height = g.height ∧
    (remove_mine g x y).2.wf ∧ adjInvariant (remove_mine g x y).2 := by
  obtain ⟨hlen, hw, hh⟩ := hwf
  unfold remove_mine
  by_cases hm : (g.get x y).mine = true
  · rw [if_neg (by simpa using hm)]
    set g1 := g.put x y { g.get x y with mine := false } with hg1
    have hidx : g.width * y + x < g.cells.length := by
      rw [hlen]; exact grid_idx_lt hx hy
    have hg1self : g1.get x y = { g.get x y with mine := false } := get_put_self hidx
    have hg1ne : ∀ a b, a < g.width → ¬(a = x ∧ b = y) → g1.get a b = g.get a b := by
      intro a b ha hne
      refine get_put_ne (fun he => hne ?_)
      obtain ⟨h1, h2⟩ := grid_idx_inj hx ha he
      exact ⟨h1.symm, h2.symm⟩
    have hfold := foldl_put_once (fun c => { c with adj := (c.adj + 255) % 256 })
      (nbrs g.width g.height x y) g1 (nbrs_nodup _ _ _ _)
      (fun p hp => nbrs_bounds hw hh hp)
      (by rw [put_length]; exact hlen)
    set F := (nbrs g.width g.height x y).foldl
      (fun gg q => gg.put q.1 q.2
        { gg.get q.1 q.2 with adj := ((gg.get q.1 q.2).adj + 255) % 256 }) g1 with hF
    obtain ⟨⟨hFw0, hFh0, hFl0⟩, hFget⟩ := hfold
    have hFw : F.width = g.width := hFw0
    have hFh : F.height = g.height := hFh0
    have hFl : F.cells.length = g.cells.length := by rw [hFl0, put_length]
    have hFmine : ∀ a b, a < g.width → (F.get a b).mine = (g1.get a b).mine := by
      intro a b ha
      rw [hFget a b ha]
      split <;> rfl
    have hFwf : F.wf := ⟨by rw [hFl, hFw, hFh]; exact hlen,
      by rw [hFw]; exact hw, by rw [hFh]; exact hh⟩
    have hFinv : adjInvariant F := by
      intro p hp
      have hpb : p.1 < g.width ∧ p.2 < g.height := by
        have := mem_coords.mp hp
        rwa [hFw, hFh] at this
      have hpco : p ∈ coords g.width g.height := mem_coords.mpr hpb
      have hcount := countP_flip_false (x, y) (fun q => (g.get q.1 q.2).mine)
        (fun q => (F.get q.1 q.2).mine)
        (by show (F.get x y).mine = false; rw [hFmine x y hx, hg1self])
        hm
        (nbrs g.width g.height p.1 p.2) (nbrs_nodup _ _ _ _)
        (fun q hq hqne => by
          have hqb := nbrs_bounds hw hh hq
          show (F.get q.1 q.2).mine = (g.get q.1 q.2).mine
          rw [hFmine q.1 q.2 hqb.1, hg1ne q.1 q.2 hqb.1
            (fun hc => hqne (pair_eq hc.1 hc.2))])
      have hcg : count_adjacent_mines F p.1 p.2
          = (nbrs g.width g.height p.1 p.2).countP (fun q => (F.get q.1 q.2).mine) := by
        unfold count_adjacent_mines
        rw [hFw, hFh]
      have hold : count_adjacent_mines g p.1 p.2
          = (nbrs g.width g.height p.1 p.2).countP (fun q => (g.get q.1 q.2).mine) := rfl
      by_cases hmem : p ∈ nbrs g.width g.height x y
      · have hpne : ¬(p.1 = x ∧ p.2 = y) := (mem_nbrs.mp hmem).2.2
        have hsymm : (x, y) ∈ nbrs g.width g.height p.1 p.2 := nbrs_symm hx hy hmem
        rw [if_pos hsymm] at hcount
        rw [hFget p.1 p.2 hpb.1, if_pos hmem, hcg]
        show ((g1.get p.1 p.2).adj + 255) % 256 = _
        rw [hg1ne p.1 p.2 hpb.1 hpne, hinv p hpco]
        have hge : 1 ≤ count_adjacent_mines g p.1 p.2 :=
          List.countP_pos_iff.mpr ⟨(x, y), hsymm, by simpa using hm⟩
        have hle := count_adjacent_mines_le g p.1 p.2
        rw [hold] at hge hle
        omega
      · have hnsymm : (x, y) ∉ nbrs g.width g.height p.1 p.2 :=
          fun hc => hmem (nbrs_symm hpb.1 hpb.2 hc)
        rw [if_neg hnsymm, Nat.add_zero] at hcount
        rw [hFget p.1 p.2 hpb.1, if_neg hmem, hcg, hcount, ← hold]
        by_cases hpxy : p.1 = x ∧ p.2 = y
        · have hpeq : p = (x, y) := pair_eq hpxy.1 hpxy.2
          rw [hpeq] at hpco ⊢
          show (g1.get x y).adj = _
          rw [hg1self]
          exact hinv (x, y) hpco
        · rw [hg1ne p.1 p.2 hpb.1 hpxy]
          exact hinv p hpco
    have hcascade := foldl_rel gridFrame gridFrame_refl
      (fun a b c h1 h2 => gridFrame_trans h1 h2)
      (fun gg q => if (gg.get q.1 q.2).visible then bucket_reveal gg q.1 q.2 else gg)
      (fun gg q => by
        show gridFrame gg (if (gg.get q.1 q.2).visible = true
          then bucket_reveal gg q.1 q.2 else gg)
        split
        · exact (bucket_reveal_frame gg q.1 q.2).1
        · exact gridFrame_refl gg)
      (nbrs g.width g.height x y) F
    refine ⟨hcascade.1.trans hFw, hcascade.2.1.trans hFh,
      wf_of_gridFrame hcascade hFwf, adjInvariant_of_gridFrame hcascade hFinv⟩
  · rw [if_pos (by simpa using hm)]
    exact ⟨rfl, rfl, ⟨hlen, hw, hh⟩, hinv⟩

/-- getD on a replicate of the default is always the default. -/
theorem replicate_getD (n i : Nat) :
    (List.replicate n cell.virgin).getD i cell.virgin = cell.virgin := by
  induction n generalizing i with
  | zero => rfl
  | succ n ih =>
    cases i with
    | zero => rfl
    | succ i => exact ih i

/-- new_game produces a well-formed grid with truthful adjacency counts. -/
theorem new_game_props (w h : Nat) (coins : Nat → Bool) (hw : 1 ≤ w) (hh : 1 ≤ h) :
    (new_game w h coins).width = w ∧ (new_game w h coins).height = h ∧
    (new_game w h coins).wf ∧ adjInvariant (new_game w h coins) := by
  unfold new_game
  refine foldl_pres (fun gg => gg.width = w ∧ gg.height = h ∧ gg.wf ∧ adjInvariant gg)
    _ _ _ ?_ ?_
  · intro gg p hp hP
    obtain ⟨hgw, hgh, hgwf, hginv⟩ := hP
    show (if coins (gg.width * p.2 + p.1) then (spawn_mine gg p.1 p.2).2 else gg).width = w ∧ _
    split
    · have hpb := mem_coords.mp hp
      have hs := spawn_preserves gg p.1 p.2 (by rw [hgw]; exact hpb.1)
        (by rw [hgh]; exact hpb.2) hgwf hginv
      exact ⟨hs.1.trans hgw, hs.2.1.trans hgh, hs.2.2.1, hs.2.2.2⟩
    · exact ⟨hgw, hgh, hgwf, hginv⟩
  · refine ⟨rfl, rfl, ⟨by simp, hw, hh⟩, ?_⟩
    intro p hp
    have hv : ∀ a b : Nat,
        (Grid.mk w h (List.replicate (w * h) cell.virgin)).get a b = cell.virgin :=
      fun a b => replicate_getD _ _
    show ((Grid.mk w h (List.replicate (w * h) cell.virgin)).get p.1 p.2).adj = _
    rw [hv p.1 p.2]
    refine ((List.countP_eq_zero.mpr ?_).symm : (0 : Nat) = _)
    intro q hq
    show ¬((Grid.mk w h (List.replicate (w * h) cell.virgin)).get q.1 q.2).mine = true
    rw [hv q.1 q.2]
    exact Bool.false_ne_true

/-- recompute_minefield_adj on a dimension-consistent grid yields a
well-formed grid with truthful adjacency counts. -/
theorem recompute_props (g g2 : Grid) (hlen : g.cells.length = g.width * g.height)
    (hw : 1 ≤ g.width) (hh : 1 ≤ g.height)
    (h2w : g2.width = g.width) (h2h : g2.height = g.height)
    (h2l : g2.cells.length = g.cells.length) :
    (recompute_minefield_adj g2).width = g.width ∧
    (recompute_minefield_adj g2).height = g.height ∧
    (recompute_minefield_adj g2).wf ∧ adjInvariant (recompute_minefield_adj g2) := by
  have h2len : g2.cells.length = g2.width * g2.height := by
    rw [h2w, h2h, h2l]; exact hlen
  refine ⟨h2w, h2h, ⟨?_, ?_, ?_⟩, adjInvariant_recompute g2 h2len⟩
  · show (recompute_minefield_adj g2).cells.length = _
    rw [recompute_length]
    exact h2len
  · show 1 ≤ g2.width
    rw [h2w]; exact hw
  · show 1 ≤ g2.height
    rw [h2h]; exact hh

/-- commit keeps dimensions, well-formedness and truthful adjacency. -/
theorem commit_props (g : Grid) (gx gy : Nat) (mp ranLP : Bool) (sol : List Bool)
    (rng : Nat → Nat) (hlen : g.cells.length = g.width * g.height)
    (hw : 1 ≤ g.width) (hh : 1 ≤ g.height) :
    (commit g gx gy mp ranLP sol rng).width = g.width ∧
    (commit g gx gy mp ranLP sol rng).height = g.height ∧
    (commit g gx gy mp ranLP sol rng).wf ∧
    adjInvariant (commit g gx gy mp ranLP sol rng) := by
  unfold commit
  refine recompute_props g _ hlen hw hh ?_ ?_ ?_
  · split <;> rfl
  · split <;> rfl
  · split
    · rw [put_length]; simp
    · simp

/-- alter_minefield keeps dimensions, well-formedness and truthful
adjacency on every branch. -/
theorem alter_preserves (g : Grid) (gx gy : Nat) (mp : Bool)
    (solver : Nat → List Constraint → SolverOutcome) (rng : Nat → Nat)
    (hwf : g.wf) (hinv : adjInvariant g) :
    (alter_minefield g gx gy mp solver rng).2.width = g.width ∧
    (alter_minefield g gx gy mp solver rng).2.height = g.height ∧
    (alter_minefield g gx gy mp solver rng).2.wf ∧
    adjInvariant (alter_minefield g gx gy mp solver rng).2 := by
  obtain ⟨hlen, hw, hh⟩ := hwf
  have hc := fun b sol => commit_props g gx gy mp b sol rng hlen hw hh
  unfold alter_minefield
  split
  · exact ⟨rfl, rfl, ⟨hlen, hw, hh⟩, hinv⟩
  split
  · exact ⟨rfl, rfl, ⟨hlen, hw, hh⟩, hinv⟩
  split
  · exact ⟨rfl, rfl, ⟨hlen, hw, hh⟩, hinv⟩
  split
  · exact ⟨rfl, rfl, ⟨hlen, hw, hh⟩, hinv⟩
  split
  · exact hc false []
  split
  · exact hc false []
  split
  · exact hc false []
  split
  · exact hc true _
  · exact ⟨rfl, rfl, ⟨hlen, hw, hh⟩, hinv⟩

/-- Every reachable grid is well-formed with truthful adjacency counts. -/
theorem reach_props {g : Grid} (h : Reachable g) : g.wf ∧ adjInvariant g := by
  induction h with
  | start w h coins hw hh =>
    have hn := new_game_props w h coins hw hh
    exact ⟨hn.2.2.1, hn.2.2.2⟩
  | spawn g x y hx hy hr ih =>
    have hs := spawn_preserves g x y hx hy ih.1 ih.2
    exact ⟨hs.2.2.1, hs.2.2.2⟩
  | vanish g x y hx hy hr ih =>
    have hs := remove_preserves g x y hx hy ih.1 ih.2
    exact ⟨hs.2.2.1, hs.2.2.2⟩
  | alter g gx gy mp solver rng hx hy hsuc hr ih =>
    have hs := alter_preserves g gx gy mp solver rng ih.1 ih.2
    exact ⟨hs.2.2.1, hs.2.2.2⟩

/-! ## The chord_reveal step relation -/

theorem chordRel_refl (g : Grid) : chordRel g g :=
  ⟨rfl, rfl, rfl, fun _ =>
    ⟨rfl, rfl, fun h => h, fun h => h, fun h => h, fun h => h, fun _ => rfl⟩⟩

theorem chordRel_trans {a b c : Grid} (h1 : chordRel a b) (h2 : chordRel b c) :
    chordRel a c := by
  obtain ⟨w1, h1', l1, f1⟩ := h1
  obtain ⟨w2, h2', l2, f2⟩ := h2
  refine ⟨w2.trans w1, h2'.trans h1', l2.trans l1, fun i => ?_⟩
  obtain ⟨m1, a1, v1, e1, fl1, q1, mv1⟩ := f1 i
  obtain ⟨m2, a2, v2, e2, fl2, q2, mv2⟩ := f2 i
  refine ⟨m2.trans m1, a2.trans a1, fun h => v2 (v1 h), fun h => e2 (e1 h),
    fun h => fl1 (fl2 h), fun h => q1 (q2 h), fun h => ?_⟩
  rw [mv2 (by rw [m1]; exact h), mv1 h]

theorem chordRel_get {g g' : Grid} (h : chordRel g g') (a b : Nat) :
    (g'.get a b).mine = (g.get a b).mine ∧ (g'.get a b).adj = (g.get a b).adj ∧
    ((g.get a b).visible = true → (g'.get a b).visible = true) ∧
    ((g.get a b).exploded = true → (g'.get a b).exploded = true) ∧
    ((g'.get a b).flag = true → (g.get a b).flag = true) ∧
    ((g'.get a b).qmark = true → (g.get a b).qmark = true) ∧
    ((g.get a b).mine = true → (g'.get a b).visible = (g.get a b).visible) := by
  have hgw : g'.get a b = g'.cells.getD (g.width * b + a) cell.virgin := by
    show g'.cells.getD (g'.width * b + a) cell.virgin = _
    rw [h.1]
  rw [hgw]
  exact h.2.2.2 (g.width * b + a)

theorem chordRel_adjInv {g g' : Grid} (hinv : adjInvariant g) (h : chordRel g g') :
    adjInvariant g' := by
  intro p hp
  have hco : p ∈ coords g.width g.height := by
    rw [mem_coords] at hp ⊢
    rw [h.1, h.2.1] at hp
    exact hp
  rw [(chordRel_get h p.1 p.2).2.1, hinv p hco]
  unfold count_adjacent_mines
  rw [h.1, h.2.1]
  exact (List.countP_congr fun q _ => by rw [(chordRel_get h q.1 q.2).1]).symm

theorem chordRel_put_markCell (g : Grid) (x y : Nat)
    (hmine : (g.get x y).mine = false) :
    chordRel g (g.put x y (markCell (g.get x y))) := by
  have hm' : ¬(g.get x y).mine = true := by rw [hmine]; exact Bool.false_ne_true
  refine ⟨rfl, rfl, put_length g x y _, fun i => ?_⟩
  simp only [Grid.put]
  by_cases hi : g.width * y + x = i
  · subst hi
    by_cases hlt : g.width * y + x < g.cells.length
    · rw [getD_set_self hlt]
      refine ⟨rfl, rfl, fun _ => rfl, fun h => h, fun h => ?_, fun h => ?_,
        fun h => absurd (show (g.get x y).mine = true from h) hm'⟩
      · exact absurd (show (markCell (g.get x y)).flag = true from h)
          (by rw [show (markCell (g.get x y)).flag = false from rfl]; exact Bool.false_ne_true)
      · exact absurd (show (markCell (g.get x y)).qmark = true from h)
          (by rw [show (markCell (g.get x y)).qmark = false from rfl]; exact Bool.false_ne_true)
    · rw [List.set_eq_of_length_le (by omega)]
      exact ⟨rfl, rfl, fun h => h, fun h => h, fun h => h, fun h => h, fun _ => rfl⟩
  · rw [getD_set_ne hi]
    exact ⟨rfl, rfl, fun h => h, fun h => h, fun h => h, fun h => h, fun _ => rfl⟩

theorem chordRel_put_exploded (g : Grid) (a b : Nat) :
    chordRel g (g.put a b { g.get a b with exploded := true }) := by
  refine ⟨rfl, rfl, put_length g a b _, fun i => ?_⟩
  simp only [Grid.put]
  by_cases hi : g.width * b + a = i
  · subst hi
    by_cases hlt : g.width * b + a < g.cells.length
    · rw [getD_set_self hlt]
      exact ⟨rfl, rfl, fun h => h, fun _ => rfl, fun h => h, fun h => h, fun _ => rfl⟩
    · rw [List.set_eq_of_length_le (by omega)]
      exact ⟨rfl, rfl, fun h => h, fun h => h, fun h => h, fun h => h, fun _ => rfl⟩
  · rw [getD_set_ne hi]
    exact ⟨rfl, rfl, fun h => h, fun h => h, fun h => h, fun h => h, fun _ => rfl⟩

theorem chordRel_cfm (g : Grid) : chordRel g (check_for_flag_mistakes g) := by
  have hmap : ∀ i : Nat, (check_for_flag_mistakes g).cells.getD i cell.virgin
      = (fun c => if c.flag = true ∧ ¬c.mine = true then { c with mistake := true } else c)
        (g.cells.getD i cell.virgin) := by
    intro i
    show (g.cells.map _).getD i cell.virgin = _
    by_cases hlt : i < g.cells.length
    · rw [List.getD_eq_getElem?_getD, List.getElem?_map,
        List.getElem?_eq_getElem (by simpa using hlt)]
      simp only [Option.map_some', Option.getD_some]
      rw [List.getD_eq_getElem?_getD (l := g.cells), List.getElem?_eq_getElem hlt]
      rfl
    · rw [List.getD_eq_getElem?_getD, List.getElem?_map,
        List.getElem?_eq_none (by omega)]
      rw [List.getD_eq_getElem?_getD (l := g.cells), List.getElem?_eq_none (by omega)]
      simp only [Option.map_none', Option.getD_none]
      show cell.virgin = if cell.virgin.flag = true ∧ ¬cell.virgin.mine = true
        then { cell.virgin with mistake := true } else cell.virgin
      rw [if_neg (fun hc => Bool.false_ne_true hc.1)]
  refine ⟨rfl, rfl, by simp [check_for_flag_mistakes], fun i => ?_⟩
  rw [hmap i]
  simp only []
  split
  · exact ⟨rfl, rfl, fun h => h, fun h => h, fun h => h, fun h => h, fun _ => rfl⟩
  · exact ⟨rfl, rfl, fun h => h, fun h => h, fun h => h, fun h => h, fun _ => rfl⟩

/-- bucket_reveal started at a non-mine cell of a truthful grid respects
the chord step relation: in particular it never reveals a mine. -/
theorem bucketRevealF_chordRel : ∀ (f : Nat) (g : Grid),
    g.cells.length = g.width * g.height → adjInvariant g → ∀ x y,
    x < g.width → y < g.height → (g.get x y).mine = false →
    chordRel g (bucketRevealF f g x y) := by
  intro f
  induction f with
  | zero => intro g _ _ x y _ _ _; exact chordRel_refl g
  | succ f ih =>
    intro g hlen hinv x y hx hy hmine
    rw [bucketRevealF]
    have hidx : g.width * y + x < g.cells.length := by
      rw [hlen]; exact grid_idx_lt hx hy
    have hbase : chordRel g (g.put x y (markCell (g.get x y))) :=
      chordRel_put_markCell g x y hmine
    split
    · rename_i hadj
      have hg1get : (g.put x y (markCell (g.get x y))).get x y = markCell (g.get x y) :=
        get_put_self hidx
      have hadjG : (g.get x y).adj = 0 := by
        rw [hg1get] at hadj
        exact hadj
      have hcnt : count_adjacent_mines g x y = 0 := by
        rw [← hinv (x, y) (mem_coords.mpr ⟨hx, hy⟩)]
        exact hadjG
      have hnomine : ∀ p ∈ nbrs g.width g.height x y, (g.get p.1 p.2).mine = false :=
        fun p hp => Bool.eq_false_iff.mpr (List.countP_eq_zero.mp hcnt p hp)
      have hw : 1 ≤ g.width := by omega
      have hh : 1 ≤ g.height := by omega
      refine foldl_pres (fun gg => chordRel g gg)
        (fun gg p => if (gg.get p.1 p.2).visible then gg else bucketRevealF f gg p.1 p.2)
        (nbrs g.width g.height x y) _ (fun gg p hp hgg => ?_) hbase
      show chordRel g (if (gg.get p.1 p.2).visible = true then gg
        else bucketRevealF f gg p.1 p.2)
      split
      · exact hgg
      · have hpb := nbrs_bounds hw hh hp
        have hggl : gg.cells.length = gg.width * gg.height := by
          rw [hgg.2.2.1, hgg.1, hgg.2.1]
          exact hlen
        have hggmine : (gg.get p.1 p.2).mine = false := by
          rw [(chordRel_get hgg p.1 p.2).1]
          exact hnomine p hp
        exact chordRel_trans hgg
          (ih gg hggl (chordRel_adjInv hinv hgg) p.1 p.2
            (by rw [hgg.1]; exact hpb.1) (by rw [hgg.2.1]; exact hpb.2) hggmine)
    · exact hbase

theorem bucket_reveal_chordRel (g : Grid) (x y : Nat)
    (hlen : g.cells.length = g.width * g.height) (hinv : adjInvariant g)
    (hx : x < g.width) (hy : y < g.height) (hmine : (g.get x y).mine = false) :
    chordRel g (bucket_reveal g x y) :=
  bucketRevealF_chordRel _ g hlen hinv x y hx hy hmine

/-- With at least one unit of fuel, bucket_reveal makes its own cell
visible. -/
theorem bucketRevealF_self_visible : ∀ (f : Nat) (g : Grid) (x y : Nat),
    1 ≤ f → x < g.width → y < g.height → g.cells.length = g.width * g.height →
    ((bucketRevealF f g x y).get x y).visible = true := by
  intro f g x y hf hx hy hlen
  cases f with
  | zero => omega
  | succ f =>
    rw [bucketRevealF]
    have hidx : g.width * y + x < g.cells.length := by
      rw [hlen]; exact grid_idx_lt hx hy
    have hvis1 : ((g.put x y (markCell (g.get x y))).get x y).visible = true := by
      rw [get_put_self hidx]
      rfl
    split
    · have key : ∀ F : Grid, gridFrame (g.put x y (markCell (g.get x y))) F →
          visMonotone (g.put x y (markCell (g.get x y))) F →
          (F.get x y).visible = true := by
        intro F hfr hvm
        show (F.cells.getD (F.width * y + x) cell.virgin).visible = true
        rw [hfr.1]
        exact hvm ((g.put x y (markCell (g.get x y))).width * y + x) hvis1
      have hfold := foldl_rel (fun a b => gridFrame a b ∧ visMonotone a b)
        (fun g => ⟨gridFrame_refl g, visMonotone_refl g⟩)
        (fun a b c h1 h2 => ⟨gridFrame_trans h1.1 h2.1, visMonotone_trans h1.2 h2.2⟩)
        (fun gg p => if (gg.get p.1 p.2).visible then gg else bucketRevealF f gg p.1 p.2)
        (fun gg p => by
          show gridFrame gg (if (gg.get p.1 p.2).visible = true then gg
              else bucketRevealF f gg p.1 p.2) ∧
            visMonotone gg (if (gg.get p.1 p.2).visible = true then gg
              else bucketRevealF f gg p.1 p.2)
          split
          · exact ⟨gridFrame_refl gg, visMonotone_refl gg⟩
          · exact bucketRevealF_frame f gg p.1 p.2)
        (nbrs (g.put x y (markCell (g.get x y))).width
          (g.put x y (markCell (g.get x y))).height x y)
        (g.put x y (markCell (g.get x y)))
      exact key _ hfold.1 hfold.2
    · exact hvis1

theorem bucket_reveal_self_visible (g : Grid) (x y : Nat)
    (hx : x < g.width) (hy : y < g.height)
    (hlen : g.cells.length = g.width * g.height) :
    ((bucket_reveal g x y).get x y).visible = true :=
  bucketRevealF_self_visible _ g x y (by omega) hx hy hlen

/-- Fold lemma: an invariant Q propagates along a fold, and a per-element
goal established when the element is processed persists afterwards. -/
theorem foldl_establish {S α : Type} (step : S → α → S) (Q : S → Prop)
    (Gp : α → S → Prop) :
    ∀ (L : List α) (s : S),
      (∀ s' a, a ∈ L → Q s' → Q (step s' a)) →
      (∀ s' a b, a ∈ L → b ∈ L → Q s' → Gp a s' → Gp a (step s' b)) →
      (∀ s' a, a ∈ L → Q s' → Gp a (step s' a)) →
      Q s → ∀ a ∈ L, Gp a (L.foldl step s) := by
  intro L
  induction L with
  | nil => intro s _ _ _ _ a ha; cases ha
  | cons c L ih =>
    intro s hQ hGm hpr hs a ha
    rw [List.foldl_cons]
    rcases List.mem_cons.mp ha with rfl | ha'
    · have key : ∀ (M : List α), (∀ b ∈ M, b ∈ a :: L) → ∀ s', Q s' → Gp a s' →
          Q (M.foldl step s') ∧ Gp a (M.foldl step s') := by
        intro M
        induction M with
        | nil => intro _ s' hq hg; exact ⟨hq, hg⟩
        | cons d M ihM =>
          intro hsub s' hq hg
          rw [List.foldl_cons]
          exact ihM (fun b hb => hsub b (List.mem_cons_of_mem d hb)) _
            (hQ s' d (hsub d (List.mem_cons_self d M)) hq)
            (hGm s' a d ha (hsub d (List.mem_cons_self d M)) hq hg)
      exact (key L (fun b hb => List.mem_cons_of_mem a hb) (step s a)
        (hQ s a (List.mem_cons_self a L) hs)
        (hpr s a (List.mem_cons_self a L) hs)).2
    · exact ih (step s c)
        (fun s' b hb => hQ s' b (List.mem_cons_of_mem c hb))
        (fun s' b d hb hd => hGm s' b d (List.mem_cons_of_mem c hb)
          (List.mem_cons_of_mem c hd))
        (fun s' b hb => hpr s' b (List.mem_cons_of_mem c hb))
        (hQ s c (List.mem_cons_self c L) hs) a ha'

/-- One chord step respects the chord relation relative to the current
grid, and can only move the status toward lost. -/
theorem chord_step_props (g : Grid) (hlen : g.cells.length = g.width * g.height)
    (hinv : adjInvariant g) (gs : Grid × GStat) (q : Nat × Nat)
    (hq1 : q.1 < g.width) (hq2 : q.2 < g.height) (hQ : chordRel g gs.1) :
    chordRel gs.1 (chordStep gs q).1 ∧
      ((chordStep gs q).2 = gs.2 ∨ (chordStep gs q).2 = GStat.lost) := by
  unfold chordStep
  split
  · split
    · refine ⟨?_, Or.inr rfl⟩
      show chordRel gs.1 (check_for_flag_mistakes
        (gs.1.put q.1 q.2 { gs.1.get q.1 q.2 with exploded := true }))
      exact chordRel_trans (chordRel_put_exploded gs.1 q.1 q.2) (chordRel_cfm _)
    · rename_i hnm
      refine ⟨?_, Or.inl rfl⟩
      show chordRel gs.1 (bucket_reveal gs.1 q.1 q.2)
      refine bucket_reveal_chordRel gs.1 q.1 q.2 ?_ (chordRel_adjInv hinv hQ) ?_ ?_
        (Bool.eq_false_iff.mpr hnm)
      · rw [hQ.2.2.1, hQ.1, hQ.2.1]
        exact hlen
      · rw [hQ.1]; exact hq1
      · rw [hQ.2.1]; exact hq2
  · exact ⟨chordRel_refl gs.1, Or.inl rfl⟩

/-! ## Counting infrastructure for the commit step -/

theorem coords_length (w h : Nat) : (coords w h).length = w * h := by
  rw [coords_eq_range_map, List.length_map, List.length_range]

theorem coords_getD {w h t : Nat} (ht : t < w * h) :
    (coords w h).getD t (0, 0) = (t % w, t / w) := by
  rw [coords_eq_range_map, List.getD_eq_getElem?_getD, List.getElem?_map,
    List.getElem?_eq_getElem (by simpa using ht)]
  simp

theorem coords_nodup (w h : Nat) : (coords w h).Nodup := by
  rcases Nat.eq_zero_or_pos w with hw | hw
  · subst hw
    rw [coords_eq_range_map]
    simp
  · rw [coords_eq_range_map]
    refine List.Nodup.map ?_ (List.nodup_range _)
    intro i j hij
    have h1 : i % w = j % w := congrArg Prod.fst hij
    have h2 : i / w = j / w := congrArg Prod.snd hij
    have hi := Nat.div_add_mod i w
    have hj := Nat.div_add_mod j w
    rw [h1, h2] at hi
    omega

theorem countP_set_eq {α : Type} (φ : α → Bool) (a d : α) :
    ∀ (l : List α) (i : Nat), i < l.length →
      (l.set i a).countP φ + (if φ (l.getD i d) then 1 else 0)
        = l.countP φ + (if φ a then 1 else 0) := by
  intro l
  induction l with
  | nil => intro i hi; simp at hi
  | cons c t ih =>
    intro i hi
    cases i with
    | zero =>
      simp only [List.set_cons_zero, List.countP_cons, List.getD_cons_zero]
      omega
    | succ i =>
      simp only [List.set_cons_succ, List.countP_cons, List.getD_cons_succ]
      have := ih i (by simpa using hi)
      omega

theorem sum_ite_count {α : Type} (p : α → Bool) : ∀ L : List α,
    (L.map (fun x => if p x then (1 : Int) else 0)).sum = (L.countP p : Int) := by
  intro L
  induction L with
  | nil => rfl
  | cons a L ih =>
    rw [List.map_cons, List.sum_cons, List.countP_cons, ih]
    cases hp : p a <;> simp [hp] <;> push_cast <;> omega

theorem colSum_range (sol : List Bool) :
    colSum sol (List.range' 1 sol.length) = (sol.countP id : Int) := by
  unfold colSum
  rw [sum_ite_count]
  congr 1
  rw [List.range'_eq_map_range, List.countP_map, countP_range_getD sol false id]
  refine List.countP_congr fun i _ => ?_
  show sol.getD (1 + i - 1) false = true ↔ id (sol.getD i false) = true
  rw [show 1 + i - 1 = i from by omega]
  exact Iff.rfl

/-- Counting a row-major pass that writes rank-indexed values into two
disjoint cell classes and leaves the rest alone. -/
theorem split_rank_count2 {β : Type} (d : β) (P1 P2 : β → Bool) (v1 v2 : Nat → Bool)
    (w : β → Bool) (hdisj : ∀ b, P1 b = true → P2 b = false) :
    ∀ L : List β,
      (List.range L.length).countP (fun t =>
        if P1 (L.getD t d) = true then v1 ((L.take t).countP P1)
        else if P2 (L.getD t d) = true then v2 ((L.take t).countP P2)
        else w (L.getD t d)) =
      (List.range (L.countP P1)).countP v1
        + (List.range (L.countP P2)).countP v2
        + L.countP (fun b => !P1 b && !P2 b && w b) := by
  intro L
  induction L using List.reverseRecOn with
  | nil => simp
  | append_singleton L b ih =>
    have hlen : (L ++ [b]).length = L.length + 1 := by simp
    rw [hlen, List.range_succ, List.countP_append]
    have hcong : (List.range L.length).countP (fun t =>
        if P1 ((L ++ [b]).getD t d) = true then v1 (((L ++ [b]).take t).countP P1)
        else if P2 ((L ++ [b]).getD t d) = true then v2 (((L ++ [b]).take t).countP P2)
        else w ((L ++ [b]).getD t d))
        = (List.range L.length).countP (fun t =>
          if P1 (L.getD t d) = true then v1 ((L.take t).countP P1)
          else if P2 (L.getD t d) = true then v2 ((L.take t).countP P2)
          else w (L.getD t d)) := by
      refine List.countP_congr fun t htm => ?_
      rw [List.mem_range] at htm
      rw [List.getD_append _ _ _ _ htm, List.take_append_of_le_length (by omega)]
    rw [hcong, ih]
    have hgd : (L ++ [b]).getD L.length d = b := by
      rw [List.getD_eq_getElem?_getD, List.getElem?_append_right (Nat.le_refl _)]
      simp
    have htk : (L ++ [b]).take L.length = L := List.take_left L [b]
    have hone : ∀ (q : Nat → Bool) (x : Nat), (List.countP q [x])
        = if q x then 1 else 0 := by
      intro q x
      rw [List.countP_cons, List.countP_nil, Nat.zero_add]
    rw [hone, hgd, htk]
    rw [List.countP_append, List.countP_append, List.countP_append]
    have honeb : ∀ q : β → Bool, (List.countP q [b]) = if q b then 1 else 0 := by
      intro q
      rw [List.countP_cons, List.countP_nil, Nat.zero_add]
    rw [honeb, honeb, honeb]
    by_cases h1 : P1 b = true
    · have h2 : P2 b = false := hdisj b h1
      rw [if_pos h1]
      rw [show (if P1 b = true then 1 else 0) = 1 from if_pos h1]
      rw [show (if P2 b = true then 1 else 0) = 0 from if_neg (by rw [h2]; simp)]
      rw [show (if (!P1 b && !P2 b && w b) = true then 1 else 0) = 0 from
        if_neg (by rw [h1]; simp)]
      simp only [Nat.add_zero]
      rw [List.range_succ, List.countP_append, hone]
      omega
    · have h1' : P1 b = false := by
        cases hb : P1 b
        · rfl
        · exact absurd hb h1
      rw [if_neg h1]
      rw [show (if P1 b = true then 1 else 0) = 0 from if_neg h1]
      by_cases h2 : P2 b = true
      · rw [if_pos h2]
        rw [show (if P2 b = true then 1 else 0) = 1 from if_pos h2]
        rw [show (if (!P1 b && !P2 b && w b) = true then 1 else 0) = 0 from
          if_neg (by rw [h2]; simp)]
        simp only [Nat.add_zero]
        rw [List.range_succ, List.countP_append, hone]
        omega
      · have h2' : P2 b = false := by
          cases hb : P2 b
          · rfl
          · exact absurd hb h2
        rw [if_neg h2]
        rw [show (if P2 b = true then 1 else 0) = 0 from if_neg h2]
        rw [show (if (!P1 b && !P2 b && w b) = true then 1 else 0)
            = (if w b = true then 1 else 0) from by rw [h1', h2']; simp]
        simp only [Nat.add_zero]
        omega

/-- The sampler's output has one slot per pool element and exactly the
requested number of selections. -/
theorem random_combination_count (n k : Nat) (rng : Nat → Nat) (hk : k ≤ n)
    (hrng : RngOk rng) :
    (random_combination n k rng).length = n ∧
    (random_combination n k rng).countP id = k := by
  have hrs : (List.range' (n - k + 1) k).map rng ∈ seqs (n - k + 1) k :=
    map_rng_mem_seqs k (n - k + 1) rng hrng (by omega)
  have hmask := random_combination_rs_mask n k hk _ hrs
  have heq := random_combination_eq_rs n k rng
  have hrun := floydRun_subset_card k (n - k + 1) ∅ _ hrs (by simp)
  have hsub : floydRun ∅ (n - k + 1) ((List.range' (n - k + 1) k).map rng)
      ⊆ Finset.range n := by
    have h1 := hrun.1
    rwa [show n - k + 1 - 1 + k = n from by omega] at h1
  have hcardrun :
      (floydRun ∅ (n - k + 1) ((List.range' (n - k + 1) k).map rng)).card = k := by
    simpa using hrun.2
  refine ⟨by rw [heq, hmask, List.length_map, List.length_range], ?_⟩
  rw [heq, hmask, List.countP_map]
  have hcomp : (id ∘ fun i => decide (i ∈ floydRun ∅ (n - k + 1)
      ((List.range' (n - k + 1) k).map rng)))
      = fun i => decide (i ∈ floydRun ∅ (n - k + 1)
        ((List.range' (n - k + 1) k).map rng)) := rfl
  rw [hcomp, countP_list_range n _]
  have hfilter : (Finset.range n).filter
      (fun i => decide (i ∈ floydRun ∅ (n - k + 1)
        ((List.range' (n - k + 1) k).map rng)) = true)
      = floydRun ∅ (n - k + 1) ((List.range' (n - k + 1) k).map rng) := by
    ext x
    rw [Finset.mem_filter]
    simp only [decide_eq_true_eq]
    exact ⟨fun hx => hx.2, fun hx => ⟨hsub hx, hx⟩⟩
  rw [hfilter, hcardrun]

/-! ## Connectivity of the grid under the zero-closure invariant -/

/-- Any property that spreads from a cell to its neighbors covers the
whole (8-connected) grid. -/
theorem grid_connect (w h : Nat) (V : Nat × Nat → Prop)
    (hcl : ∀ p ∈ coords w h, V p → ∀ q ∈ nbrs w h p.1 p.2, V q) :
    ∀ (D : Nat) (p q : Nat × Nat), p ∈ coords w h → q ∈ coords w h → V p →
      max (p.1 - q.1) (q.1 - p.1) ≤ D → max (p.2 - q.2) (q.2 - p.2) ≤ D → V q := by
  intro D
  induction D with
  | zero =>
    intro p q hp hq hV h1 h2
    have he : p.1 = q.1 ∧ p.2 = q.2 := by omega
    have hqp : q = p := by
      obtain ⟨a, b⟩ := p
      obtain ⟨c, e⟩ := q
      obtain ⟨e1, e2⟩ := he
      simp only [] at e1 e2
      rw [← e1, ← e2]
    rw [hqp]
    exact hV
  | succ D ih =>
    intro p q hp hq hV h1 h2
    by_cases hpq : p = q
    · rw [← hpq]
      exact hV
    · obtain ⟨hpw, hph⟩ := mem_coords.mp hp
      obtain ⟨hqw, hqh⟩ := mem_coords.mp hq
      have hne : ¬(p.1 = q.1 ∧ p.2 = q.2) := by
        intro hc
        refine hpq ?_
        obtain ⟨a, b⟩ := p
        obtain ⟨c, e⟩ := q
        obtain ⟨e1, e2⟩ := hc
        simp only [] at e1 e2
        rw [e1, e2]
      set x' := if p.1 < q.1 then p.1 + 1 else if q.1 < p.1 then p.1 - 1 else p.1 with hx'
      set y' := if p.2 < q.2 then p.2 + 1 else if q.2 < p.2 then p.2 - 1 else p.2 with hy'
      have hxf : (p.1 < q.1 ∧ x' = p.1 + 1) ∨ (q.1 < p.1 ∧ x' = p.1 - 1)
          ∨ (p.1 = q.1 ∧ x' = p.1) := by
        rw [hx']
        split_ifs <;> omega
      have hyf : (p.2 < q.2 ∧ y' = p.2 + 1) ∨ (q.2 < p.2 ∧ y' = p.2 - 1)
          ∨ (p.2 = q.2 ∧ y' = p.2) := by
        rw [hy']
        split_ifs <;> omega
      have hmem : ((x', y') : Nat × Nat) ∈ nbrs w h p.1 p.2 := by
        rw [mem_nbrs]
        refine ⟨⟨by omega, ?_⟩, ⟨by omega, ?_⟩, ?_⟩
        · show y' ≤ min (p.2 + 1) (h - 1)
          omega
        · show x' ≤ min (p.1 + 1) (w - 1)
          omega
        · show ¬((x', y').1 = p.1 ∧ (x', y').2 = p.2)
          simp only []
          omega
      have hco : ((x', y') : Nat × Nat) ∈ coords w h := mem_coords.mpr ⟨by omega, by omega⟩
      refine ih (x', y') q hco hq (hcl p hp hV (x', y') hmem) ?_ ?_
      · show max ((x', y').1 - q.1) (q.1 - (x', y').1) ≤ D
        simp only []
        omega
      · show max ((x', y').2 - q.2) (q.2 - (x', y').2) ≤ D
        simp only []
        omega

/-- With no revealed numbers anywhere, visibility spreads to the whole
grid under the zero-closure invariant. -/
theorem visible_spread (g : Grid) (hzc : zeroClosure g) (hm : mcount g = 0)
    {p q : Nat × Nat} (hp : p ∈ coords g.width g.height)
    (hq : q ∈ coords g.width g.height)
    (hv : (g.get p.1 p.2).visible = true) : (g.get q.1 q.2).visible = true := by
  refine grid_connect g.width g.height (fun r => (g.get r.1 r.2).visible = true) ?_
    (p.1 + q.1 + p.2 + q.2) p q hp hq hv (by omega) (by omega)
  intro r hr hvr s hs
  have hadj : (g.get r.1 r.2).adj = 0 := by
    by_contra hne
    have hpos : 0 < mcount g :=
      List.countP_pos_iff.mpr ⟨r, hr, by
        simp only [decide_eq_true_eq]
        exact ⟨hvr, hne⟩⟩
    omega
  exact hzc r hr hvr hadj s hs

/-- While no number is revealed and some cell is hidden, nothing at all is
visible. -/
theorem mzero_no_visible (g : Grid) (hzc : zeroClosure g) (hm : mcount g = 0)
    {p : Nat × Nat} (hp : p ∈ coords g.width g.height)
    (hhid : (g.get p.1 p.2).visible = false) :
    ∀ q ∈ coords g.width g.height, (g.get q.1 q.2).visible = false := by
  intro q hq
  cases hv : (g.get q.1 q.2).visible
  · rfl
  · have := visible_spread g hzc hm hq hp hv
    rw [hhid] at this
    cases this

/-! ## The mine count of a committed grid -/

theorem mines_total_recompute (G : Grid) :
    mines_total (recompute_minefield_adj G) = mines_total G := by
  unfold mines_total recompute_minefield_adj
  rw [List.countP_map, countP_range_getD G.cells cell.virgin (fun c => c.mine)]
  exact List.countP_congr fun i _ => Iff.rfl

theorem pair_beq_true (gx gy : Nat) : (gx == gx && gy == gy) = true := by
  simp

theorem pair_beq_false {a : Nat × Nat} {gx gy : Nat} (h : ¬(a.1 = gx ∧ a.2 = gy)) :
    (a.1 == gx && a.2 == gy) = false := by
  by_cases h1 : a.1 = gx
  · by_cases h2 : a.2 = gy
    · exact absurd ⟨h1, h2⟩ h
    · simp [h2]
  · simp [h1]

/-- Every hidden cell is shallow or deep. -/
theorem hidden_shallow_or_deep (g : Grid) (p : Nat × Nat)
    (hhid : (g.get p.1 p.2).visible = false) : shallowCell g p ∨ deepCell g p := by
  by_cases hc : count_adjacent_revealed_cells g p.1 p.2 = 0
  · exact Or.inr ⟨by rw [hhid]; exact Bool.false_ne_true, hc⟩
  · exact Or.inl ⟨by rw [hhid]; exact Bool.false_ne_true, hc⟩

/-- The number of deep non-clicked cells equals the adjusted dh_cells. -/
theorem dpnc_count (g : Grid) (gx gy : Nat) (hgx : gx < g.width) (hgy : gy < g.height)
    (hhid : (g.get gx gy).visible = false) :
    ((coords g.width g.height).countP
      (fun p => decide (deepCell g p) && !(p.1 == gx && p.2 == gy)))
      = (adjDh g gx gy).toNat := by
  have hmem : ((gx, gy) : Nat × Nat) ∈ coords g.width g.height :=
    mem_coords.mpr ⟨hgx, hgy⟩
  by_cases hrD : reqDeep g gx gy = true
  · have hcnt0 : count_adjacent_revealed_cells g gx gy = 0 := by
      have h0 := hrD
      unfold reqDeep at h0
      simpa using h0
    have hdeep : deepCell g ((gx, gy) : Nat × Nat) :=
      ⟨by rw [hhid]; exact Bool.false_ne_true, hcnt0⟩
    have hflip := countP_flip_false ((gx, gy) : Nat × Nat)
      (fun p => decide (deepCell g p))
      (fun p => decide (deepCell g p) && !(p.1 == gx && p.2 == gy))
      (by simp only []
          rw [pair_beq_true]
          simp)
      (decide_eq_true hdeep)
      (coords g.width g.height) (coords_nodup _ _)
      (fun a _ hane => by
        simp only []
        rw [pair_beq_false (fun hc => hane (pair_eq hc.1 hc.2))]
        simp)
    rw [if_pos hmem] at hflip
    have hdef : (coords g.width g.height).countP (fun p => decide (deepCell g p))
        = dhcount g := rfl
    rw [hdef] at hflip
    unfold adjDh
    rw [if_pos hrD]
    omega
  · have hnd : ¬deepCell g ((gx, gy) : Nat × Nat) := by
      intro hc
      refine hrD ?_
      unfold reqDeep
      rw [hc.2]
      rfl
    have hsame : (coords g.width g.height).countP
        (fun p => decide (deepCell g p) && !(p.1 == gx && p.2 == gy))
        = (coords g.width g.height).countP (fun p => decide (deepCell g p)) := by
      refine List.countP_congr fun a _ => ?_
      by_cases hae : a.1 = gx ∧ a.2 = gy
      · have ha : a = ((gx, gy) : Nat × Nat) := pair_eq hae.1 hae.2
        rw [ha, decide_eq_false hnd]
        simp
      · rw [pair_beq_false hae]
        simp
    rw [hsame]
    unfold adjDh
    rw [if_neg hrD]
    have hdef : (coords g.width g.height).countP (fun p => decide (deepCell g p))
        = dhcount g := rfl
    omega

/-- The mines kept verbatim by the commit pass are the visible mines plus,
for a deep click, the clicked cell's old mine. -/
theorem commit_w_split (g : Grid) (gx gy : Nat) (hgx : gx < g.width)
    (hgy : gy < g.height) (hhid : (g.get gx gy).visible = false) :
    (coords g.width g.height).countP (fun p =>
      !(decide (shallowCell g p))
        && !(decide (deepCell g p) && !(p.1 == gx && p.2 == gy))
        && (g.get p.1 p.2).mine)
    = (coords g.width g.height).countP
        (fun p => (g.get p.1 p.2).visible && (g.get p.1 p.2).mine)
      + (if reqDeep g gx gy = true then
          (if (g.get gx gy).mine = true then 1 else 0) else 0) := by
  have hmem : ((gx, gy) : Nat × Nat) ∈ coords g.width g.height :=
    mem_coords.mpr ⟨hgx, hgy⟩
  have haway : ∀ a : Nat × Nat, ¬(a.1 = gx ∧ a.2 = gy) →
      (!(decide (shallowCell g a))
        && !(decide (deepCell g a) && !(a.1 == gx && a.2 == gy))
        && (g.get a.1 a.2).mine)
      = ((g.get a.1 a.2).visible && (g.get a.1 a.2).mine) := by
    intro a hane
    rw [pair_beq_false hane]
    by_cases hva : (g.get a.1 a.2).visible = true
    · have hnsh : ¬shallowCell g a := fun hc => hc.1 hva
      have hnd : ¬deepCell g a := fun hc => hc.1 hva
      rw [decide_eq_false hnsh, decide_eq_false hnd, hva]
      simp
    · have hva' : (g.get a.1 a.2).visible = false := by
        cases hv : (g.get a.1 a.2).visible
        · rfl
        · exact absurd hv hva
      rcases hidden_shallow_or_deep g a hva' with hsh | hdp
      · rw [decide_eq_true hsh, hva']
        simp
      · rw [decide_eq_true hdp, hva']
        simp
  by_cases hrD : reqDeep g gx gy = true
  · have hcnt0 : count_adjacent_revealed_cells g gx gy = 0 := by
      have h0 := hrD
      unfold reqDeep at h0
      simpa using h0
    have hdeep : deepCell g ((gx, gy) : Nat × Nat) :=
      ⟨by rw [hhid]; exact Bool.false_ne_true, hcnt0⟩
    have hnsh : ¬shallowCell g ((gx, gy) : Nat × Nat) := fun hc => hc.2 hcnt0
    rw [if_pos hrD]
    by_cases hgm : (g.get gx gy).mine = true
    · have hflip := countP_flip_true ((gx, gy) : Nat × Nat)
        (fun p => (g.get p.1 p.2).visible && (g.get p.1 p.2).mine)
        (fun p => !(decide (shallowCell g p))
          && !(decide (deepCell g p) && !(p.1 == gx && p.2 == gy))
          && (g.get p.1 p.2).mine)
        (by simp only []
            rw [pair_beq_true, decide_eq_false hnsh, decide_eq_true hdeep, hgm]
            simp)
        (by simp only []
            rw [hhid]
            simp)
        (coords g.width g.height) (coords_nodup _ _)
        (fun a _ hane => haway a (fun hc => hane (pair_eq hc.1 hc.2)))
      rw [if_pos hmem] at hflip
      rw [hflip, if_pos hgm]
    · have hgm' : (g.get gx gy).mine = false := by
        cases hv : (g.get gx gy).mine
        · rfl
        · exact absurd hv hgm
      have hsame : (coords g.width g.height).countP (fun p =>
          !(decide (shallowCell g p))
            && !(decide (deepCell g p) && !(p.1 == gx && p.2 == gy))
            && (g.get p.1 p.2).mine)
          = (coords g.width g.height).countP
            (fun p => (g.get p.1 p.2).visible && (g.get p.1 p.2).mine) := by
        refine List.countP_congr fun a _ => ?_
        by_cases hae : a.1 = gx ∧ a.2 = gy
        · have ha : a = ((gx, gy) : Nat × Nat) := pair_eq hae.1 hae.2
          rw [ha]
          simp only []
          rw [hgm', hhid]
          simp
        · rw [haway a hae]
      rw [hsame, if_neg hgm, Nat.add_zero]
  · have hsame : (coords g.width g.height).countP (fun p =>
        !(decide (shallowCell g p))
          && !(decide (deepCell g p) && !(p.1 == gx && p.2 == gy))
          && (g.get p.1 p.2).mine)
        = (coords g.width g.height).countP
          (fun p => (g.get p.1 p.2).visible && (g.get p.1 p.2).mine) := by
      refine List.countP_congr fun a _ => ?_
      by_cases hae : a.1 = gx ∧ a.2 = gy
      · have ha : a = ((gx, gy) : Nat × Nat) := pair_eq hae.1 hae.2
        have hcne : count_adjacent_revealed_cells g gx gy ≠ 0 := by
          intro hc
          refine hrD ?_
          unfold reqDeep
          rw [hc]
          rfl
        have hsh : shallowCell g ((gx, gy) : Nat × Nat) :=
          ⟨by rw [hhid]; exact Bool.false_ne_true, hcne⟩
        rw [ha]
        simp only []
        rw [decide_eq_true hsh, hhid]
        simp
      · rw [haway a hae]
    rw [hsame, if_neg hrD, Nat.add_zero]

/-- The total mine count written by commit: the shallow cells receive S
mines, the deep non-clicked cells receive the sampled adjT - S, the
visible cells keep theirs, and a deep clicked cell is set to the request. -/
theorem commit_mines_total (g : Grid) (gx gy : Nat) (mp ranLP : Bool) (sol : List Bool)
    (rng : Nat → Nat) (hlen : g.cells.length = g.width * g.height)
    (hgx : gx < g.width) (hgy : gy < g.height)
    (hhid : (g.get gx gy).visible = false)
    (hrng : RngOk rng)
    (hsollen : ranLP = true → sol.length = ncount g)
    (hk0 : (0 : Int) ≤ adjT g gx gy mp
      - (if ranLP then sol.countP id else shMines g : Nat))
    (hkd : adjT g gx gy mp - ((if ranLP then sol.countP id else shMines g : Nat) : Int)
      ≤ adjDh g gx gy) :
    (mines_total (commit g gx gy mp ranLP sol rng) : Int)
      = adjT g gx gy mp
        + ((coords g.width g.height).countP
            (fun p => (g.get p.1 p.2).visible && (g.get p.1 p.2).mine) : Int)
        + (if reqDeep g gx gy = true then (if mp then (1 : Int) else 0) else 0) := by
  set S : Nat := if ranLP then sol.countP id else shMines g with hS
  set k : Int := adjT g gx gy mp - S with hk
  set dhm : List Bool := random_combination (adjDh g gx gy).toNat k.toNat rng with hdhm
  have hdhn : k.toNat ≤ (adjDh g gx gy).toNat := by omega
  have hdc := random_combination_count (adjDh g gx gy).toNat k.toNat rng hdhn hrng
  rw [← hdhm] at hdc
  set f : Nat → cell := fun i =>
      let x := i % g.width
      let y := i / g.width
      let c := g.cells.getD i cell.virgin
      if ¬c.visible = true then
        if count_adjacent_revealed_cells g x y ≠ 0 then
          if ranLP then { c with mine := sol.getD (shRank g x y) false } else c
        else if ¬(x = gx ∧ y = gy) then
          { c with mine := dhm.getD (dhRank g gx gy x y) false }
        else c
      else c with hf
  set G1 : Grid := { g with cells := (List.range g.cells.length).map f } with hG1
  have hcommit : commit g gx gy mp ranLP sol rng
      = recompute_minefield_adj (if reqDeep g gx gy
          then G1.put gx gy { G1.get gx gy with mine := mp } else G1) := rfl
  rw [hcommit, mines_total_recompute]
  have hG1len : G1.cells.length = g.cells.length := by
    rw [hG1]
    simp
  have hfget : ∀ t, t < g.cells.length → G1.cells.getD t cell.virgin = f t := by
    intro t ht
    rw [hG1]
    show ((List.range g.cells.length).map f).getD t cell.virgin = f t
    rw [List.getD_eq_getElem?_getD, List.getElem?_map,
      List.getElem?_eq_getElem (by simpa using ht)]
    simp only [List.getElem_range, Option.map_some', Option.getD_some]
  have hfval : ∀ t, f t = (if ¬(g.cells.getD t cell.virgin).visible = true then
      if count_adjacent_revealed_cells g (t % g.width) (t / g.width) ≠ 0 then
        if ranLP then { g.cells.getD t cell.virgin with
          mine := sol.getD (shRank g (t % g.width) (t / g.width)) false }
        else g.cells.getD t cell.virgin
      else if ¬(t % g.width = gx ∧ t / g.width = gy) then
        { g.cells.getD t cell.virgin with
          mine := dhm.getD (dhRank g gx gy (t % g.width) (t / g.width)) false }
      else g.cells.getD t cell.virgin
    else g.cells.getD t cell.virgin) := fun t => rfl
  have hmain : mines_total G1
      = S + k.toNat + (coords g.width g.height).countP (fun p =>
          !(decide (shallowCell g p))
            && !(decide (deepCell g p) && !(p.1 == gx && p.2 == gy))
            && (g.get p.1 p.2).mine) := by
    have h1 : mines_total G1
        = (List.range (coords g.width g.height).length).countP (fun t => (f t).mine) := by
      unfold mines_total
      rw [hG1]
      show ((List.range g.cells.length).map f).countP (fun c => c.mine) = _
      rw [List.countP_map, hlen, ← coords_length g.width g.height]
      exact List.countP_congr fun t _ => Iff.rfl
    rw [h1]
    by_cases hlp : ranLP = true
    · have hcong : (List.range (coords g.width g.height).length).countP
          (fun t => (f t).mine)
          = (List.range (coords g.width g.height).length).countP (fun t =>
            if (fun p => decide (shallowCell g p))
                ((coords g.width g.height).getD t (0, 0)) = true
              then (fun j => sol.getD j false)
                (((coords g.width g.height).take t).countP
                  (fun p => decide (shallowCell g p)))
            else if (fun p => decide (deepCell g p) && !(p.1 == gx && p.2 == gy))
                ((coords g.width g.height).getD t (0, 0)) = true
              then (fun j => dhm.getD j false)
                (((coords g.width g.height).take t).countP
                  (fun p => decide (deepCell g p) && !(p.1 == gx && p.2 == gy)))
            else (fun p => (g.get p.1 p.2).mine)
              ((coords g.width g.height).getD t (0, 0))) := by
        refine List.countP_congr fun t htm => ?_
        rw [List.mem_range, coords_length] at htm
        rw [coords_getD htm]
        have hxm := Nat.div_add_mod t g.width
        have hgc : g.cells.getD t cell.virgin = g.get (t % g.width) (t / g.width) := by
          show _ = g.cells.getD (g.width * (t / g.width) + t % g.width) cell.virgin
          rw [hxm]
        have hsr : shRank g (t % g.width) (t / g.width)
            = ((coords g.width g.height).take t).countP
              (fun p => decide (shallowCell g p)) := by
          unfold shRank
          rw [hxm]
        have hdr : dhRank g gx gy (t % g.width) (t / g.width)
            = ((coords g.width g.height).take t).countP
              (fun p => decide (deepCell g p) && !(p.1 == gx && p.2 == gy)) := by
          unfold dhRank
          rw [hxm]
        rw [hfval t, hgc]
        simp only []
        have hbq : ∀ hcl : t % g.width = gx ∧ t / g.width = gy,
            (((t % g.width : Nat), (t / g.width : Nat)).1 == gx
              && ((t % g.width : Nat), (t / g.width : Nat)).2 == gy) = true := by
          intro hcl
          show ((t % g.width == gx) && (t / g.width == gy)) = true
          rw [hcl.1, hcl.2]
          exact pair_beq_true gx gy
        by_cases hv : (g.get (t % g.width) (t / g.width)).visible = true
        · have hnsh : ¬shallowCell g ((t % g.width, t / g.width) : Nat × Nat) :=
            fun hc => hc.1 hv
          have hnd : ¬deepCell g ((t % g.width, t / g.width) : Nat × Nat) :=
            fun hc => hc.1 hv
          rw [if_neg (show ¬¬(g.get (t % g.width) (t / g.width)).visible = true from
              fun hc => hc hv),
            if_neg (show ¬(decide (shallowCell g
                ((t % g.width, t / g.width) : Nat × Nat)) = true) from by
              rw [decide_eq_false hnsh]
              simp),
            if_neg (show ¬((decide (deepCell g ((t % g.width, t / g.width) : Nat × Nat))
                && !(((t % g.width : Nat), (t / g.width : Nat)).1 == gx
                  && ((t % g.width : Nat), (t / g.width : Nat)).2 == gy)) = true) from by
              rw [decide_eq_false hnd]
              simp)]
        · have hv' : (g.get (t % g.width) (t / g.width)).visible = false := by
            cases hb : (g.get (t % g.width) (t / g.width)).visible
            · rfl
            · exact absurd hb hv
          rw [if_pos hv]
          by_cases hc0 : count_adjacent_revealed_cells g (t % g.width) (t / g.width) = 0
          · have hnsh : ¬shallowCell g ((t % g.width, t / g.width) : Nat × Nat) :=
              fun hc => hc.2 hc0
            have hdp : deepCell g ((t % g.width, t / g.width) : Nat × Nat) :=
              ⟨by rw [hv']; exact Bool.false_ne_true, hc0⟩
            rw [if_neg (show ¬count_adjacent_revealed_cells g (t % g.width)
                (t / g.width) ≠ 0 from fun hc => hc hc0),
              if_neg (show ¬(decide (shallowCell g
                  ((t % g.width, t / g.width) : Nat × Nat)) = true) from by
                rw [decide_eq_false hnsh]
                simp)]
            by_cases hcl : t % g.width = gx ∧ t / g.width = gy
            · rw [if_neg (show ¬¬(t % g.width = gx ∧ t / g.width = gy) from
                  fun hc => hc hcl),
                if_neg (show ¬((decide (deepCell g
                    ((t % g.width, t / g.width) : Nat × Nat))
                  && !(((t % g.width : Nat), (t / g.width : Nat)).1 == gx
                    && ((t % g.width : Nat), (t / g.width : Nat)).2 == gy)) = true) from by
                  rw [hbq hcl]
                  simp)]
            · rw [if_pos hcl,
                if_pos (show (decide (deepCell g ((t % g.width, t / g.width) : Nat × Nat))
                  && !(((t % g.width : Nat), (t / g.width : Nat)).1 == gx
                    && ((t % g.width : Nat), (t / g.width : Nat)).2 == gy)) = true from by
                  rw [decide_eq_true hdp, pair_beq_false hcl]
                  simp),
                hdr]
          · have hsh : shallowCell g ((t % g.width, t / g.width) : Nat × Nat) :=
              ⟨by rw [hv']; exact Bool.false_ne_true, hc0⟩
            rw [if_pos hc0,
              if_pos (show decide (shallowCell g
                  ((t % g.width, t / g.width) : Nat × Nat)) = true from
                decide_eq_true hsh),
              if_pos hlp, hsr]
      refine hcong.trans ?_
      have hsplit := split_rank_count2 ((0, 0) : Nat × Nat)
        (fun p => decide (shallowCell g p))
        (fun p => decide (deepCell g p) && !(p.1 == gx && p.2 == gy))
        (fun j => sol.getD j false) (fun j => dhm.getD j false)
        (fun p => (g.get p.1 p.2).mine)
        (fun b hb => by
          have hsh := of_decide_eq_true hb
          have hnd : ¬deepCell g b := fun hd => hsh.2 hd.2
          show (decide (deepCell g b) && !(b.1 == gx && b.2 == gy)) = false
          rw [decide_eq_false hnd]
          simp)
        (coords g.width g.height)
      refine hsplit.trans ?_
      have hn1 : (coords g.width g.height).countP
          (fun p => decide (shallowCell g p)) = ncount g := rfl
      have hv1 : (List.range (ncount g)).countP (fun j => sol.getD j false)
          = sol.countP id := by
        rw [countP_range_getD sol false id, hsollen hlp]
        exact List.countP_congr fun i _ => Iff.rfl
      have hv2 : (List.range ((adjDh g gx gy).toNat)).countP
          (fun j => dhm.getD j false) = k.toNat := by
        rw [← hdc.2, countP_range_getD dhm false id, hdc.1]
        exact List.countP_congr fun i _ => Iff.rfl
      rw [hn1, hv1, dpnc_count g gx gy hgx hgy hhid, hv2]
      rw [hS, if_pos hlp]
    · have hlp' : ranLP = false := by
        cases hb : ranLP
        · rfl
        · exact absurd hb hlp
      have hcong : (List.range (coords g.width g.height).length).countP
          (fun t => (f t).mine)
          = (List.range (coords g.width g.height).length).countP (fun t =>
            if (fun _ : Nat × Nat => false)
                ((coords g.width g.height).getD t (0, 0)) = true
              then (fun j => sol.getD j false)
                (((coords g.width g.height).take t).countP (fun _ => false))
            else if (fun p => decide (deepCell g p) && !(p.1 == gx && p.2 == gy))
                ((coords g.width g.height).getD t (0, 0)) = true
              then (fun j => dhm.getD j false)
                (((coords g.width g.height).take t).countP
                  (fun p => decide (deepCell g p) && !(p.1 == gx && p.2 == gy)))
            else (fun p => (g.get p.1 p.2).mine)
              ((coords g.width g.height).getD t (0, 0))) := by
        refine List.countP_congr fun t htm => ?_
        rw [List.mem_range, coords_length] at htm
        rw [coords_getD htm]
        have hxm := Nat.div_add_mod t g.width
        have hgc : g.cells.getD t cell.virgin = g.get (t % g.width) (t / g.width) := by
          show _ = g.cells.getD (g.width * (t / g.width) + t % g.width) cell.virgin
          rw [hxm]
        have hdr : dhRank g gx gy (t % g.width) (t / g.width)
            = ((coords g.width g.height).take t).countP
              (fun p => decide (deepCell g p) && !(p.1 == gx && p.2 == gy)) := by
          unfold dhRank
          rw [hxm]
        rw [hfval t, hgc]
        simp only []
        have hbq : ∀ hcl : t % g.width = gx ∧ t / g.width = gy,
            (((t % g.width : Nat), (t / g.width : Nat)).1 == gx
              && ((t % g.width : Nat), (t / g.width : Nat)).2 == gy) = true := by
          intro hcl
          show ((t % g.width == gx) && (t / g.width == gy)) = true
          rw [hcl.1, hcl.2]
          exact pair_beq_true gx gy
        rw [if_neg (show ¬(false = true) from by simp)]
        by_cases hv : (g.get (t % g.width) (t / g.width)).visible = true
        · have hnd : ¬deepCell g ((t % g.width, t / g.width) : Nat × Nat) :=
            fun hc => hc.1 hv
          rw [if_neg (show ¬¬(g.get (t % g.width) (t / g.width)).visible = true from
              fun hc => hc hv),
            if_neg (show ¬((decide (deepCell g ((t % g.width, t / g.width) : Nat × Nat))
                && !(((t % g.width : Nat), (t / g.width : Nat)).1 == gx
                  && ((t % g.width : Nat), (t / g.width : Nat)).2 == gy)) = true) from by
              rw [decide_eq_false hnd]
              simp)]
        · have hv' : (g.get (t % g.width) (t / g.width)).visible = false := by
            cases hb : (g.get (t % g.width) (t / g.width)).visible
            · rfl
            · exact absurd hb hv
          rw [if_pos hv]
          by_cases hc0 : count_adjacent_revealed_cells g (t % g.width) (t / g.width) = 0
          · have hdp : deepCell g ((t % g.width, t / g.width) : Nat × Nat) :=
              ⟨by rw [hv']; exact Bool.false_ne_true, hc0⟩
            rw [if_neg (show ¬count_adjacent_revealed_cells g (t % g.width)
                (t / g.width) ≠ 0 from fun hc => hc hc0)]
            by_cases hcl : t % g.width = gx ∧ t / g.width = gy
            · rw [if_neg (show ¬¬(t % g.width = gx ∧ t / g.width = gy) from
                  fun hc => hc hcl),
                if_neg (show ¬((decide (deepCell g
                    ((t % g.width, t / g.width) : Nat × Nat))
                  && !(((t % g.width : Nat), (t / g.width : Nat)).1 == gx
                    && ((t % g.width : Nat), (t / g.width : Nat)).2 == gy)) = true) from by
                  rw [hbq hcl]
                  simp)]
            · rw [if_pos hcl,
                if_pos (show (decide (deepCell g ((t % g.width, t / g.width) : Nat × Nat))
                  && !(((t % g.width : Nat), (t / g.width : Nat)).1 == gx
                    && ((t % g.width : Nat), (t / g.width : Nat)).2 == gy)) = true from by
                  rw [decide_eq_true hdp, pair_beq_false hcl]
                  simp),
                hdr]
          · have hnd : ¬deepCell g ((t % g.width, t / g.width) : Nat × Nat) :=
              fun hc => hc0 hc.2
            rw [if_pos hc0,
              if_neg (show ¬ranLP = true from by rw [hlp']; simp),
              if_neg (show ¬((decide (deepCell g
                  ((t % g.width, t / g.width) : Nat × Nat))
                && !(((t % g.width : Nat), (t / g.width : Nat)).1 == gx
                  && ((t % g.width : Nat), (t / g.width : Nat)).2 == gy)) = true) from by
                rw [decide_eq_false hnd]
                simp)]
      refine hcong.trans ?_
      have hsplit := split_rank_count2 ((0, 0) : Nat × Nat)
        (fun _ : Nat × Nat => false)
        (fun p => decide (deepCell g p) && !(p.1 == gx && p.2 == gy))
        (fun j => sol.getD j false) (fun j => dhm.getD j false)
        (fun p => (g.get p.1 p.2).mine)
        (fun b hb => by cases hb)
        (coords g.width g.height)
      refine hsplit.trans ?_
      have hz : (coords g.width g.height).countP (fun _ : Nat × Nat => false) = 0 := by
        rw [List.countP_eq_zero]
        intro a _
        simp
      have hv2 : (List.range ((adjDh g gx gy).toNat)).countP
          (fun j => dhm.getD j false) = k.toNat := by
        rw [← hdc.2, countP_range_getD dhm false id, hdc.1]
        exact List.countP_congr fun i _ => Iff.rfl
      rw [hz, dpnc_count g gx gy hgx hgy hhid, hv2]
      have hwsplit : (coords g.width g.height).countP
          (fun b => !(fun _ : Nat × Nat => false) b
            && !(decide (deepCell g b) && !(b.1 == gx && b.2 == gy))
            && (g.get b.1 b.2).mine)
          = shMines g + (coords g.width g.height).countP (fun p =>
            !(decide (shallowCell g p))
              && !(decide (deepCell g p) && !(p.1 == gx && p.2 == gy))
              && (g.get p.1 p.2).mine) := by
        rw [countP_split (coords g.width g.height) _
          (fun p => decide (shallowCell g p))]
        congr 1
        · unfold shMines
          refine List.countP_congr fun a _ => ?_
          by_cases hsh : shallowCell g a
          · have hnd : ¬deepCell g a := fun hd => hsh.2 hd.2
            rw [decide_eq_true hsh, decide_eq_false hnd]
            simp
          · rw [decide_eq_false hsh]
            simp
        · refine List.countP_congr fun a _ => ?_
          by_cases hsh : shallowCell g a
          · rw [decide_eq_true hsh]
            simp
          · rw [decide_eq_false hsh]
            simp
      rw [hwsplit]
      rw [hS, if_neg (show ¬ranLP = true from by rw [hlp']; simp)]
      simp only [List.countP_nil, List.range_zero]
      omega
  by_cases hrD : reqDeep g gx gy = true
  · simp only [if_pos hrD]
    have hidx : g.width * gy + gx < G1.cells.length := by
      rw [hG1len, hlen]
      exact grid_idx_lt hgx hgy
    have hset := countP_set_eq (fun c => c.mine)
      ({ G1.get gx gy with mine := mp }) cell.virgin G1.cells
      (g.width * gy + gx) hidx
    have hclick : (G1.cells.getD (g.width * gy + gx) cell.virgin).mine
        = (g.get gx gy).mine := by
      rw [hfget _ (by rw [hlen]; exact grid_idx_lt hgx hgy), hfval]
      rw [grid_idx_mod hgx, grid_idx_div hgx]
      have hcnt0 : count_adjacent_revealed_cells g gx gy = 0 := by
        have h0 := hrD
        unfold reqDeep at h0
        simpa using h0
      have hgc : g.cells.getD (g.width * gy + gx) cell.virgin = g.get gx gy := rfl
      rw [hgc, if_pos (by rw [hhid]; simp), if_neg (fun hc => hc hcnt0),
        if_neg (fun hc => hc ⟨rfl, rfl⟩)]
    have hput2 : mines_total (G1.put gx gy
          { mine := mp, exploded := (G1.get gx gy).exploded,
            flag := (G1.get gx gy).flag, qmark := (G1.get gx gy).qmark,
            visible := (G1.get gx gy).visible, mistake := (G1.get gx gy).mistake,
            adj := (G1.get gx gy).adj })
        + (if (G1.cells.getD (g.width * gy + gx) cell.virgin).mine = true then 1 else 0)
        = mines_total G1 + (if mp = true then 1 else 0) := hset
    have hws := commit_w_split g gx gy hgx hgy hhid
    rw [if_pos hrD] at hws
    have hkk : (k.toNat : Int) = k := Int.toNat_of_nonneg hk0
    rw [hk] at hkk
    by_cases hgm : (g.get gx gy).mine = true
    · have hc1 : (G1.cells.getD (g.width * gy + gx) cell.virgin).mine = true := by
        rw [hclick]
        exact hgm
      rw [if_pos hc1] at hput2
      simp only [if_pos hgm] at hws
      by_cases hmp : mp = true
      · rw [if_pos hmp] at hput2
        simp only [if_pos hmp]
        omega
      · rw [if_neg hmp] at hput2
        simp only [if_neg hmp]
        omega
    · have hc1 : ¬(G1.cells.getD (g.width * gy + gx) cell.virgin).mine = true := by
        rw [hclick]
        exact hgm
      rw [if_neg hc1] at hput2
      simp only [if_neg hgm] at hws
      by_cases hmp : mp = true
      · rw [if_pos hmp] at hput2
        simp only [if_pos hmp]
        omega
      · rw [if_neg hmp] at hput2
        simp only [if_neg hmp]
        omega
  · simp only [if_neg hrD]
    have hws := commit_w_split g gx gy hgx hgy hhid
    rw [if_neg hrD, Nat.add_zero] at hws
    have hkk : (k.toNat : Int) = k := Int.toNat_of_nonneg hk0
    rw [hk] at hkk
    omega

/-- With no visible mines, the visible-mine count is zero. -/
theorem vis_mines_zero (g : Grid) (hnvm : noVisibleMines g) :
    (coords g.width g.height).countP
      (fun p => (g.get p.1 p.2).visible && (g.get p.1 p.2).mine) = 0 := by
  rw [List.countP_eq_zero]
  intro p hp
  simp only [Bool.and_eq_true, not_and]
  intro hv hm
  rw [hnvm p hp hv] at hm
  exact Bool.false_ne_true hm

theorem dhMines_le_dhcount (g : Grid) : dhMines g ≤ dhcount g := by
  unfold dhMines dhcount
  refine List.countP_mono_left fun p _ hp => ?_
  exact (Bool.and_eq_true _ _).mp hp |>.1

theorem mines_total_le (g : Grid) (hlen : g.cells.length = g.width * g.height) :
    mines_total g ≤ g.width * g.height := by
  rw [← hlen]
  exact List.countP_le_length _

/-! ## Claim C1: failure of alter_minefield leaves the grid unmodified -/

/-- Helper shared by the failure-path claims: on any failing return of
alter_minefield the resulting grid is the input grid. -/
theorem alter_fail_frame (g : Grid) (gx gy : Nat) (mp : Bool)
    (solver : Nat → List Constraint → SolverOutcome) (rng : Nat → Nat)
    (h : (alter_minefield g gx gy mp solver rng).1 = false) :
    (alter_minefield g gx gy mp solver rng).2 = g := by
  unfold alter_minefield at h ⊢
  split_ifs at h ⊢ <;> try rfl
  all_goals
    cases hs : solver (ncount g) (lpSystem g gx gy mp) <;> simp [hs] at h ⊢

/-- C1: whenever alter_minefield returns failure — structural
infeasibility, the two early impossibility checks, a solver timeout or a
solver backend error — the grid is left entirely unmodified: every field
of every cell is unchanged. -/
theorem C1_alter_minefield_failure_unmodified (g : Grid) (gx gy : Nat) (mp : Bool)
    (solver : Nat → List Constraint → SolverOutcome) (rng : Nat → Nat)
    (h : (alter_minefield g gx gy mp solver rng).1 = false) :
    (alter_minefield g gx gy mp solver rng).2 = g :=
  alter_fail_frame g gx gy mp solver rng h

/-- Witness for C1 at a concrete failing input (a mine-free grid, where
adding a mine is impossible since T = 0). -/
theorem C1_witness :
    (alter_minefield c1grid 0 0 true (fun _ _ => SolverOutcome.infeasible) (fun _ => 1)).1
      = false ∧
    (alter_minefield c1grid 0 0 true (fun _ _ => SolverOutcome.infeasible) (fun _ => 1)).2
      = c1grid :=
  ⟨by decide,
   C1_alter_minefield_failure_unmodified c1grid 0 0 true
     (fun _ _ => SolverOutcome.infeasible) (fun _ => 1) (by decide)⟩

/-! ## Claim C5: matching request is a guaranteed-success no-op -/

/-- C5: when the clicked cell's mine status already equals the requested
value, alter_minefield succeeds and returns the grid bit-for-bit
unchanged. -/
theorem C5_alter_minefield_noop (g : Grid) (gx gy : Nat) (mp : Bool)
    (solver : Nat → List Constraint → SolverOutcome) (rng : Nat → Nat)
    (h : (g.get gx gy).mine = mp) :
    alter_minefield g gx gy mp solver rng = (true, g) := by
  unfold alter_minefield
  rw [if_pos h]

/-- Witness for C5: requesting a mine where a mine already sits. -/
theorem C5_witness :
    alter_minefield c5grid 1 1 true (fun _ _ => SolverOutcome.failure) (fun _ => 1)
      = (true, c5grid) :=
  C5_alter_minefield_noop c5grid 1 1 true (fun _ _ => SolverOutcome.failure) (fun _ => 1)
    (by decide)

/-! ## Claim C10: visible cell with a differing request -/

/-- C10: on a visible cell whose status differs from the request,
alter_minefield performs no mutation and succeeds exactly when the request
is for no mine (placing a mine in a revealed cell always fails; a no-mine
request on a revealed mine reports success without mutating). -/
theorem C10_alter_minefield_visible (g : Grid) (gx gy : Nat) (mp : Bool)
    (solver : Nat → List Constraint → SolverOutcome) (rng : Nat → Nat)
    (hvis : (g.get gx gy).visible = true) (hne : (g.get gx gy).mine ≠ mp) :
    (alter_minefield g gx gy mp solver rng).2 = g ∧
      ((alter_minefield g gx gy mp solver rng).1 = true ↔ mp = false) := by
  unfold alter_minefield
  rw [if_neg hne, if_pos hvis]
  refine ⟨rfl, ?_⟩
  cases mp <;> simp

/-- Witness for C10: a no-mine request at the visible mine reports success
and leaves the grid unchanged. -/
theorem C10_witness :
    (alter_minefield c10grid 0 0 false (fun _ _ => SolverOutcome.failure) (fun _ => 1)).2
        = c10grid ∧
      ((alter_minefield c10grid 0 0 false (fun _ _ => SolverOutcome.failure)
        (fun _ => 1)).1 = true ↔ (false : Bool) = false) :=
  C10_alter_minefield_visible c10grid 0 0 false (fun _ _ => SolverOutcome.failure)
    (fun _ => 1) (by decide) (by decide)

/-! ## Claim C4: the adjacency invariant holds in every reachable state -/

/-- C4: in every grid state reachable from new_game through spawn_mine,
remove_mine and successful alter_minefield commits, every cell's
adjacent-mine-count field equals the number of mines among its up-to-8
in-bounds neighbors. -/
theorem C4_adjacency_invariant (g : Grid) (h : Reachable g) : adjInvariant g :=
  (reach_props h).2

/-- Witness for C4 at the concrete reachable state new_game 5 3 with no
mines drawn. -/
theorem C4_witness :
    Reachable (new_game 5 3 (fun _ => false)) ∧
      adjInvariant (new_game 5 3 (fun _ => false)) :=
  ⟨Reachable.start 5 3 (fun _ => false) (by omega) (by omega),
   C4_adjacency_invariant (new_game 5 3 (fun _ => false))
     (Reachable.start 5 3 (fun _ => false) (by omega) (by omega))⟩

/-! ## Claim C9: chord_reveal behavior -/

/-- Counterexample to C9 as stated: at the visible 1 at (1, 1) of c9grid
the flagged-hidden-neighbor count equals the displayed number, yet
chord_reveal reveals nothing — a question mark on the neighbor (1, 0)
makes the function return immediately, so the hidden unflagged neighbor
(2, 2) stays hidden. -/
theorem C9_counterexample :
    (c9grid.get 1 1).visible = true ∧
    (c9grid.get 1 1).adj = (nbrs c9grid.width c9grid.height 1 1).countP
      (fun p => !(c9grid.get p.1 p.2).visible && (c9grid.get p.1 p.2).flag) ∧
    (c9grid.get 2 2).visible = false ∧ (c9grid.get 2 2).flag = false ∧
    chord_reveal c9grid GStat.active 1 1 = (c9grid, GStat.active) := by
  decide

/-- C9 (amended): on a grid with truthful adjacency counts, provided no
neighbor of (x, y) carries a question mark, chord_reveal reveals the
hidden non-flagged neighbors of (x, y) exactly when the flagged hidden
neighbor count equals the cell's displayed number (otherwise it changes
nothing); each such neighbor that is a mine is marked exploded and the
game ends as lost, and each that is not a mine becomes visible. -/
theorem C9_chord_reveal (g : Grid) (st : GStat) (x y : Nat)
    (hwf : g.wf) (hinv : adjInvariant g)
    (hq : ∀ p ∈ nbrs g.width g.height x y, (g.get p.1 p.2).qmark = false) :
    ((g.get x y).adj ≠ (nbrs g.width g.height x y).countP
        (fun p => !(g.get p.1 p.2).visible && (g.get p.1 p.2).flag) →
      chord_reveal g st x y = (g, st)) ∧
    ((g.get x y).adj = (nbrs g.width g.height x y).countP
        (fun p => !(g.get p.1 p.2).visible && (g.get p.1 p.2).flag) →
      ∀ p ∈ nbrs g.width g.height x y,
        (g.get p.1 p.2).visible = false → (g.get p.1 p.2).flag = false →
          if (g.get p.1 p.2).mine = true then
            ((chord_reveal g st x y).1.get p.1 p.2).exploded = true ∧
              (chord_reveal g st x y).2 = GStat.lost
          else ((chord_reveal g st x y).1.get p.1 p.2).visible = true) := by
  obtain ⟨hlen, hw, hh⟩ := hwf
  have hany : (nbrs g.width g.height x y).any (fun p => (g.get p.1 p.2).qmark) = false := by
    rw [List.any_eq_false]
    intro p hp
    rw [hq p hp]
    exact Bool.false_ne_true
  have hcr : chord_reveal g st x y =
      if (g.get x y).adj = (nbrs g.width g.height x y).countP
          (fun p => !(g.get p.1 p.2).visible && (g.get p.1 p.2).flag) then
        (nbrs g.width g.height x y).foldl chordStep (g, st)
      else (g, st) := by
    unfold chord_reveal
    rw [hany, if_neg Bool.false_ne_true]
  constructor
  · intro hne
    rw [hcr, if_neg hne]
  · intro heq p hp hpv hpf
    rw [hcr, if_pos heq]
    refine (foldl_establish chordStep (fun gs => chordRel g gs.1)
      (fun q gs => (g.get q.1 q.2).visible = false → (g.get q.1 q.2).flag = false →
        (g.get q.1 q.2).qmark = false →
        if (g.get q.1 q.2).mine = true then
          (gs.1.get q.1 q.2).exploded = true ∧ gs.2 = GStat.lost
        else (gs.1.get q.1 q.2).visible = true)
      (nbrs g.width g.height x y) (g, st) ?_ ?_ ?_ (chordRel_refl g) p hp)
      hpv hpf (hq p hp)
    · intro gs q hqm hQs
      have hb := nbrs_bounds hw hh hqm
      exact chordRel_trans hQs (chord_step_props g hlen hinv gs q hb.1 hb.2 hQs).1
    · intro gs q r hqm hrm hQs hGs hv hf hqk
      have hrb := nbrs_bounds hw hh hrm
      have hstep := chord_step_props g hlen hinv gs r hrb.1 hrb.2 hQs
      have hGs' := hGs hv hf hqk
      by_cases hm : (g.get q.1 q.2).mine = true
      · rw [if_pos hm] at hGs' ⊢
        refine ⟨(chordRel_get hstep.1 q.1 q.2).2.2.2.1 hGs'.1, ?_⟩
        rcases hstep.2 with h2 | h2
        · rw [h2]
          exact hGs'.2
        · exact h2
      · rw [if_neg hm] at hGs' ⊢
        exact (chordRel_get hstep.1 q.1 q.2).2.2.1 hGs'
    · intro gs q hqm hQs hv hf hqk
      have hb := nbrs_bounds hw hh hqm
      have hget := chordRel_get hQs q.1 q.2
      have hcf : (gs.1.get q.1 q.2).flag = false := by
        cases hcf : (gs.1.get q.1 q.2).flag
        · rfl
        · have := hget.2.2.2.2.1 hcf
          rw [hf] at this
          cases this
      have hcq : (gs.1.get q.1 q.2).qmark = false := by
        cases hcq : (gs.1.get q.1 q.2).qmark
        · rfl
        · have := hget.2.2.2.2.2.1 hcq
          rw [hqk] at this
          cases this
      unfold chordStep
      by_cases hcv : (gs.1.get q.1 q.2).visible = true
      · rw [if_neg (show ¬(¬(gs.1.get q.1 q.2).visible = true ∧
          ¬(gs.1.get q.1 q.2).flag = true ∧ ¬(gs.1.get q.1 q.2).qmark = true) from
          fun hc => hc.1 hcv)]
        by_cases hm : (g.get q.1 q.2).mine = true
        · have hmv := hget.2.2.2.2.2.2 hm
          rw [hv] at hmv
          rw [hmv] at hcv
          cases hcv
        · rw [if_neg hm]
          exact hcv
      · rw [if_pos (show ¬(gs.1.get q.1 q.2).visible = true ∧
          ¬(gs.1.get q.1 q.2).flag = true ∧ ¬(gs.1.get q.1 q.2).qmark = true from
          ⟨hcv, by rw [hcf]; exact Bool.false_ne_true,
            by rw [hcq]; exact Bool.false_ne_true⟩)]
        by_cases hm : (g.get q.1 q.2).mine = true
        · have hgm : (gs.1.get q.1 q.2).mine = true := by
            rw [hget.1]
            exact hm
          rw [if_pos hgm, if_pos hm]
          constructor
          · show ((check_for_flag_mistakes (gs.1.put q.1 q.2
              { gs.1.get q.1 q.2 with exploded := true })).get q.1 q.2).exploded = true
            have hidx : gs.1.width * q.2 + q.1 < gs.1.cells.length := by
              rw [hQs.2.2.1, hQs.1, hlen]
              exact grid_idx_lt hb.1 hb.2
            have h1 : ((gs.1.put q.1 q.2
                { gs.1.get q.1 q.2 with exploded := true }).get q.1 q.2).exploded = true := by
              rw [get_put_self hidx]
            exact (chordRel_get (chordRel_cfm _) q.1 q.2).2.2.2.1 h1
          · rfl
        · have hgm : ¬(gs.1.get q.1 q.2).mine = true := by
            rw [hget.1]
            exact hm
          rw [if_neg hgm, if_neg hm]
          show ((bucket_reveal gs.1 q.1 q.2).get q.1 q.2).visible = true
          exact bucket_reveal_self_visible gs.1 q.1 q.2
            (by rw [hQs.1]; exact hb.1) (by rw [hQs.2.1]; exact hb.2)
            (by rw [hQs.2.2.1, hQs.1, hQs.2.1]; exact hlen)

/-- Witness for C9 at c9wgrid: flag count matches the 1 at (1, 1), there
are no question marks, and the hidden non-mine neighbor (2, 2) becomes
visible. -/
theorem C9_witness :
    (c9wgrid.get 1 1).adj = (nbrs c9wgrid.width c9wgrid.height 1 1).countP
      (fun p => !(c9wgrid.get p.1 p.2).visible && (c9wgrid.get p.1 p.2).flag) ∧
    (c9wgrid.get 2 2).mine = false ∧
    ((chord_reveal c9wgrid GStat.active 1 1).1.get 2 2).visible = true :=
  ⟨by decide, by decide, by
    have h := (C9_chord_reveal c9wgrid GStat.active 1 1 (by decide) (by decide)
      (by decide)).2 (by decide) (2, 2) (by decide) (by decide) (by decide)
    rw [if_neg (by decide : ¬(c9wgrid.get (2, 2).1 (2, 2).2).mine = true)] at h
    exact h⟩

/-! ## Claim C2: the total mine count across alter_minefield -/

/-- Counterexample to C2 as stated: on an invariant-violating grid with
two visible mines, a successful request for a mine at the deeply-hidden
(2, 2) raises mines_total by two — more than the single clicked cell's
own change. -/
theorem C2_counterexample :
    RngOk (fun j => j) ∧
    (alter_minefield c2grid 2 2 true (fun _ _ => SolverOutcome.failure)
      (fun j => j)).1 = true ∧
    mines_total c2grid = 2 ∧
    mines_total (alter_minefield c2grid 2 2 true (fun _ _ => SolverOutcome.failure)
      (fun j => j)).2 = 4 :=
  ⟨fun j hj => ⟨hj, Nat.le_refl j⟩, by decide, by decide, by decide⟩

/-- C2 (amended): on a well-formed grid satisfying the no-visible-mines
and zero-closure invariants, with a contract-abiding random source and a
truthful solver backend, alter_minefield never changes mines_total: the
consistency engine only moves mines around (and any failing call leaves
the grid untouched). -/
theorem C2_mines_total (g : Grid) (gx gy : Nat) (mp : Bool)
    (solver : Nat → List Constraint → SolverOutcome) (rng : Nat → Nat)
    (hwf : g.wf) (hnvm : noVisibleMines g) (hzc : zeroClosure g)
    (hgx : gx < g.width) (hgy : gy < g.height)
    (hrng : RngOk rng) (hsol : HonestSolver solver) :
    mines_total (alter_minefield g gx gy mp solver rng).2 = mines_total g := by
  obtain ⟨hlen, hw, hh⟩ := hwf
  have hvis0 := vis_mines_zero g hnvm
  have hTle := mines_total_le g hlen
  have hsplitT := mines_total_split g hlen hnvm
  have hdhle := dhMines_le_dhcount g
  unfold alter_minefield
  split
  · rfl
  rename_i h1
  split
  · rfl
  rename_i h2
  split
  · rfl
  rename_i h3
  split
  · rfl
  rename_i h4
  have hhid : (g.get gx gy).visible = false := by
    cases hb : (g.get gx gy).visible
    · rfl
    · exact absurd hb h2
  split
  · rename_i h5
    have hnov : ∀ q ∈ coords g.width g.height, (g.get q.1 q.2).visible = false :=
      @mzero_no_visible g hzc h5 ((gx, gy) : Nat × Nat)
        (mem_coords.mpr ⟨hgx, hgy⟩) hhid
    have hsm : shMines g = 0 := by
      unfold shMines
      rw [List.countP_eq_zero]
      intro p hp hc
      have hsh := of_decide_eq_true ((Bool.and_eq_true _ _).mp hc).1
      obtain ⟨q, hqm, hqv⟩ := count_adjacent_revealed_pos hsh.2
      have hqb := nbrs_bounds hw hh hqm
      rw [hnov q (mem_coords.mpr hqb)] at hqv
      exact Bool.false_ne_true hqv
    have hrD : reqDeep g gx gy = true := by
      unfold reqDeep
      have hc0 : count_adjacent_revealed_cells g gx gy = 0 := by
        by_contra hcne
        obtain ⟨q, hqm, hqv⟩ := count_adjacent_revealed_pos hcne
        have hqb := nbrs_bounds hw hh hqm
        rw [hnov q (mem_coords.mpr hqb)] at hqv
        exact Bool.false_ne_true hqv
      rw [hc0]
      rfl
    have hdall : dhcount g = g.width * g.height := by
      unfold dhcount
      rw [← coords_length g.width g.height]
      refine List.countP_eq_length.mpr fun p hp => ?_
      refine decide_eq_true ⟨by rw [hnov p hp]; exact Bool.false_ne_true, ?_⟩
      by_contra hcne
      obtain ⟨q, hqm, hqv⟩ := count_adjacent_revealed_pos hcne
      have hqb := nbrs_bounds hw hh hqm
      rw [hnov q (mem_coords.mpr hqb)] at hqv
      exact Bool.false_ne_true hqv
    have hadjDh : adjDh g gx gy = ((g.width * g.height : Nat) : Int) - 1 := by
      unfold adjDh
      rw [if_pos hrD, hdall]
    show mines_total (commit g gx gy mp false [] rng) = mines_total g
    by_cases hmp : mp = true
    · have hadjT : adjT g gx gy mp = (mines_total g : Int) - 1 := by
        unfold adjT
        rw [if_pos ⟨hrD, hmp⟩]
      have hcm := commit_mines_total g gx gy mp false [] rng hlen hgx hgy hhid hrng
        (fun hc => absurd hc (by simp))
        (by simp only [if_neg (show ¬(false = true) from by simp)]
            rw [hadjT, hsm]
            omega)
        (by simp only [if_neg (show ¬(false = true) from by simp)]
            rw [hadjT, hsm, hadjDh]
            omega)
      rw [hvis0] at hcm
      rw [hadjT, if_pos hrD, if_pos hmp] at hcm
      omega
    · have hadjT : adjT g gx gy mp = (mines_total g : Int) := by
        unfold adjT
        rw [if_neg (fun hc => hmp hc.2)]
        omega
      have hmp' : mp = false := by
        cases hb : mp
        · rfl
        · exact absurd hb hmp
      have hTne : mines_total g ≠ g.width * g.height := by
        intro hc
        exact h4 ⟨hc, hmp'⟩
      have hcm := commit_mines_total g gx gy mp false [] rng hlen hgx hgy hhid hrng
        (fun hc => absurd hc (by simp))
        (by simp only [if_neg (show ¬(false = true) from by simp)]
            rw [hadjT, hsm]
            omega)
        (by simp only [if_neg (show ¬(false = true) from by simp)]
            rw [hadjT, hsm, hadjDh]
            omega)
      rw [hvis0] at hcm
      rw [hadjT, if_pos hrD, if_neg hmp] at hcm
      omega
  rename_i h5
  split
  · rename_i h6
    obtain ⟨hrD, hmp, hdm⟩ := h6
    have hdc1 : 1 ≤ dhcount g := by
      have hc0 : count_adjacent_revealed_cells g gx gy = 0 := by
        have h0 := hrD
        unfold reqDeep at h0
        simpa using h0
      refine List.countP_pos_iff.mpr ⟨(gx, gy), mem_coords.mpr ⟨hgx, hgy⟩, ?_⟩
      exact decide_eq_true ⟨by rw [hhid]; exact Bool.false_ne_true, hc0⟩
    have hadjT : adjT g gx gy mp = (mines_total g : Int) - 1 := by
      unfold adjT
      rw [if_pos ⟨hrD, hmp⟩]
    have hadjDh : adjDh g gx gy = (dhcount g : Int) - 1 := by
      unfold adjDh
      rw [if_pos hrD]
    show mines_total (commit g gx gy mp false [] rng) = mines_total g
    have hcm := commit_mines_total g gx gy mp false [] rng hlen hgx hgy hhid hrng
      (fun hc => absurd hc (by simp))
      (by simp only [if_neg (show ¬(false = true) from by simp)]
          rw [hadjT]
          omega)
      (by simp only [if_neg (show ¬(false = true) from by simp)]
          rw [hadjT, hadjDh]
          omega)
    rw [hvis0] at hcm
    rw [hadjT, if_pos hrD, if_pos hmp] at hcm
    omega
  rename_i h6
  split
  · rename_i h7
    obtain ⟨hrD, hmp, hda⟩ := h7
    have hmpn : ¬mp = true := by
      rw [hmp]
      simp
    have hadjT : adjT g gx gy mp = (mines_total g : Int) := by
      unfold adjT
      rw [if_neg (fun hc => hmpn hc.2)]
      omega
    show mines_total (commit g gx gy mp false [] rng) = mines_total g
    have hcm := commit_mines_total g gx gy mp false [] rng hlen hgx hgy hhid hrng
      (fun hc => absurd hc (by simp))
      (by simp only [if_neg (show ¬(false = true) from by simp)]
          rw [hadjT]
          omega)
      (by simp only [if_neg (show ¬(false = true) from by simp)]
          rw [hadjT]
          omega)
    rw [hvis0] at hcm
    rw [hadjT, if_pos hrD, if_neg hmpn] at hcm
    omega
  rename_i h7
  split
  · rename_i sol hfeas
    have hhon := hsol (ncount g) (lpSystem g gx gy mp) sol hfeas
    have hSum : colSum sol (List.range' 1 (ncount g)) = (sol.countP id : Int) := by
      rw [← hhon.1]
      exact colSum_range sol
    have hGEmem : (⟨List.range' 1 (ncount g), Rel.ge,
        adjT g gx gy mp - adjDh g gx gy⟩ : Constraint) ∈ lpSystem g gx gy mp := by
      unfold lpSystem
      refine List.mem_append.mpr (Or.inl ?_)
      refine List.mem_append.mpr (Or.inr ?_)
      exact List.mem_cons_self _ _
    have hLEmem : (⟨List.range' 1 (ncount g), Rel.le, adjT g gx gy mp⟩ : Constraint)
        ∈ lpSystem g gx gy mp := by
      unfold lpSystem
      refine List.mem_append.mpr (Or.inl ?_)
      refine List.mem_append.mpr (Or.inr ?_)
      exact List.mem_cons_of_mem _ (List.mem_cons_self _ _)
    have hGE := hhon.2 _ hGEmem
    have hLE := hhon.2 _ hLEmem
    unfold rowHolds at hGE hLE
    simp only [] at hGE hLE
    rw [hSum] at hGE hLE
    show mines_total (commit g gx gy mp true sol rng) = mines_total g
    have hcm := commit_mines_total g gx gy mp true sol rng hlen hgx hgy hhid hrng
      (fun _ => hhon.1)
      (show (0 : Int) ≤ adjT g gx gy mp - ((sol.countP id : Nat) : Int) from by omega)
      (show adjT g gx gy mp - ((sol.countP id : Nat) : Int) ≤ adjDh g gx gy from by
        omega)
    rw [hvis0] at hcm
    by_cases hrD : reqDeep g gx gy = true
    · rw [if_pos hrD] at hcm
      by_cases hmp : mp = true
      · have hadjT : adjT g gx gy mp = (mines_total g : Int) - 1 := by
          unfold adjT
          rw [if_pos ⟨hrD, hmp⟩]
        rw [hadjT, if_pos hmp] at hcm
        omega
      · have hadjT : adjT g gx gy mp = (mines_total g : Int) := by
          unfold adjT
          rw [if_neg (fun hc => hmp hc.2)]
          omega
        rw [hadjT, if_neg hmp] at hcm
        omega
    · rw [if_neg hrD] at hcm
      have hadjT : adjT g gx gy mp = (mines_total g : Int) := by
        unfold adjT
        rw [if_neg (fun hc => hrD hc.1)]
        omega
      rw [hadjT] at hcm
      omega
  · rfl

/-- Witness for C2 at c5grid (a single hidden mine, nothing revealed):
requesting a mine at the deeply-hidden (3, 2) succeeds through the
no-revealed-numbers path and the total stays 1. -/
theorem C2_witness :
    mines_total c5grid = 1 ∧
    (alter_minefield c5grid 3 2 true (fun _ _ => SolverOutcome.failure)
      (fun j => j)).1 = true ∧
    mines_total (alter_minefield c5grid 3 2 true (fun _ _ => SolverOutcome.failure)
      (fun j => j)).2 = mines_total c5grid :=
  ⟨by decide, by decide,
   C2_mines_total c5grid 3 2 true (fun _ _ => SolverOutcome.failure) (fun j => j)
     (by decide) (by decide) (by decide) (by decide) (by decide)
     (fun j hj => ⟨hj, Nat.le_refl j⟩)
     (fun nv rows sol h => nomatch h)⟩


/-! ## C6: bucket_reveal flood fill -/

theorem grid_eq_of_fields {a b : Grid} (h1 : a.width = b.width)
    (h2 : a.height = b.height) (h3 : a.cells = b.cells) : a = b := by
  cases a
  cases b
  cases h1
  cases h2
  cases h3
  rfl

theorem reachZero_trans {g : Grid} {x y : Nat} {p q : Nat × Nat}
    (h1 : reachZero g x y p) (h2 : reachZero g p.1 p.2 q) : reachZero g x y q := by
  induction h2 with
  | start => exact h1
  | step a b _ hadj hmem ih => exact reachZero.step a b ih hadj hmem

theorem invCount_put_mark (g : Grid) (x y : Nat)
    (hidx : g.width * y + x < g.cells.length)
    (hvis : (g.get x y).visible = false) :
    invCount (g.put x y (markCell (g.get x y))) + 1 = invCount g := by
  have h := countP_set_eq (fun c => !c.visible) (markCell (g.get x y)) cell.virgin
    g.cells (g.width * y + x) hidx
  have hold : (fun c => !c.visible) (g.cells.getD (g.width * y + x) cell.virgin) = true := by
    show (!(g.get x y).visible) = true
    rw [hvis]
    rfl
  have hnew : (fun c => !c.visible) (markCell (g.get x y)) = false := rfl
  rw [hold, hnew] at h
  have h2 : (g.cells.set (g.width * y + x) (markCell (g.get x y))).countP
      (fun c => !c.visible) + 1
    = g.cells.countP (fun c => !c.visible) + 0 := h
  show (g.cells.set (g.width * y + x) (markCell (g.get x y))).countP (fun c => !c.visible) + 1
    = g.cells.countP (fun c => !c.visible)
  omega

theorem invCount_mono {g g' : Grid} (hmono : visMonotone g g')
    (hlen : g'.cells.length = g.cells.length) : invCount g' ≤ invCount g := by
  unfold invCount
  rw [countP_range_getD g.cells cell.virgin, countP_range_getD g'.cells cell.virgin, hlen]
  apply List.countP_mono_left
  intro i _ h
  have h' : (g'.cells.getD i cell.virgin).visible = false := by
    have := Bool.not_eq_true' ((g'.cells.getD i cell.virgin).visible)
    simp only [show ((fun i => !(g'.cells.getD i cell.virgin).visible) i)
      = !(g'.cells.getD i cell.virgin).visible from rfl] at h
    cases hb : (g'.cells.getD i cell.virgin).visible
    · rfl
    · rw [hb] at h
      exact absurd h (by decide)
  show (!(g.cells.getD i cell.virgin).visible) = true
  cases hb : (g.cells.getD i cell.virgin).visible
  · rfl
  · exact absurd (hmono i hb) (by rw [h']; exact Bool.false_ne_true)

theorem foldl_skip_visible (f : Nat) :
    ∀ (L : List (Nat × Nat)) (gg : Grid),
      (∀ s ∈ L, (gg.get s.1 s.2).visible = true) →
      L.foldl (fun gg p => if (gg.get p.1 p.2).visible then gg
        else bucketRevealF f gg p.1 p.2) gg = gg := by
  intro L
  induction L with
  | nil => intro gg _; rfl
  | cons s L ih =>
    intro gg hvis
    rw [List.foldl_cons]
    rw [if_pos (hvis s (List.mem_cons_self s L))]
    exact ih gg (fun t ht => hvis t (List.mem_cons_of_mem s ht))

theorem marked_unique {g : Grid} {W1 W2 : Nat × Nat → Prop} {G1 G2 : Grid}
    (hm1 : IsMarked g W1 G1) (hm2 : IsMarked g W2 G2)
    (hiff : ∀ p : Nat × Nat, p.1 < g.width → p.2 < g.height → (W1 p ↔ W2 p))
    (hlen : g.cells.length = g.width * g.height) (hw : 1 ≤ g.width) : G1 = G2 := by
  obtain ⟨hw1, hh1, hl1, hget1⟩ := hm1
  obtain ⟨hw2, hh2, hl2, hget2⟩ := hm2
  apply grid_eq_of_fields (by rw [hw1, hw2]) (by rw [hh1, hh2])
  apply list_eq_of_getD _ _ cell.virgin (by rw [hl1, hl2])
  intro i hi
  rw [hl1, hlen] at hi
  have hx : i % g.width < g.width := Nat.mod_lt i hw
  have hy : i / g.width < g.height := Nat.div_lt_of_lt_mul hi
  have hidx : g.width * (i / g.width) + i % g.width = i := Nat.div_add_mod i g.width
  have hg1 : G1.cells.getD i cell.virgin = G1.get (i % g.width) (i / g.width) := by
    show _ = G1.cells.getD (G1.width * (i / g.width) + i % g.width) cell.virgin
    rw [hw1, hidx]
  have hg2 : G2.cells.getD i cell.virgin = G2.get (i % g.width) (i / g.width) := by
    show _ = G2.cells.getD (G2.width * (i / g.width) + i % g.width) cell.virgin
    rw [hw2, hidx]
  rw [hg1, hg2]
  by_cases hW : W1 (i % g.width, i / g.width)
  · rw [(hget1 (i % g.width, i / g.width) hx hy).1 hW,
      (hget2 (i % g.width, i / g.width) hx hy).1 ((hiff _ hx hy).mp hW)]
  · rw [(hget1 (i % g.width, i / g.width) hx hy).2 hW,
      (hget2 (i % g.width, i / g.width) hx hy).2 (fun h => hW ((hiff _ hx hy).mpr h))]


theorem idx_ne_of_ne {w : Nat} {p q : Nat × Nat} (hp : p.1 < w) (hq : q.1 < w)
    (hne : p ≠ q) : w * p.2 + p.1 ≠ w * q.2 + q.1 := by
  intro he
  apply hne
  obtain ⟨a, b⟩ := p
  obtain ⟨c, d⟩ := q
  obtain ⟨e1, e2⟩ := grid_idx_inj hp hq he
  rw [Prod.mk.injEq]
  exact ⟨e1, e2⟩

theorem brf_step_vis (f : Nat) (gg : Grid) (s : Nat × Nat)
    (hv : (gg.get s.1 s.2).visible = true) :
    (fun (gg : Grid) (p : Nat × Nat) => if (gg.get p.1 p.2).visible then gg
      else bucketRevealF f gg p.1 p.2) gg s = gg := by
  show (if (gg.get s.1 s.2).visible = true then gg else bucketRevealF f gg s.1 s.2) = gg
  rw [if_pos hv]

theorem brf_step_hid (f : Nat) (gg : Grid) (s : Nat × Nat)
    (hv : (gg.get s.1 s.2).visible = false) :
    (fun (gg : Grid) (p : Nat × Nat) => if (gg.get p.1 p.2).visible then gg
      else bucketRevealF f gg p.1 p.2) gg s = bucketRevealF f gg s.1 s.2 := by
  show (if (gg.get s.1 s.2).visible = true then gg else bucketRevealF f gg s.1 s.2) = _
  rw [hv]
  rfl

/-- Main characterization of the flood fill: from a hidden in-bounds root
on a grid whose marked set is W, the fill extends the marking to a set W'
containing the root, sound for the reach-from-root region, and closed
outside the pending exception set E; the hidden count strictly drops. -/
theorem brf_marked (g : Grid) (hlen : g.cells.length = g.width * g.height)
    (hw : 1 ≤ g.width) (hh : 1 ≤ g.height) :
    ∀ (f : Nat) (W E : Nat × Nat → Prop) (gg : Grid) (r : Nat × Nat),
      IsMarked g W gg → regionClosed g W E →
      r.1 < g.width → r.2 < g.height →
      (gg.get r.1 r.2).visible = false →
      invCount gg < f →
      ∃ W' : Nat × Nat → Prop,
        IsMarked g W' (bucketRevealF f gg r.1 r.2) ∧
        (∀ p, W p → W' p) ∧ W' r ∧
        (∀ p, W' p → W p ∨ (reachZero g r.1 r.2 p ∧ (g.get p.1 p.2).visible = false)) ∧
        regionClosed g W' E ∧
        invCount (bucketRevealF f gg r.1 r.2) + 1 ≤ invCount gg := by
  intro f
  induction f with
  | zero =>
    intro W E gg r _ _ _ _ _ hfuel
    exact absurd hfuel (by omega)
  | succ f ih =>
    intro W E gg r him hcl hr1 hr2 hvis hfuel
    obtain ⟨hgw, hgh, hgl, hget⟩ := him
    have hWr : ¬W r := by
      intro hWr
      have hm := (hget r hr1 hr2).1 hWr
      rw [hm] at hvis
      exact absurd hvis (by simp [markCell])
    have hgr : gg.get r.1 r.2 = g.get r.1 r.2 := (hget r hr1 hr2).2 hWr
    have hgvis : (g.get r.1 r.2).visible = false := by rw [← hgr]; exact hvis
    have hidx : gg.width * r.2 + r.1 < gg.cells.length := by
      rw [hgw, hgl, hlen]
      exact grid_idx_lt hr1 hr2
    have hg1self : (gg.put r.1 r.2 (markCell (gg.get r.1 r.2))).get r.1 r.2
        = markCell (gg.get r.1 r.2) := get_put_self hidx
    have hg1w : (gg.put r.1 r.2 (markCell (gg.get r.1 r.2))).width = g.width := hgw
    have hg1h : (gg.put r.1 r.2 (markCell (gg.get r.1 r.2))).height = g.height := hgh
    have hg1l : (gg.put r.1 r.2 (markCell (gg.get r.1 r.2))).cells.length
        = g.cells.length := by
      show (gg.cells.set _ _).length = _
      rw [List.length_set]
      exact hgl
    have him1 : IsMarked g (fun p => W p ∨ p = r)
        (gg.put r.1 r.2 (markCell (gg.get r.1 r.2))) := by
      refine ⟨hg1w, hg1h, hg1l, ?_⟩
      intro p hp1 hp2
      constructor
      · intro hWp
        cases hWp with
        | inl hWp =>
          have hpr : p ≠ r := by
            intro he
            rw [he] at hWp
            exact hWr hWp
          have hne : gg.width * r.2 + r.1 ≠ gg.width * p.2 + p.1 :=
            idx_ne_of_ne (by rw [hgw]; exact hr1) (by rw [hgw]; exact hp1)
              (fun he => hpr he.symm)
          rw [get_put_ne hne]
          exact (hget p hp1 hp2).1 hWp
        | inr hpr =>
          cases hpr
          rw [hg1self, hgr]
      · intro hnWp
        have hnW : ¬W p := fun hc => hnWp (Or.inl hc)
        have hpr : p ≠ r := fun hc => hnWp (Or.inr hc)
        have hne : gg.width * r.2 + r.1 ≠ gg.width * p.2 + p.1 :=
          idx_ne_of_ne (by rw [hgw]; exact hr1) (by rw [hgw]; exact hp1)
            (fun he => hpr he.symm)
        rw [get_put_ne hne]
        exact (hget p hp1 hp2).2 hnW
    have hsound1 : ∀ p, (W p ∨ p = r) →
        W p ∨ (reachZero g r.1 r.2 p ∧ (g.get p.1 p.2).visible = false) := by
      intro p hp
      cases hp with
      | inl hp => exact Or.inl hp
      | inr hp =>
        cases hp
        exact Or.inr ⟨reachZero.start, hgvis⟩
    have hinv1 : invCount (gg.put r.1 r.2 (markCell (gg.get r.1 r.2))) + 1
        = invCount gg := invCount_put_mark gg r.1 r.2 hidx hvis
    rw [bucketRevealF]
    split
    · rename_i hadj
      have hadj2 : (gg.get r.1 r.2).adj = 0 := by
        rw [hg1self] at hadj
        exact hadj
      have hadjG : (g.get r.1 r.2).adj = 0 := by
        rw [← hgr]
        exact hadj2
      have hcl1 : regionClosed g (fun p => W p ∨ p = r) (fun q => E q ∨ q = r) := by
        intro q hq hnq hadjq s hs
        cases hq with
        | inl hq =>
          exact (hcl q hq (fun hc => hnq (Or.inl hc)) hadjq s hs).imp Or.inl id
        | inr hq => exact absurd (Or.inr hq) hnq
      have hlist : nbrs (gg.put r.1 r.2 (markCell (gg.get r.1 r.2))).width
          (gg.put r.1 r.2 (markCell (gg.get r.1 r.2))).height r.1 r.2
          = nbrs g.width g.height r.1 r.2 := by
        show nbrs gg.width gg.height r.1 r.2 = nbrs g.width g.height r.1 r.2
        rw [hgw, hgh]
      rw [hlist]
      have foldlem : ∀ (L : List (Nat × Nat)),
          (∀ s ∈ L, s ∈ nbrs g.width g.height r.1 r.2) →
          ∀ (gg2 : Grid) (W2 : Nat × Nat → Prop),
            IsMarked g W2 gg2 → W2 r →
            (∀ p, W2 p →
              W p ∨ (reachZero g r.1 r.2 p ∧ (g.get p.1 p.2).visible = false)) →
            regionClosed g W2 (fun q => E q ∨ q = r) →
            invCount gg2 + 1 ≤ invCount gg →
            ∃ W3 : Nat × Nat → Prop,
              IsMarked g W3 (L.foldl (fun gg p => if (gg.get p.1 p.2).visible then gg
                else bucketRevealF f gg p.1 p.2) gg2) ∧
              (∀ p, W2 p → W3 p) ∧
              (∀ p, W3 p →
                W p ∨ (reachZero g r.1 r.2 p ∧ (g.get p.1 p.2).visible = false)) ∧
              regionClosed g W3 (fun q => E q ∨ q = r) ∧
              (∀ s ∈ L, W3 s ∨ (g.get s.1 s.2).visible = true) ∧
              invCount (L.foldl (fun gg p => if (gg.get p.1 p.2).visible then gg
                else bucketRevealF f gg p.1 p.2) gg2) + 1 ≤ invCount gg := by
        intro L
        induction L with
        | nil =>
          intro _ gg2 W2 him2 hW2r hsound2 hcl2 hinv2
          exact ⟨W2, him2, fun p hp => hp, hsound2, hcl2,
            fun s hs => absurd hs (List.not_mem_nil s), hinv2⟩
        | cons s L ihL =>
          intro hsub gg2 W2 him2 hW2r hsound2 hcl2 hinv2
          have hsmem : s ∈ nbrs g.width g.height r.1 r.2 :=
            hsub s (List.mem_cons_self s L)
          have hsb := nbrs_bounds hw hh hsmem
          rw [List.foldl_cons]
          by_cases hv : (gg2.get s.1 s.2).visible = true
          · rw [if_pos hv]
            obtain ⟨W3, hm3, hmono3, hsound3, hcl3, hnbr3, hinv3⟩ :=
              ihL (fun t ht => hsub t (List.mem_cons_of_mem s ht))
                gg2 W2 him2 hW2r hsound2 hcl2 hinv2
            refine ⟨W3, hm3, hmono3, hsound3, hcl3, ?_, hinv3⟩
            intro t ht
            cases List.mem_cons.mp ht with
            | inl he =>
              cases he
              by_cases hW2s : W2 s
              · exact Or.inl (hmono3 s hW2s)
              · refine Or.inr ?_
                rw [← (him2.2.2.2 s hsb.1 hsb.2).2 hW2s]
                exact hv
            | inr ht => exact hnbr3 t ht
          · have hv' : (gg2.get s.1 s.2).visible = false := by
              cases hb : (gg2.get s.1 s.2).visible
              · rfl
              · exact absurd hb hv
            rw [if_neg (show ¬(gg2.get s.1 s.2).visible = true from
              fun hc => Bool.false_ne_true (hv' ▸ hc))]
            obtain ⟨W4, hm4, hmono4, hW4s, hsound4, hcl4, hinv4⟩ :=
              ih W2 (fun q => E q ∨ q = r) gg2 s him2 hcl2 hsb.1 hsb.2 hv'
                (by omega)
            have hrs : reachZero g r.1 r.2 s :=
              reachZero.step (r.1, r.2) s reachZero.start hadjG hsmem
            have hsound4' : ∀ p, W4 p →
                W p ∨ (reachZero g r.1 r.2 p ∧ (g.get p.1 p.2).visible = false) := by
              intro p hp
              cases hsound4 p hp with
              | inl hp2 => exact hsound2 p hp2
              | inr hp2 => exact Or.inr ⟨reachZero_trans hrs hp2.1, hp2.2⟩
            obtain ⟨W3, hm3, hmono3, hsound3, hcl3, hnbr3, hinv3⟩ :=
              ihL (fun t ht => hsub t (List.mem_cons_of_mem s ht))
                (bucketRevealF f gg2 s.1 s.2) W4 hm4 (hmono4 r hW2r) hsound4' hcl4
                (by omega)
            refine ⟨W3, hm3, fun p hp => hmono3 p (hmono4 p hp), hsound3, hcl3, ?_, hinv3⟩
            intro t ht
            cases List.mem_cons.mp ht with
            | inl he =>
              cases he
              exact Or.inl (hmono3 s hW4s)
            | inr ht => exact hnbr3 t ht
      obtain ⟨W3, hm3, hmono3, hsound3, hcl3, hnbr3, hinv3⟩ :=
        foldlem (nbrs g.width g.height r.1 r.2) (fun t ht => ht)
          (gg.put r.1 r.2 (markCell (gg.get r.1 r.2))) (fun p => W p ∨ p = r)
          him1 (Or.inr rfl) hsound1 hcl1 (by omega)
      refine ⟨W3, hm3, fun p hp => hmono3 p (Or.inl hp), hmono3 r (Or.inr rfl),
        hsound3, ?_, by omega⟩
      intro q hq hnq hadjq s hs
      by_cases hqr : q = r
      · cases hqr
        exact hnbr3 s hs
      · exact hcl3 q hq (fun hc => by
          cases hc with
          | inl hc => exact hnq hc
          | inr hc => exact hqr hc) hadjq s hs
    · rename_i hadj
      have hadjGn : ¬(g.get r.1 r.2).adj = 0 := by
        intro hc
        apply hadj
        rw [hg1self]
        show (gg.get r.1 r.2).adj = 0
        rw [hgr]
        exact hc
      refine ⟨fun p => W p ∨ p = r, him1, fun p hp => Or.inl hp, Or.inr rfl,
        hsound1, ?_, by omega⟩
      intro q hq hnq hadjq s hs
      cases hq with
      | inl hq => exact (hcl q hq hnq hadjq s hs).imp Or.inl id
      | inr hq =>
        cases hq
        exact absurd hadjq hadjGn


theorem isMarked_self (g : Grid) : IsMarked g (fun _ => False) g :=
  ⟨rfl, rfl, rfl, fun _ _ _ => ⟨fun h => False.elim h, fun _ => rfl⟩⟩

theorem isMarked_iff {g : Grid} {W1 W2 : Nat × Nat → Prop} {gg : Grid}
    (hm : IsMarked g W1 gg)
    (hiff : ∀ p : Nat × Nat, p.1 < g.width → p.2 < g.height → (W1 p ↔ W2 p)) :
    IsMarked g W2 gg := by
  obtain ⟨h1, h2, h3, h4⟩ := hm
  refine ⟨h1, h2, h3, fun p hp1 hp2 => ⟨?_, ?_⟩⟩
  · intro hw2
    exact (h4 p hp1 hp2).1 ((hiff p hp1 hp2).mpr hw2)
  · intro hnw2
    exact (h4 p hp1 hp2).2 (fun hw1 => hnw2 ((hiff p hp1 hp2).mp hw1))

theorem isMarked_put {g : Grid} {W : Nat × Nat → Prop} {gg : Grid} {x y : Nat}
    (him : IsMarked g W gg) (hx : x < g.width) (hy : y < g.height)
    (hlen : g.cells.length = g.width * g.height) (hnW : ¬W (x, y)) :
    IsMarked g (fun p => W p ∨ p = (x, y)) (gg.put x y (markCell (gg.get x y))) := by
  obtain ⟨hgw, hgh, hgl, hget⟩ := him
  have hidx : gg.width * y + x < gg.cells.length := by
    rw [hgw, hgl, hlen]
    exact grid_idx_lt hx hy
  refine ⟨hgw, hgh, ?_, ?_⟩
  · show (gg.cells.set _ _).length = _
    rw [List.length_set]
    exact hgl
  intro p hp1 hp2
  constructor
  · intro hp
    cases hp with
    | inl hp =>
      have hpr : p ≠ (x, y) := fun he => hnW (he ▸ hp)
      have hne : gg.width * y + x ≠ gg.width * p.2 + p.1 :=
        @idx_ne_of_ne gg.width (x, y) p (by rw [hgw]; exact hx) (by rw [hgw]; exact hp1)
          (fun he => hpr he.symm)
      rw [get_put_ne hne]
      exact (hget p hp1 hp2).1 hp
    | inr hp =>
      cases hp
      rw [get_put_self hidx, (hget (x, y) hx hy).2 hnW]
  · intro hnp
    have hnW2 : ¬W p := fun hc => hnp (Or.inl hc)
    have hpr : p ≠ (x, y) := fun hc => hnp (Or.inr hc)
    have hne : gg.width * y + x ≠ gg.width * p.2 + p.1 :=
      @idx_ne_of_ne gg.width (x, y) p (by rw [hgw]; exact hx) (by rw [hgw]; exact hp1)
        (fun he => hpr he.symm)
    rw [get_put_ne hne]
    exact (hget p hp1 hp2).2 hnW2

theorem reachZero_bounds {g : Grid} {x y : Nat} (hw : 1 ≤ g.width) (hh : 1 ≤ g.height)
    (hx : x < g.width) (hy : y < g.height) :
    ∀ p, reachZero g x y p → p.1 < g.width ∧ p.2 < g.height := by
  intro p hp
  induction hp with
  | start => exact ⟨hx, hy⟩
  | step a b _ _ hmem _ => exact nbrs_bounds hw hh hmem

theorem reachZero_visible {g : Grid} {x y : Nat} (hzc : zeroClosure g)
    (hw : 1 ≤ g.width) (hh : 1 ≤ g.height) (hx : x < g.width) (hy : y < g.height)
    (hvis : (g.get x y).visible = true) :
    ∀ p, reachZero g x y p → (g.get p.1 p.2).visible = true := by
  intro p hp
  induction hp with
  | start => exact hvis
  | step a b ha hadj hmem iha =>
    exact hzc a (mem_coords.mpr (reachZero_bounds hw hh hx hy a ha)) iha hadj b hmem

theorem reachZero_covered {g : Grid} {x y : Nat} {V : Nat × Nat → Prop}
    (hw : 1 ≤ g.width) (hh : 1 ≤ g.height) (hx : x < g.width) (hy : y < g.height)
    (hzc : zeroClosure g) (hcl : regionClosed g V (fun _ => False)) (hroot : V (x, y)) :
    ∀ p, reachZero g x y p → V p ∨ (g.get p.1 p.2).visible = true := by
  intro p hp
  induction hp with
  | start => exact Or.inl hroot
  | step a b ha hadj hmem iha =>
    cases iha with
    | inl hV => exact hcl a hV (fun hc => hc) hadj b hmem
    | inr hv =>
      exact Or.inr
        (hzc a (mem_coords.mpr (reachZero_bounds hw hh hx hy a ha)) hv hadj b hmem)

/-- Any sufficient fuel yields the canonically marked grid: exactly the
clicked cell plus the hidden part of its reach-through-zero region. -/
theorem brf_canonical (g : Grid) (x y : Nat)
    (hlen : g.cells.length = g.width * g.height) (hw : 1 ≤ g.width) (hh : 1 ≤ g.height)
    (hzc : zeroClosure g) (hx : x < g.width) (hy : y < g.height) :
    ∀ f, invCount g < f →
      IsMarked g (fun p => p = (x, y) ∨
        (reachZero g x y p ∧ (g.get p.1 p.2).visible = false))
        (bucketRevealF f g x y) := by
  intro f hf
  by_cases hvis : (g.get x y).visible = true
  · cases f with
    | zero => omega
    | succ f' =>
      rw [bucketRevealF]
      have hG1 : IsMarked g (fun p => (fun _ => False) p ∨ p = (x, y))
          (g.put x y (markCell (g.get x y))) :=
        isMarked_put (isMarked_self g) hx hy hlen (fun h => h)
      have hG1' : IsMarked g (fun p => p = (x, y) ∨
          (reachZero g x y p ∧ (g.get p.1 p.2).visible = false))
          (g.put x y (markCell (g.get x y))) := by
        refine isMarked_iff hG1 ?_
        intro p hp1 hp2
        constructor
        · intro hp
          cases hp with
          | inl hp => exact False.elim hp
          | inr hp => exact Or.inl hp
        · intro hp
          cases hp with
          | inl hp => exact Or.inr hp
          | inr hp =>
            exact absurd (reachZero_visible hzc hw hh hx hy hvis p hp.1)
              (by rw [hp.2]; exact Bool.false_ne_true)
      split
      · rename_i hadj
        have hadjG : (g.get x y).adj = 0 := by
          rw [get_put_self (by rw [hlen]; exact grid_idx_lt hx hy)] at hadj
          exact hadj
        have hskip : (nbrs (g.put x y (markCell (g.get x y))).width
            (g.put x y (markCell (g.get x y))).height x y).foldl
            (fun gg p => if (gg.get p.1 p.2).visible then gg
              else bucketRevealF f' gg p.1 p.2) (g.put x y (markCell (g.get x y)))
            = g.put x y (markCell (g.get x y)) := by
          apply foldl_skip_visible
          intro s hs
          have hsm : s ∈ nbrs g.width g.height x y := hs
          have hsb := nbrs_bounds hw hh hsm
          have hsne := (mem_nbrs.mp hsm).2.2
          have hne : g.width * y + x ≠ g.width * s.2 + s.1 := by
            intro he
            obtain ⟨e1, e2⟩ := grid_idx_inj hx hsb.1 he
            exact hsne ⟨e1.symm, e2.symm⟩
          show ((g.put x y (markCell (g.get x y))).get s.1 s.2).visible = true
          rw [get_put_ne hne]
          exact hzc (x, y) (mem_coords.mpr ⟨hx, hy⟩) hvis hadjG s hsm
        rw [hskip]
        exact hG1'
      · exact hG1'
  · have hvis' : (g.get x y).visible = false := by
      cases hb : (g.get x y).visible
      · rfl
      · exact absurd hb hvis
    obtain ⟨W', hm', hmono', hroot', hsound', hcl', hinv'⟩ :=
      brf_marked g hlen hw hh f (fun _ => False) (fun _ => False) g (x, y)
        (isMarked_self g) (fun q hq => False.elim hq) hx hy hvis' hf
    refine isMarked_iff hm' ?_
    intro p hp1 hp2
    constructor
    · intro hp
      cases hsound' p hp with
      | inl h => exact False.elim h
      | inr h => exact Or.inr h
    · intro hp
      cases hp with
      | inl hp =>
        cases hp
        exact hroot'
      | inr hp =>
        cases reachZero_covered hw hh hx hy hzc hcl' hroot' p hp.1 with
        | inl h => exact h
        | inr h => exact absurd h (by rw [hp.2]; exact Bool.false_ne_true)


/-- C6: as stated over every grid with truthful adjacency counts the claim
is false: already-visible cells block the recursion, so the flood fill
from (0, 0) on an all-zero grid with a visible wall at x = 2 never
reaches (4, 0), even though (4, 0) lies in the maximal 8-connected
zero-adjacency region of (0, 0) (here witnessed by a concrete
zero-region path along the top row). -/
theorem C6_counterexample :
    adjInvariant c6grid ∧
    (c6grid.get 0 0).adj = 0 ∧
    reachZero c6grid 0 0 (4, 0) ∧
    (c6grid.get 4 0).visible = false ∧
    ((bucket_reveal c6grid 0 0).get 4 0).visible = false := by
  refine ⟨by decide, by decide, ?_, by decide, by decide⟩
  exact reachZero.step (3, 0) (4, 0)
    (reachZero.step (2, 0) (3, 0)
      (reachZero.step (1, 0) (2, 0)
        (reachZero.step (0, 0) (1, 0) reachZero.start (by decide) (by decide))
        (by decide) (by decide))
      (by decide) (by decide))
    (by decide) (by decide)

/-- C6 (amended): on a well-formed grid with truthful adjacency counts
that also satisfies zero-closure, bucket_reveal at an in-bounds (x, y)
terminates — any fuel beyond the hidden-cell count yields the same
result — never re-enters an already-visible cell (every other previously
visible cell is wholly untouched), and reveals exactly the
reach-through-zero region of (x, y): a cell is visible afterwards iff it
was visible before or lies in that region (for a zero click this is the
maximal 8-connected zero region plus its border; for a nonzero click just
the clicked cell); clicking an already-visible cell changes no cell's
visibility. -/
theorem C6_bucket_reveal (g : Grid) (x y : Nat) (hwf : g.wf)
    (hinv : adjInvariant g) (hzc : zeroClosure g)
    (hx : x < g.width) (hy : y < g.height) :
    (∀ f, invCount g < f → bucketRevealF f g x y = bucket_reveal g x y) ∧
    (∀ p : Nat × Nat, p.1 < g.width → p.2 < g.height →
      (g.get p.1 p.2).visible = true → p ≠ (x, y) →
      (bucket_reveal g x y).get p.1 p.2 = g.get p.1 p.2) ∧
    (∀ p : Nat × Nat, p.1 < g.width → p.2 < g.height →
      (((bucket_reveal g x y).get p.1 p.2).visible = true ↔
        ((g.get p.1 p.2).visible = true ∨ reachZero g x y p))) ∧
    ((g.get x y).visible = true →
      ∀ p : Nat × Nat, p.1 < g.width → p.2 < g.height →
        ((bucket_reveal g x y).get p.1 p.2).visible = (g.get p.1 p.2).visible) := by
  obtain ⟨hlen, hw, hh⟩ := hwf
  have hcan := brf_canonical g x y hlen hw hh hzc hx hy
  have hm : IsMarked g (fun p => p = (x, y) ∨
      (reachZero g x y p ∧ (g.get p.1 p.2).visible = false))
      (bucket_reveal g x y) := hcan (invCount g + 2) (by omega)
  refine ⟨?_, ?_, ?_, ?_⟩
  · intro f hf
    exact marked_unique (hcan f hf) hm (fun p _ _ => Iff.rfl) hlen hw
  · intro p hp1 hp2 hpv hpne
    refine (hm.2.2.2 p hp1 hp2).2 ?_
    intro hc
    cases hc with
    | inl hc => exact hpne hc
    | inr hc => exact absurd hpv (by rw [hc.2]; exact Bool.false_ne_true)
  · intro p hp1 hp2
    constructor
    · intro hv
      by_cases hM : p = (x, y) ∨ (reachZero g x y p ∧ (g.get p.1 p.2).visible = false)
      · cases hM with
        | inl hM =>
          cases hM
          exact Or.inr reachZero.start
        | inr hM => exact Or.inr hM.1
      · rw [(hm.2.2.2 p hp1 hp2).2 hM] at hv
        exact Or.inl hv
    · intro hv
      by_cases hM : p = (x, y) ∨ (reachZero g x y p ∧ (g.get p.1 p.2).visible = false)
      · rw [(hm.2.2.2 p hp1 hp2).1 hM]
        rfl
      · rw [(hm.2.2.2 p hp1 hp2).2 hM]
        cases hv with
        | inl hv => exact hv
        | inr hv =>
          cases hb : (g.get p.1 p.2).visible
          · exact absurd (Or.inr ⟨hv, hb⟩) hM
          · rfl
  · intro hvc p hp1 hp2
    by_cases hM : p = (x, y) ∨ (reachZero g x y p ∧ (g.get p.1 p.2).visible = false)
    · cases hM with
      | inl hM =>
        cases hM
        rw [(hm.2.2.2 (x, y) hp1 hp2).1 (Or.inl rfl), hvc]
        rfl
      | inr hM =>
        exact absurd (reachZero_visible hzc hw hh hx hy hvc p hM.1)
          (by rw [hM.2]; exact Bool.false_ne_true)
    · rw [(hm.2.2.2 p hp1 hp2).2 hM]

/-- Witness for C6 on the all-hidden mine-free 5 x 3 grid: revealing
(0, 0) makes the far corner (4, 2) visible, via an explicit path through
the zero region. -/
theorem C6_witness :
    c1grid.wf ∧ zeroClosure c1grid ∧
    ((bucket_reveal c1grid 0 0).get 4 2).visible = true := by
  refine ⟨by decide, by decide, ?_⟩
  have h := (C6_bucket_reveal c1grid 0 0 (by decide) (by decide) (by decide)
    (by decide) (by decide)).2.2.1 (4, 2) (by decide) (by decide)
  refine h.mpr (Or.inr ?_)
  exact reachZero.step (3, 1) (4, 2)
    (reachZero.step (2, 1) (3, 1)
      (reachZero.step (1, 1) (2, 1)
        (reachZero.step (0, 0) (1, 1) reachZero.start (by decide) (by decide))
        (by decide) (by decide))
      (by decide) (by decide))
    (by decide) (by decide)

end Minesweeper
